import Mathlib

/-!
# The blisp reader (`code/parse.c`): lexer and recursive-descent parser

A shallow embedding of the reader of `code/parse.c` and theorems about it.

Modelling conventions.

* The source buffer is a `List Char`; the cursor `p->stream` is the list of the
  characters from the cursor on.  Reading at the end of the list yields the
  terminator `0`; a `0` character inside the list is seen by the code as a
  terminator as well, exactly as in C.
* C character codes (`char`, widened to `i64` by `lex_last`) are `Char`s.
* `i64` values are `Int`s, wrapped into the two's-complement range after each
  arithmetic operation (`wrap_i64`).
* `assert` aborts the parse: `ParseResult.grammar_error`.
* Loops carry an explicit iteration budget; every entry point supplies a budget
  that is proved sufficient below.
-/

namespace Blisp

/-! ## Data model -/

/-- Token kinds of `enum TokenType`, in declaration order (`TOKEN_EOF` is `0`). -/
inductive TokenType
  | TOKEN_EOF
  | TOKEN_LPAREN
  | TOKEN_RPAREN
  | TOKEN_SYMBOL
  | TOKEN_NUMBER
  | TOKEN_QUOTE
  | TOKEN_COMMA
  | TOKEN_DOT
  deriving DecidableEq, Repr

open TokenType

/-- The `struct Token`: `str` is a `char *` (`none` is the null pointer). -/
structure Token where
  type : TokenType
  str : Option (List Char)
  num : Int
  deriving DecidableEq, Repr

/-- The `struct Parser`: the cursor into the text and the lookahead token. -/
structure Parser where
  stream : List Char
  last_token : Token
  deriving DecidableEq, Repr

/-- The S-expression tree built by the reader. -/
inductive Expr
  | Nil
  | Integer (n : Int)
  | Symbol (s : List Char)
  | Pair (car cdr : Expr)
  deriving DecidableEq, Repr

/-- Modelled from the spec: the constant `nil`, absent from src/; the empty list `Nil`. -/
def nil : Expr := Expr.Nil

/-- Modelled from the spec: `cons(car, cdr) -> Pair`, absent from src/; a new pair node
owning both arguments. -/
def cons (car cdr : Expr) : Expr := Expr.Pair car cdr

/-- Modelled from the spec: `make_int(i64) -> Expr`, absent from src/; the integer leaf. -/
def make_int (n : Int) : Expr := Expr.Integer n

/-- Modelled from the spec: `make_sym(text) -> Expr`, absent from src/; the symbol leaf
holding the text (a null pointer is read as the empty text). -/
def make_sym (s : Option (List Char)) : Expr := Expr.Symbol (s.getD [])

/-- Modelled from the spec: `list_append(list, expr) -> list`, absent from src/; by its
contract it concatenates the second argument onto the end of the first, so that appending
to the empty list `Nil` gives the second argument. A first argument that is a non-`Nil`
atom is outside the contract and is returned unchanged. -/
def list_append : Expr → Expr → Expr
  | Expr.Nil, e => e
  | Expr.Pair a d, e => Expr.Pair a (list_append d e)
  | l, _ => l

/-- Modelled from the spec: `list_pushb(list, expr) -> list`, absent from src/; by its
contract it adds one element at the end of the list. A first argument that is a non-`Nil`
atom is outside the contract and is returned unchanged. -/
def list_pushb : Expr → Expr → Expr
  | Expr.Nil, e => Expr.Pair e Expr.Nil
  | Expr.Pair a d, e => Expr.Pair a (list_pushb d e)
  | l, _ => l

/-- Two's-complement wrap of an integer into the `i64` range. -/
def wrap_i64 (x : Int) : Int := (x + 2 ^ 63) % 2 ^ 64 - 2 ^ 63

/-! ## Character classes -/

/-- The predicate `is_whitespace_char` (the tab is listed twice in the source). -/
def is_whitespace_char (c : Char) : Bool :=
  c == ' ' || c == '\t' || c == '\r' || c == '\n' || c == '\t'

/-- The predicate `is_digit_char`. -/
def is_digit_char (c : Char) : Bool :=
  decide ('0' ≤ c) && decide (c ≤ '9')

/-- The predicate `is_literal_char`. -/
def is_literal_char (c : Char) : Bool :=
  !(c == '(' || c == ')' || c == '\x00' || is_whitespace_char c)

/-- The function `char_digit_value`: `c - '0'`. -/
def char_digit_value (c : Char) : Int :=
  (c.toNat : Int) - (('0' : Char).toNat : Int)

/-! ## Lexer -/

/-- The function `lex_advance`: `p->stream++`. -/
def lex_advance (p : Parser) : Parser :=
  { p with stream := p.stream.tail }

/-- The function `lex_last`: `*p->stream`; the end of the list is the terminator. -/
def lex_last (p : Parser) : Char :=
  p.stream.headD '\x00'

/-- The function `lex_is`. -/
def lex_is (p : Parser) (i : Char) : Bool :=
  lex_last p == i

/-- The function `lex_is_whitespace`. -/
def lex_is_whitespace (p : Parser) : Bool :=
  is_whitespace_char (lex_last p)

/-- The function `lex_is_digit`. -/
def lex_is_digit (p : Parser) : Bool :=
  is_digit_char (lex_last p)

/-- The function `lex_is_literal`. -/
def lex_is_literal (p : Parser) : Bool :=
  is_literal_char (lex_last p)

/-- The function `lex_is_eof`. -/
def lex_is_eof (p : Parser) : Bool :=
  lex_last p == '\x00'

/-- The function `lex_match`: the flag returned and the parser afterwards. -/
def lex_match (p : Parser) (i : Char) : Bool × Parser :=
  if lex_last p == i then (true, lex_advance p) else (false, p)

/-- The inner loop of `lex_match_whitespace`:
`until(lex_is(p, 0) || lex_is(p, '\n')) lex_advance(p);`, with an iteration budget. -/
def lex_skip_line : Nat → Parser → Parser
  | 0, p => p
  | n + 1, p =>
    if lex_is p '\x00' || lex_is p '\n' then p
    else lex_skip_line n (lex_advance p)

/-- The outer `for(;;)` loop of `lex_match_whitespace`, with an iteration budget. -/
def lex_match_whitespace_loop : Nat → Parser → Parser
  | 0, p => p
  | n + 1, p =>
    if lex_is_whitespace p then
      lex_match_whitespace_loop n (lex_advance p)
    else if lex_is p ';' then
      lex_match_whitespace_loop n (lex_skip_line (p.stream.length + 1) p)
    else
      p

/-- The function `lex_match_whitespace`. -/
def lex_match_whitespace (p : Parser) : Parser :=
  lex_match_whitespace_loop (p.stream.length + 1) p

/-- The function `lex_match_digit`. -/
def lex_match_digit (p : Parser) : Bool × Parser :=
  if is_digit_char (lex_last p) then (true, lex_advance p) else (false, p)

/-- The `while` loop of `lex_read_literal`, with an iteration budget: `str` is the text
accumulated so far. -/
def lex_read_literal_loop : Nat → List Char → Parser → List Char × Parser
  | 0, str, p => (str, p)
  | n + 1, str, p =>
    if lex_is_literal p then
      lex_read_literal_loop n (str ++ [lex_last p]) (lex_advance p)
    else
      (str, p)

/-- The function `lex_read_literal`: the text read and the parser afterwards. -/
def lex_read_literal (p : Parser) : List Char × Parser :=
  lex_read_literal_loop (p.stream.length + 1) [] p

/-- The digit loop of `lex_literal` over the rest of the literal: it returns
`(value, ndigits, is_number)`. -/
def lex_literal_digits : List Char → Int → Nat → Bool → Int × Nat × Bool
  | [], value, ndigits, is_number => (value, ndigits, is_number)
  | c :: str, value, ndigits, is_number =>
    if !is_digit_char c then
      (value, ndigits, false)
    else
      lex_literal_digits str (wrap_i64 (10 * value + char_digit_value c)) (ndigits + 1)
        is_number

/-- The function `lex_literal`. -/
def lex_literal (p : Parser) : Parser :=
  let lit := (lex_read_literal p).1
  let p := (lex_read_literal p).2
  let sign : Int := if lit.head? = some '-' then -1 else 1
  let str := if lit.head? = some '-' then lit.tail else lit
  let r := lex_literal_digits str 0 0 true
  let value := r.1
  let ndigits := r.2.1
  let is_number := if ndigits = 0 then false else r.2.2
  let p :=
    if ndigits = 0 then p
    else { p with last_token :=
            { p.last_token with type := TOKEN_NUMBER, num := wrap_i64 (value * sign) } }
  if !is_number then
    { p with last_token := { p.last_token with type := TOKEN_SYMBOL, str := some lit } }
  else
    p

/-- The assignment `token_type(p) = t`. -/
def set_token_type (p : Parser) (t : TokenType) : Parser :=
  { p with last_token := { p.last_token with type := t } }

/-- The function `parse_next_token`. -/
def parse_next_token (p : Parser) : Parser :=
  let p := { p with last_token := ⟨TOKEN_EOF, none, 0⟩ }
  let p := lex_match_whitespace p
  if (lex_match p '(').1 then set_token_type (lex_match p '(').2 TOKEN_LPAREN
  else if (lex_match p ')').1 then set_token_type (lex_match p ')').2 TOKEN_RPAREN
  else if (lex_match p '\'').1 then set_token_type (lex_match p '\'').2 TOKEN_QUOTE
  else if (lex_match p ',').1 then set_token_type (lex_match p ',').2 TOKEN_COMMA
  else if (lex_match p '.').1 then set_token_type (lex_match p '.').2 TOKEN_DOT
  else if lex_is_eof p then set_token_type p TOKEN_EOF
  else if lex_is_literal p then lex_literal p
  else p

/-- The function `token_match`: the flag returned and the parser afterwards. -/
def token_match (p : Parser) (t : TokenType) : Bool × Parser :=
  if p.last_token.type = t then (true, parse_next_token p) else (false, p)

/-- The function `parser_init`. -/
def parser_init (p : Parser) (text : List Char) : Parser :=
  parse_next_token { p with stream := text }

/-! ## Parser -/

/-- Outcome of `parse_expr`: a tree and the parser afterwards, a failed assertion, or an
exhausted recursion budget (which the budget of `parse_expr` below never reaches). -/
inductive ParseResult
  | ok (e : Expr) (p : Parser)
  | grammar_error
  | out_of_fuel
  deriving DecidableEq, Repr

mutual
/-- The function `parse_expr`, with a recursion budget. -/
def parse_expr_fuel : Nat → Parser → ParseResult
  | 0, _ => ParseResult.out_of_fuel
  | n + 1, p =>
    if (token_match p TOKEN_LPAREN).1 then
      parse_list_fuel n nil (token_match p TOKEN_LPAREN).2
    else if p.last_token.type = TOKEN_NUMBER then
      ParseResult.ok (make_int p.last_token.num) (parse_next_token p)
    else if p.last_token.type = TOKEN_SYMBOL then
      ParseResult.ok (make_sym p.last_token.str) (parse_next_token p)
    else if (token_match p TOKEN_QUOTE).1 then
      match parse_expr_fuel n (token_match p TOKEN_QUOTE).2 with
      | ParseResult.ok arg p => ParseResult.ok (cons (make_sym (some "quote".toList)) (cons arg nil)) p
      | r => r
    else
      ParseResult.grammar_error
/-- The loop `until(token_match_rparen(p)) { ... } return list;` of `parse_expr`, with the
list accumulated so far. -/
def parse_list_fuel : Nat → Expr → Parser → ParseResult
  | 0, _, _ => ParseResult.out_of_fuel
  | n + 1, list, p =>
    if (token_match p TOKEN_RPAREN).1 then
      ParseResult.ok list (token_match p TOKEN_RPAREN).2
    else
      match parse_expr_fuel n p with
      | ParseResult.ok expr p =>
        if (token_match p TOKEN_DOT).1 then
          match parse_expr_fuel n (token_match p TOKEN_DOT).2 with
          | ParseResult.ok cdr_val p =>
            if (token_match p TOKEN_RPAREN).1 then
              ParseResult.ok (list_append list (cons expr cdr_val))
                (token_match p TOKEN_RPAREN).2
            else
              ParseResult.grammar_error
          | r => r
        else
          parse_list_fuel n (list_pushb list expr) p
      | r => r
end

/-- The budget given to `parse_expr`: twice the number of characters left, plus three. -/
def parse_budget (p : Parser) : Nat :=
  2 * p.stream.length + 3

/-- The function `parse_expr`. -/
def parse_expr (p : Parser) : ParseResult :=
  parse_expr_fuel (parse_budget p) p

/-- The reader as `run_file` uses it: `parser_init(&p, text); parse_expr(&p);`. -/
def parse (text : List Char) : ParseResult :=
  parse_expr (parser_init ⟨[], ⟨TOKEN_EOF, none, 0⟩⟩ text)

/-! ## Specification-level definitions

The definitions below are used to state and prove the theorems: closed forms of what the
loops compute, the number syntax and the grammar in the words of the spec, the token
sequence of a parser state, and the control flow of `parse_expr`. -/

/-- The zeroed token written by `p->last_token = (Token){0}`. -/
def zero_token : Token := ⟨TOKEN_EOF, none, 0⟩

/-- The rest of the stream from the end of the current line (or the terminator) on. -/
def skipLine (s : List Char) : List Char :=
  s.dropWhile (fun c => !(c == '\x00' || c == '\n'))

/-- The stream that `lex_match_whitespace` leaves: whitespace and comments skipped. -/
def skipWs (s : List Char) : List Char :=
  (lex_match_whitespace ⟨s, zero_token⟩).stream

/-- The token that `lex_literal` writes over the token `t` for the literal text `lit`. -/
def literal_token (t : Token) (lit : List Char) : Token :=
  let sign : Int := if lit.head? = some '-' then -1 else 1
  let str := if lit.head? = some '-' then lit.tail else lit
  let r := lex_literal_digits str 0 0 true
  if r.2.1 = 0 then
    { t with type := TOKEN_SYMBOL, str := some lit }
  else if r.2.2 = true then
    { t with type := TOKEN_NUMBER, num := wrap_i64 (r.1 * sign) }
  else
    { type := TOKEN_SYMBOL, str := some lit, num := wrap_i64 (r.1 * sign) }

/-- The parser state that `parse_next_token` leaves when the stream, whitespace and
comments skipped, is `s`. -/
def tokOf : List Char → Parser
  | [] => ⟨[], zero_token⟩
  | c :: r =>
    if c = '(' then ⟨r, ⟨TOKEN_LPAREN, none, 0⟩⟩
    else if c = ')' then ⟨r, ⟨TOKEN_RPAREN, none, 0⟩⟩
    else if c = '\'' then ⟨r, ⟨TOKEN_QUOTE, none, 0⟩⟩
    else if c = ',' then ⟨r, ⟨TOKEN_COMMA, none, 0⟩⟩
    else if c = '.' then ⟨r, ⟨TOKEN_DOT, none, 0⟩⟩
    else if c = '\x00' then ⟨c :: r, zero_token⟩
    else if is_literal_char c = true then
      ⟨(c :: r).dropWhile is_literal_char,
        literal_token zero_token ((c :: r).takeWhile is_literal_char)⟩
    else ⟨c :: r, zero_token⟩

/-- The decimal digits, as the spec names them. -/
def IsDecimalDigit (c : Char) : Prop :=
  c ∈ ['0', '1', '2', '3', '4', '5', '6', '7', '8', '9']

/-- The number syntax in the words of the spec: an optional leading `-`, followed by one
or more decimal digits, and nothing else. -/
def IsNumberLiteral (run : List Char) : Prop :=
  ∃ ds : List Char, ds ≠ [] ∧ (∀ c ∈ ds, IsDecimalDigit c) ∧ (run = ds ∨ run = '-' :: ds)

/-- The value of one decimal digit. -/
def digit_value (c : Char) : Nat :=
  c.toNat - 48

/-- The base-10 value of the digit string `d1 .. dn`: the sum of `di * 10 ^ (n - i)`. -/
def decimal_value : List Char → Nat
  | [] => 0
  | c :: ds => digit_value c * 10 ^ ds.length + decimal_value ds

/-- The text of a number literal: the digits, after a `-` when `neg` is set. -/
def number_text (neg : Bool) (ds : List Char) : List Char :=
  if neg then '-' :: ds else ds

/-- The mathematical value of a number literal. -/
def number_value (neg : Bool) (ds : List Char) : Int :=
  if neg then -(decimal_value ds : Int) else (decimal_value ds : Int)

/-- Number of characters left, plus one when the lookahead is not the end-of-input token. -/
def weight (p : Parser) : Nat :=
  p.stream.length + (if p.last_token.type = TOKEN_EOF then 0 else 1)

/-- Sequencing of parse results: continue with `f` after a tree, pass a failure on. -/
def ParseResult.bind (r : ParseResult) (f : Expr → Parser → ParseResult) : ParseResult :=
  match r with
  | ParseResult.ok e p => f e p
  | ParseResult.grammar_error => ParseResult.grammar_error
  | ParseResult.out_of_fuel => ParseResult.out_of_fuel

/-- The tree `(quote arg)` built by the quote branch of `parse_expr`. -/
def quote_form (arg : Expr) : Expr :=
  cons (make_sym (some "quote".toList)) (cons arg nil)

/-- The part of the list loop of `parse_expr` after the first sub-expression `expr` has
been parsed, leaving the parser `p1`; `rest` is the loop itself. -/
def list_step (n : Nat) (list : Expr) (rest : Expr → Parser → ParseResult)
    (expr : Expr) (p1 : Parser) : ParseResult :=
  if p1.last_token.type = TOKEN_DOT then
    (parse_expr_fuel n (parse_next_token p1)).bind (fun cdr_val p2 =>
      if p2.last_token.type = TOKEN_RPAREN then
        ParseResult.ok (list_append list (cons expr cdr_val)) (parse_next_token p2)
      else ParseResult.grammar_error)
  else rest (list_pushb list expr) p1

/-- The list loop of `parse_expr` with a sufficient budget. -/
def parse_list (list : Expr) (p : Parser) : ParseResult :=
  parse_list_fuel (parse_budget p + 1) list p

/-- The list loop of `parse_expr` after its first sub-expression `expr`, which left the
parser `p1`. -/
def list_tail (list expr : Expr) (p1 : Parser) : ParseResult :=
  if p1.last_token.type = TOKEN_DOT then
    (parse_expr (parse_next_token p1)).bind (fun cdr_val p2 =>
      if p2.last_token.type = TOKEN_RPAREN then
        ParseResult.ok (list_append list (cons expr cdr_val)) (parse_next_token p2)
      else ParseResult.grammar_error)
  else parse_list (list_pushb list expr) p1

/-- The parser after `k` calls of `parse_next_token`. -/
def advance : Nat → Parser → Parser
  | 0, p => p
  | k + 1, p => advance k (parse_next_token p)

/-- The kinds of the next `k` tokens: the lookahead and the `k - 1` tokens after it. -/
def token_types : Nat → Parser → List TokenType
  | 0, _ => []
  | k + 1, p => p.last_token.type :: token_types k (parse_next_token p)

/-- An atom of the surface syntax: an integer literal (sign and digits) or a symbol. -/
inductive Atom
  | int (neg : Bool) (ds : List Char)
  | sym (s : List Char)

/-- The text of an atom. -/
def Atom.text : Atom → List Char
  | Atom.int neg ds => number_text neg ds
  | Atom.sym s => s

/-- The tree of an atom: the integer leaf (in `i64`) or the symbol leaf. -/
def Atom.tree : Atom → Expr
  | Atom.int neg ds => Expr.Integer (wrap_i64 (number_value neg ds))
  | Atom.sym s => Expr.Symbol s

/-- Well-formed atoms: an integer literal has one or more decimal digits; a symbol is a
non-empty text of literal characters that is not a number and does not start with one of
the characters `'`, `,`, `.` (punctuation tokens) or `;` (comment start). -/
def Atom.WellFormed : Atom → Prop
  | Atom.int _ ds => ds ≠ [] ∧ ∀ c ∈ ds, IsDecimalDigit c
  | Atom.sym s =>
    s ≠ [] ∧ (∀ c ∈ s, is_literal_char c = true) ∧
      (∀ c, s.head? = some c → c ≠ '\'' ∧ c ≠ ',' ∧ c ≠ '.' ∧ c ≠ ';') ∧
      ¬ IsNumberLiteral s

/-- The proper list of the given elements: a chain of pairs ending in `Nil`. -/
def proper_list : List Expr → Expr
  | [] => Expr.Nil
  | e :: es => Expr.Pair e (proper_list es)

/-- A stream on which a literal run stops at once: the terminator or a non-literal
character comes first. -/
def StopsLiteral (r : List Char) : Prop :=
  ∀ c, r.head? = some c → is_literal_char c = false

/-- The texts of the atoms, separated by single spaces. -/
def spaced (as : List Atom) : List Char :=
  List.intercalate [' '] (as.map Atom.text)

instance (c : Char) : Decidable (IsDecimalDigit c) :=
  inferInstanceAs (Decidable (c ∈ ['0', '1', '2', '3', '4', '5', '6', '7', '8', '9']))

/-- The two nonterminals of the grammar of the spec. -/
inductive NonTerminal
  | expr
  | list_body

/-- Derivability in the grammar of the spec, over token kinds:
`expr := '(' list_body | NUMBER | SYMBOL | quote expr` and
`list_body := ')' | expr '.' expr ')' | expr list_body`. -/
inductive Derives : NonTerminal → List TokenType → Prop
  | list {b : List TokenType} :
    Derives NonTerminal.list_body b → Derives NonTerminal.expr (TOKEN_LPAREN :: b)
  | number : Derives NonTerminal.expr [TOKEN_NUMBER]
  | symbol : Derives NonTerminal.expr [TOKEN_SYMBOL]
  | quote {e : List TokenType} :
    Derives NonTerminal.expr e → Derives NonTerminal.expr (TOKEN_QUOTE :: e)
  | close : Derives NonTerminal.list_body [TOKEN_RPAREN]
  | dotted {a b : List TokenType} :
    Derives NonTerminal.expr a → Derives NonTerminal.expr b →
      Derives NonTerminal.list_body (a ++ TOKEN_DOT :: (b ++ [TOKEN_RPAREN]))
  | cons {a r : List TokenType} :
    Derives NonTerminal.expr a → Derives NonTerminal.list_body r →
      Derives NonTerminal.list_body (a ++ r)

/-- What the parser does from `p` when the next `k` tokens derive from a nonterminal: it
returns a tree and has consumed exactly those tokens. -/
def Accepts : NonTerminal → Parser → Nat → Prop
  | NonTerminal.expr, p, k => ∃ e, parse_expr p = ParseResult.ok e (advance k p)
  | NonTerminal.list_body, p, k => ∀ l, ∃ e, parse_list l p = ParseResult.ok e (advance k p)

/-- The balance of parentheses that a nonterminal leaves open: `list_body` closes one. -/
def closes : NonTerminal → Nat
  | NonTerminal.expr => 0
  | NonTerminal.list_body => 1

/-- Texts made of whitespace characters and `;` comments only, up to the end of input: a
comment runs to its newline, and the last one may run to the end of input. -/
inductive Blank : List Char → Prop
  | nil : Blank []
  | ws (c : Char) (s : List Char) :
    c ∈ [' ', '\t', '\r', '\n'] → Blank s → Blank (c :: s)
  | comment (c s : List Char) :
    (∀ x ∈ c, x ≠ '\n' ∧ x ≠ '\x00') → Blank s → Blank (';' :: (c ++ '\n' :: s))
  | last_comment (c : List Char) :
    (∀ x ∈ c, x ≠ '\n' ∧ x ≠ '\x00') → Blank (';' :: c)

/-- A stream at the end of input: nothing is left, or the terminator comes first. -/
def AtEnd (r : List Char) : Prop :=
  r = [] ∨ ∃ r1, r = '\x00' :: r1

/-- The five punctuation characters that `parse_next_token` matches with `lex_match`. -/
def is_punctuation_char (c : Char) : Bool :=
  c == '(' || c == ')' || c == '\'' || c == ',' || c == '.'

/-- The parser at the branch point of `parse_next_token`: the token zeroed, whitespace
and comments skipped. -/
def after_skip (p : Parser) : Parser :=
  lex_match_whitespace { p with last_token := ⟨TOKEN_EOF, none, 0⟩ }

/-- The improper list of the given elements with the final cdr `t`: a chain of pairs
ending in `t`. -/
def improper_list : List Expr → Expr → Expr
  | [], t => t
  | e :: es, t => Expr.Pair e (improper_list es t)

/-- A call of `parse_expr`, or one pass through the head of its list loop with the list
accumulated so far. -/
inductive Call
  | expr (p : Parser)
  | list (l : Expr) (p : Parser)

/-- The outcome of a call. -/
def Call.result : Call → ParseResult
  | Call.expr p => parse_expr p
  | Call.list l p => parse_list l p

/-- The control flow of `parse_expr`: `Calls a b` when the call `a` runs `b` next inside
it. On `(` the list loop is entered; on a quote the argument is parsed; the loop, when the
lookahead is not `)`, parses an element, then after a dot the final cdr, and without a dot
goes round again with the element pushed. -/
inductive Calls : Call → Call → Prop
  | lparen (p : Parser) :
    p.last_token.type = TOKEN_LPAREN → Calls (Call.expr p) (Call.list nil (parse_next_token p))
  | quote (p : Parser) :
    p.last_token.type = TOKEN_QUOTE → Calls (Call.expr p) (Call.expr (parse_next_token p))
  | elem (l : Expr) (p : Parser) :
    p.last_token.type ≠ TOKEN_RPAREN → Calls (Call.list l p) (Call.expr p)
  | cdr (l : Expr) (p : Parser) (e : Expr) (p1 : Parser) :
    p.last_token.type ≠ TOKEN_RPAREN → parse_expr p = ParseResult.ok e p1 →
    p1.last_token.type = TOKEN_DOT → Calls (Call.list l p) (Call.expr (parse_next_token p1))
  | again (l : Expr) (p : Parser) (e : Expr) (p1 : Parser) :
    p.last_token.type ≠ TOKEN_RPAREN → parse_expr p = ParseResult.ok e p1 →
    p1.last_token.type ≠ TOKEN_DOT → Calls (Call.list l p) (Call.list (list_pushb l e) p1)

/-- The call `c` happens within the call `root`, at any depth. -/
def Within (root c : Call) : Prop :=
  Relation.ReflTransGen Calls root c

/-- The cursor moved from `s` to `s1` over characters none of which is the terminator. -/
def Consumed (s s1 : List Char) : Prop :=
  ∃ pre, s = pre ++ s1 ∧ '\x00' ∉ pre

/-! ## Lemmas -/

theorem skipLine_length_le (s : List Char) : (skipLine s).length ≤ s.length := by
  induction s with
  | nil => simp [skipLine]
  | cons c s ih =>
    unfold skipLine at ih ⊢
    rw [List.dropWhile_cons]
    split
    · exact Nat.le_succ_of_le ih
    · exact Nat.le_refl _

theorem lex_skip_line_eq (n : Nat) (s : List Char) (t : Token) (h : s.length ≤ n) :
    lex_skip_line n ⟨s, t⟩ = ⟨skipLine s, t⟩ := by
  induction s generalizing n with
  | nil =>
    cases n <;> simp [lex_skip_line, skipLine, lex_is, lex_last]
  | cons c s ih =>
    cases n with
    | zero => simp at h
    | succ n =>
      have hn : s.length ≤ n := by simpa using h
      by_cases hc : c = '\x00' ∨ c = '\n'
      · rcases hc with hc | hc <;> subst hc <;>
          simp [lex_skip_line, skipLine, lex_is, lex_last]
      · push_neg at hc
        have h1 : lex_skip_line (n + 1) ⟨c :: s, t⟩ = lex_skip_line n ⟨s, t⟩ := by
          simp [lex_skip_line, lex_is, lex_last, lex_advance, hc.1, hc.2]
        have h2 : skipLine (c :: s) = skipLine s := by
          simp [skipLine, List.dropWhile_cons, hc.1, hc.2]
        rw [h1, h2, ih n hn]

theorem ws_loop_token (n : Nat) (p : Parser) :
    (lex_match_whitespace_loop n p).last_token = p.last_token := by
  induction n generalizing p with
  | zero => rfl
  | succ n ih =>
    unfold lex_match_whitespace_loop
    split
    · rw [ih]; rfl
    · split
      · rw [ih, lex_skip_line_eq _ _ _ (Nat.le_succ _)]
      · rfl

theorem ws_loop_fuel (n m : Nat) (s : List Char) (t : Token)
    (hn : s.length < n) (hm : s.length < m) :
    lex_match_whitespace_loop n ⟨s, t⟩ = lex_match_whitespace_loop m ⟨s, t⟩ := by
  induction n generalizing m s with
  | zero => omega
  | succ n ih =>
    cases m with
    | zero => omega
    | succ m =>
      cases s with
      | nil => simp [lex_match_whitespace_loop, lex_is_whitespace, lex_is, lex_last,
          is_whitespace_char]
      | cons c s =>
        simp only [List.length_cons] at hn hm
        unfold lex_match_whitespace_loop
        split
        · exact ih m s (by omega) (by omega)
        · split
          · rw [lex_skip_line_eq _ _ _ (Nat.le_succ _)]
            rename_i h1 h2
            have hc : c = ';' := by simpa [lex_is, lex_last] using h2
            subst hc
            have h3 : skipLine (';' :: s) = skipLine s := by
              simp [skipLine, List.dropWhile_cons]
            rw [h3]
            have := skipLine_length_le s
            exact ih m _ (by omega) (by omega)
          · rfl

theorem ws_loop_stream (n : Nat) (s : List Char) (t u : Token) :
    (lex_match_whitespace_loop n ⟨s, t⟩).stream
      = (lex_match_whitespace_loop n ⟨s, u⟩).stream := by
  induction n generalizing s with
  | zero => rfl
  | succ n ih =>
    unfold lex_match_whitespace_loop
    simp only [lex_is_whitespace, lex_is, lex_last, lex_advance]
    split
    · exact ih _
    · split
      · rw [lex_skip_line_eq _ _ _ (Nat.le_succ _), lex_skip_line_eq _ _ _ (Nat.le_succ _)]
        exact ih _
      · rfl

theorem lex_match_whitespace_eq (s : List Char) (t : Token) :
    lex_match_whitespace ⟨s, t⟩ = ⟨skipWs s, t⟩ := by
  have h1 := ws_loop_token (s.length + 1) ⟨s, t⟩
  have h2 := ws_loop_stream (s.length + 1) s t zero_token
  unfold skipWs lex_match_whitespace
  cases h : lex_match_whitespace_loop (s.length + 1) ⟨s, t⟩ with
  | mk s1 t1 =>
    rw [h] at h1 h2
    simp only at h1 h2 ⊢
    rw [h1, h2]

theorem skipWs_nil : skipWs [] = [] := by
  simp [skipWs, lex_match_whitespace, lex_match_whitespace_loop, lex_is_whitespace, lex_is,
    lex_last, is_whitespace_char]

theorem skipWs_cons_ws (c : Char) (s : List Char) (h : is_whitespace_char c = true) :
    skipWs (c :: s) = skipWs s := by
  have h1 : lex_match_whitespace_loop (s.length + 1 + 1) ⟨c :: s, zero_token⟩
      = lex_match_whitespace_loop (s.length + 1) ⟨s, zero_token⟩ := by
    rw [lex_match_whitespace_loop]
    simp [lex_is_whitespace, lex_last, h, lex_advance]
  simp only [skipWs, lex_match_whitespace, List.length_cons]
  rw [h1]

theorem skipWs_cons_semi (s : List Char) : skipWs (';' :: s) = skipWs (skipLine s) := by
  have h3 : skipLine (';' :: s) = skipLine s := by
    simp [skipLine, List.dropWhile_cons]
  have h1 : lex_match_whitespace_loop (s.length + 1 + 1) ⟨';' :: s, zero_token⟩
      = lex_match_whitespace_loop (s.length + 1) ⟨skipLine s, zero_token⟩ := by
    rw [lex_match_whitespace_loop]
    have hw : lex_is_whitespace ⟨';' :: s, zero_token⟩ = false := by
      simp [lex_is_whitespace, lex_last, is_whitespace_char]
    have hs : lex_is ⟨';' :: s, zero_token⟩ ';' = true := by
      simp [lex_is, lex_last]
    rw [if_neg (by simp [hw]), if_pos hs, lex_skip_line_eq _ _ _ (Nat.le_succ _), h3]
  simp only [skipWs, lex_match_whitespace, List.length_cons]
  rw [h1]
  have := skipLine_length_le s
  rw [ws_loop_fuel (s.length + 1) ((skipLine s).length + 1) (skipLine s) zero_token
    (by omega) (by omega)]

theorem skipWs_cons_other (c : Char) (s : List Char) (h : is_whitespace_char c = false)
    (h2 : c ≠ ';') : skipWs (c :: s) = c :: s := by
  simp only [skipWs, lex_match_whitespace, List.length_cons]
  rw [lex_match_whitespace_loop]
  simp [lex_is_whitespace, lex_is, lex_last, h, h2]

/-- Induction along the iterations of `lex_match_whitespace`. -/
theorem skipWs_induct (P : List Char → Prop) (hnil : P [])
    (hws : ∀ c s, is_whitespace_char c = true → P s → P (c :: s))
    (hsemi : ∀ s, P (skipLine s) → P (';' :: s))
    (hother : ∀ c s, is_whitespace_char c = false → c ≠ ';' → P (c :: s)) :
    ∀ s, P s := by
  intro s
  generalize h : s.length = n
  induction n using Nat.strong_induction_on generalizing s with
  | _ n ih =>
    cases s with
    | nil => exact hnil
    | cons c s =>
      simp only [List.length_cons] at h
      by_cases hw : is_whitespace_char c = true
      · exact hws c s hw (ih s.length (by omega) s rfl)
      · by_cases hc : c = ';'
        · subst hc
          have := skipLine_length_le s
          exact hsemi s (ih (skipLine s).length (by omega) _ rfl)
        · exact hother c s (by simpa using hw) hc

theorem skipLine_suffix (s : List Char) : skipLine s <:+ s :=
  List.dropWhile_suffix _

theorem skipWs_suffix (s : List Char) : skipWs s <:+ s := by
  induction s using skipWs_induct with
  | hnil => rw [skipWs_nil]
  | hws c s h ih => rw [skipWs_cons_ws c s h]; exact ih.trans (List.suffix_cons c s)
  | hsemi s ih =>
    rw [skipWs_cons_semi]
    exact (ih.trans (skipLine_suffix s)).trans (List.suffix_cons _ s)
  | hother c s h h2 => rw [skipWs_cons_other c s h h2]

theorem skipWs_length_le (s : List Char) : (skipWs s).length ≤ s.length :=
  (skipWs_suffix s).length_le

/-- When `lex_match_whitespace` stops, the current character is neither whitespace nor the
start of a comment. -/
theorem skipWs_head (s : List Char) (c : Char) (r : List Char) (h : skipWs s = c :: r) :
    is_whitespace_char c = false ∧ c ≠ ';' := by
  induction s using skipWs_induct with
  | hnil => rw [skipWs_nil] at h; cases h
  | hws c1 s h1 ih => rw [skipWs_cons_ws c1 s h1] at h; exact ih h
  | hsemi s ih => rw [skipWs_cons_semi] at h; exact ih h
  | hother c1 s h1 h2 =>
    rw [skipWs_cons_other c1 s h1 h2] at h
    cases h
    exact ⟨h1, h2⟩

theorem skipWs_fixed (s : List Char)
    (h : ∀ c r, s = c :: r → is_whitespace_char c = false ∧ c ≠ ';') : skipWs s = s := by
  cases s with
  | nil => exact skipWs_nil
  | cons c r => exact skipWs_cons_other c r (h c r rfl).1 (h c r rfl).2

theorem skipWs_idem (s : List Char) : skipWs (skipWs s) = skipWs s :=
  skipWs_fixed _ (fun c r h => skipWs_head s c r h)

theorem lex_read_literal_loop_eq (n : Nat) (str s : List Char) (t : Token)
    (h : s.length < n) :
    lex_read_literal_loop n str ⟨s, t⟩
      = (str ++ s.takeWhile is_literal_char, ⟨s.dropWhile is_literal_char, t⟩) := by
  induction s generalizing n str with
  | nil =>
    cases n with
    | zero => simp at h
    | succ n => simp [lex_read_literal_loop, lex_is_literal, lex_last, is_literal_char]
  | cons c s ih =>
    cases n with
    | zero => simp at h
    | succ n =>
      have hn : s.length < n := by simpa using h
      by_cases hc : is_literal_char c = true
      · rw [lex_read_literal_loop]
        simp only [lex_is_literal, lex_last, List.headD_cons, hc, if_true, lex_advance,
          List.tail_cons]
        rw [ih n _ hn]
        simp [List.takeWhile_cons, List.dropWhile_cons, hc]
      · rw [lex_read_literal_loop]
        simp [lex_is_literal, lex_last, hc, List.takeWhile_cons, List.dropWhile_cons]

theorem lex_read_literal_eq (s : List Char) (t : Token) :
    lex_read_literal ⟨s, t⟩
      = (s.takeWhile is_literal_char, ⟨s.dropWhile is_literal_char, t⟩) := by
  unfold lex_read_literal
  rw [lex_read_literal_loop_eq _ _ _ _ (Nat.lt_succ_self _)]
  simp

theorem lex_literal_eq (s : List Char) (t : Token) :
    lex_literal ⟨s, t⟩
      = ⟨s.dropWhile is_literal_char, literal_token t (s.takeWhile is_literal_char)⟩ := by
  unfold lex_literal literal_token
  rw [lex_read_literal_eq]
  simp only
  split_ifs <;> simp_all

theorem parse_next_token_eq (s : List Char) (t : Token) :
    parse_next_token ⟨s, t⟩ = tokOf (skipWs s) := by
  unfold parse_next_token
  simp only
  rw [lex_match_whitespace_eq]
  cases h : skipWs s with
  | nil =>
    simp [lex_match, lex_last, lex_is_eof, set_token_type, tokOf, zero_token]
  | cons c r =>
    by_cases h1 : c = '('
    · subst h1; simp [tokOf, lex_match, lex_last, lex_advance, set_token_type]
    by_cases h2 : c = ')'
    · subst h2; simp [tokOf, lex_match, lex_last, lex_advance, set_token_type]
    by_cases h3 : c = '\''
    · subst h3; simp [tokOf, lex_match, lex_last, lex_advance, set_token_type]
    by_cases h4 : c = ','
    · subst h4; simp [tokOf, lex_match, lex_last, lex_advance, set_token_type]
    by_cases h5 : c = '.'
    · subst h5; simp [tokOf, lex_match, lex_last, lex_advance, set_token_type]
    by_cases h6 : c = '\x00'
    · subst h6
      simp [tokOf, lex_match, lex_last, lex_advance, set_token_type, lex_is_eof, zero_token]
    by_cases h7 : is_literal_char c = true
    · simp [tokOf, lex_match, lex_last, set_token_type, lex_is_eof, lex_is_literal,
        h1, h2, h3, h4, h5, h6, h7, lex_literal_eq, zero_token]
    · simp [tokOf, lex_match, lex_last, set_token_type, lex_is_eof, lex_is_literal,
        h1, h2, h3, h4, h5, h6, h7, zero_token]

theorem parse_next_token_stream (p : Parser) (t : Token) :
    parse_next_token p = parse_next_token ⟨p.stream, t⟩ := by
  cases p with
  | mk s u => rw [parse_next_token_eq, parse_next_token_eq]

theorem parser_init_eq (p : Parser) (text : List Char) :
    parser_init p text = tokOf (skipWs text) := by
  unfold parser_init
  exact parse_next_token_eq text p.last_token

theorem is_digit_char_iff (c : Char) : is_digit_char c = true ↔ IsDecimalDigit c := by
  constructor
  · intro h
    have h1 : 48 ≤ c.toNat ∧ c.toNat ≤ 57 := by
      simpa [is_digit_char, Char.le_def, Char.toNat, UInt32.le_def] using h
    have h2 : c = Char.ofNat c.toNat := (Char.ofNat_toNat c).symm
    obtain ⟨h3, h4⟩ := h1
    generalize c.toNat = k at h2 h3 h4
    subst h2
    interval_cases k <;> (unfold IsDecimalDigit; decide)
  · intro h
    simp only [IsDecimalDigit, List.mem_cons, List.mem_singleton] at h
    rcases h with h | h | h | h | h | h | h | h | h | h | h
    all_goals first | (subst h; decide) | simp at h

theorem wrap_i64_modEq (x : Int) : wrap_i64 x ≡ x [ZMOD 2 ^ 64] := by
  unfold wrap_i64
  have h : (x + 2 ^ 63) % 2 ^ 64 ≡ x + 2 ^ 63 [ZMOD 2 ^ 64] := Int.mod_modEq _ _
  have h2 := h.sub_right (2 ^ 63)
  simpa using h2

theorem wrap_i64_congr {a b : Int} (h : a ≡ b [ZMOD 2 ^ 64]) : wrap_i64 a = wrap_i64 b := by
  unfold wrap_i64
  have h2 : (a + 2 ^ 63) % 2 ^ 64 = (b + 2 ^ 63) % 2 ^ 64 := h.add_right (2 ^ 63)
  rw [h2]

theorem wrap_i64_range (x : Int) : -2 ^ 63 ≤ wrap_i64 x ∧ wrap_i64 x < 2 ^ 63 := by
  unfold wrap_i64
  have h1 : (0 : Int) ≤ (x + 2 ^ 63) % 2 ^ 64 := Int.emod_nonneg _ (by norm_num)
  have h2 : (x + 2 ^ 63) % 2 ^ 64 < 2 ^ 64 := Int.emod_lt_of_pos _ (by norm_num)
  constructor <;> linarith

theorem wrap_i64_of_range (x : Int) (h1 : -2 ^ 63 ≤ x) (h2 : x < 2 ^ 63) :
    wrap_i64 x = x := by
  unfold wrap_i64
  rw [Int.emod_eq_of_lt (by linarith) (by linarith)]
  ring

theorem char_digit_value_eq (c : Char) (h : is_digit_char c = true) :
    char_digit_value c = (digit_value c : Int) := by
  have h1 : 48 ≤ c.toNat ∧ c.toNat ≤ 57 := by
    simpa [is_digit_char, Char.le_def, Char.toNat, UInt32.le_def] using h
  have h0 : ('0' : Char).toNat = 48 := by decide
  unfold char_digit_value digit_value
  rw [h0]
  omega

/-- On a digit string the digit loop of `lex_literal` counts every character, keeps the
flag, and accumulates the base-10 value modulo `2 ^ 64`. -/
theorem lex_literal_digits_all (str : List Char) (value : Int) (nd : Nat) (b : Bool)
    (h : ∀ c ∈ str, is_digit_char c = true) :
    (lex_literal_digits str value nd b).2 = (nd + str.length, b) ∧
    (lex_literal_digits str value nd b).1
      ≡ value * 10 ^ str.length + (decimal_value str : Int) [ZMOD 2 ^ 64] := by
  induction str generalizing value nd with
  | nil => simp [lex_literal_digits, decimal_value]
  | cons c s ih =>
    have hc : is_digit_char c = true := h c (List.mem_cons_self _ _)
    have hs : ∀ d ∈ s, is_digit_char d = true := fun d hd => h d (List.mem_cons_of_mem _ hd)
    rw [lex_literal_digits]
    simp only [hc, Bool.not_true, Bool.false_eq_true, if_false]
    obtain ⟨i1, i2⟩ := ih (wrap_i64 (10 * value + char_digit_value c)) (nd + 1) hs
    refine ⟨by rw [i1]; simp; omega, ?_⟩
    refine i2.trans ?_
    have hw := wrap_i64_modEq (10 * value + char_digit_value c)
    have h3 := (hw.mul_right (10 ^ s.length)).add_right (decimal_value s : Int)
    refine h3.trans ?_
    rw [char_digit_value_eq c hc]
    have : (10 * value + (digit_value c : Int)) * 10 ^ s.length + (decimal_value s : Int)
        = value * 10 ^ (c :: s).length + (decimal_value (c :: s) : Int) := by
      simp only [decimal_value, List.length_cons]
      push_cast
      ring
    rw [this]

/-- The digit loop of `lex_literal` clears the flag when some character is not a digit. -/
theorem lex_literal_digits_not_all (str : List Char) (value : Int) (nd : Nat) (b : Bool)
    (h : ∃ c ∈ str, is_digit_char c = false) :
    (lex_literal_digits str value nd b).2.2 = false := by
  induction str generalizing value nd with
  | nil => simp at h
  | cons c s ih =>
    rw [lex_literal_digits]
    by_cases hc : is_digit_char c = true
    · simp only [hc, Bool.not_true, Bool.false_eq_true, if_false]
      apply ih
      obtain ⟨d, hd, hd2⟩ := h
      rcases List.mem_cons.mp hd with e | e
      · subst e; rw [hc] at hd2; cases hd2
      · exact ⟨d, e, hd2⟩
    · simp [hc]

theorem number_text_head (neg : Bool) (ds : List Char)
    (hd : ∀ c ∈ ds, is_digit_char c = true) :
    ((number_text neg ds).head? = some '-') ↔ neg = true := by
  cases neg with
  | true => simp [number_text]
  | false =>
    cases ds with
    | nil => simp [number_text]
    | cons c r =>
      have hc := hd c (List.mem_cons_self _ _)
      have : c ≠ '-' := by
        intro e
        subst e
        exact absurd hc (by decide)
      simp [number_text, this]

/-- The token written for a number literal. -/
theorem literal_token_number (t : Token) (neg : Bool) (ds : List Char) (hne : ds ≠ [])
    (hd : ∀ c ∈ ds, is_digit_char c = true) :
    literal_token t (number_text neg ds)
      = { t with type := TOKEN_NUMBER, num := wrap_i64 (number_value neg ds) } := by
  have hh := number_text_head neg ds hd
  have hlen : ds.length ≠ 0 := by
    intro e
    exact hne (List.length_eq_zero.mp e)
  obtain ⟨h1, h2⟩ := lex_literal_digits_all ds 0 0 true hd
  have h3 : (lex_literal_digits ds 0 0 true).2.1 = ds.length := by rw [h1]; simp
  have h4 : (lex_literal_digits ds 0 0 true).2.2 = true := by rw [h1]
  have h5 : (lex_literal_digits ds 0 0 true).1 ≡ (decimal_value ds : Int) [ZMOD 2 ^ 64] := by
    simpa using h2
  unfold literal_token
  cases neg with
  | true =>
    have e1 : (number_text true ds).head? = some '-' := hh.mpr rfl
    have e2 : (number_text true ds).tail = ds := by simp [number_text]
    simp only [e1, e2, if_true, h3, h4, hlen, if_false]
    have hw : wrap_i64 ((lex_literal_digits ds 0 0 true).1 * -1)
        = wrap_i64 (number_value true ds) := by
      apply wrap_i64_congr
      have := h5.mul_right (-1)
      simpa [number_value] using this
    rw [hw]
  | false =>
    have e1 : ¬ (number_text false ds).head? = some '-' := by
      intro e
      exact absurd (hh.mp e) (by simp)
    have e2 : number_text false ds = ds := by simp [number_text]
    rw [e2] at e1
    rw [e2]
    simp only [e1, if_false, h3, h4, hlen, if_true]
    have hw : wrap_i64 ((lex_literal_digits ds 0 0 true).1 * 1)
        = wrap_i64 (number_value false ds) := by
      apply wrap_i64_congr
      simpa [number_value] using h5
    rw [hw]

/-- The token written for a literal that is not a number: a symbol with the text verbatim. -/
theorem literal_token_symbol (t : Token) (lit : List Char) (h : ¬ IsNumberLiteral lit) :
    (literal_token t lit).type = TOKEN_SYMBOL ∧ (literal_token t lit).str = some lit := by
  unfold literal_token
  simp only
  split_ifs with h1 h2 h3 h4
  · exact ⟨rfl, rfl⟩
  · exfalso
    have hall : ∀ c ∈ lit.tail, is_digit_char c = true := by
      by_contra hc
      push_neg at hc
      obtain ⟨c, hc1, hc2⟩ := hc
      have := lex_literal_digits_not_all lit.tail 0 0 true ⟨c, hc1, by simpa using hc2⟩
      rw [this] at h3
      cases h3
    have hl := (lex_literal_digits_all lit.tail 0 0 true hall).1
    rw [hl] at h2
    apply h
    refine ⟨lit.tail, ?_, fun c hc => (is_digit_char_iff c).mp (hall c hc), Or.inr ?_⟩
    · intro e
      rw [e] at h2
      simp at h2
    · cases lit with
      | nil => simp at h1
      | cons a r =>
        simp only [List.head?_cons, Option.some.injEq] at h1
        subst h1
        rfl
  · exact ⟨rfl, rfl⟩
  · exact ⟨rfl, rfl⟩
  · exfalso
    rename_i h5
    have hall : ∀ c ∈ lit, is_digit_char c = true := by
      by_contra hc
      push_neg at hc
      obtain ⟨c, hc1, hc2⟩ := hc
      have := lex_literal_digits_not_all lit 0 0 true ⟨c, hc1, by simpa using hc2⟩
      rw [this] at h5
      cases h5
    have hl := (lex_literal_digits_all lit 0 0 true hall).1
    apply h
    refine ⟨lit, ?_, fun c hc => (is_digit_char_iff c).mp (hall c hc), Or.inl rfl⟩
    intro e
    subst e
    simp [lex_literal_digits] at *
  · exact ⟨rfl, rfl⟩

theorem tokOf_weight (s : List Char) : weight (tokOf s) ≤ s.length := by
  cases s with
  | nil => simp [tokOf, weight, zero_token]
  | cons c r =>
    simp only [tokOf]
    split_ifs with h1 h2 h3 h4 h5 h6 h7
    · simp [weight]
    · simp [weight]
    · simp [weight]
    · simp [weight]
    · simp [weight]
    · simp [weight, zero_token]
    · have hl : ((c :: r).dropWhile is_literal_char).length ≤ r.length := by
        rw [List.dropWhile_cons, if_pos h7]
        exact (List.dropWhile_suffix _).length_le
      unfold weight
      simp only [List.length_cons]
      split_ifs <;> omega
    · simp [weight, zero_token]

theorem parse_next_token_weight (p : Parser) :
    weight (parse_next_token p) ≤ p.stream.length := by
  cases p with
  | mk s t =>
    rw [parse_next_token_eq]
    exact (tokOf_weight _).trans (skipWs_length_le s)

theorem parse_next_token_weight_lt (p : Parser) (h : p.last_token.type ≠ TOKEN_EOF) :
    weight (parse_next_token p) < weight p := by
  have := parse_next_token_weight p
  unfold weight at this ⊢
  rw [if_neg h]
  omega

theorem parse_expr_fuel_succ (n : Nat) (p : Parser) :
    parse_expr_fuel (n + 1) p =
      if (token_match p TOKEN_LPAREN).1 then
        parse_list_fuel n nil (token_match p TOKEN_LPAREN).2
      else if p.last_token.type = TOKEN_NUMBER then
        ParseResult.ok (make_int p.last_token.num) (parse_next_token p)
      else if p.last_token.type = TOKEN_SYMBOL then
        ParseResult.ok (make_sym p.last_token.str) (parse_next_token p)
      else if (token_match p TOKEN_QUOTE).1 then
        match parse_expr_fuel n (token_match p TOKEN_QUOTE).2 with
        | ParseResult.ok arg p =>
          ParseResult.ok (cons (make_sym (some "quote".toList)) (cons arg nil)) p
        | r => r
      else
        ParseResult.grammar_error := by
  rw [parse_expr_fuel]

theorem parse_list_fuel_succ (n : Nat) (list : Expr) (p : Parser) :
    parse_list_fuel (n + 1) list p =
      if (token_match p TOKEN_RPAREN).1 then
        ParseResult.ok list (token_match p TOKEN_RPAREN).2
      else
        match parse_expr_fuel n p with
        | ParseResult.ok expr p =>
          if (token_match p TOKEN_DOT).1 then
            match parse_expr_fuel n (token_match p TOKEN_DOT).2 with
            | ParseResult.ok cdr_val p =>
              if (token_match p TOKEN_RPAREN).1 then
                ParseResult.ok (list_append list (cons expr cdr_val))
                  (token_match p TOKEN_RPAREN).2
              else
                ParseResult.grammar_error
            | r => r
          else
            parse_list_fuel n (list_pushb list expr) p
        | r => r := by
  rw [parse_list_fuel]

theorem token_match_fst (p : Parser) (t : TokenType) :
    (token_match p t).1 = decide (p.last_token.type = t) := by
  unfold token_match
  split_ifs with h <;> simp [h]

theorem token_match_snd (p : Parser) (t : TokenType) (h : p.last_token.type = t) :
    (token_match p t).2 = parse_next_token p := by
  unfold token_match
  rw [if_pos h]

theorem parse_expr_lparen (n : Nat) (p : Parser) (h : p.last_token.type = TOKEN_LPAREN) :
    parse_expr_fuel (n + 1) p = parse_list_fuel n nil (parse_next_token p) := by
  rw [parse_expr_fuel_succ]
  simp [token_match, h]

theorem parse_expr_number (n : Nat) (p : Parser) (h : p.last_token.type = TOKEN_NUMBER) :
    parse_expr_fuel (n + 1) p
      = ParseResult.ok (make_int p.last_token.num) (parse_next_token p) := by
  rw [parse_expr_fuel_succ]
  simp [token_match, h]

theorem parse_expr_symbol (n : Nat) (p : Parser) (h : p.last_token.type = TOKEN_SYMBOL) :
    parse_expr_fuel (n + 1) p
      = ParseResult.ok (make_sym p.last_token.str) (parse_next_token p) := by
  rw [parse_expr_fuel_succ]
  simp [token_match, h]

theorem parse_expr_quote (n : Nat) (p : Parser) (h : p.last_token.type = TOKEN_QUOTE) :
    parse_expr_fuel (n + 1) p
      = (parse_expr_fuel n (parse_next_token p)).bind
          (fun arg p1 => ParseResult.ok (quote_form arg) p1) := by
  rw [parse_expr_fuel_succ]
  cases h1 : parse_expr_fuel n (parse_next_token p) <;>
    simp [token_match, h, h1, ParseResult.bind, quote_form]

theorem parse_expr_other (n : Nat) (p : Parser)
    (h : p.last_token.type = TOKEN_EOF ∨ p.last_token.type = TOKEN_RPAREN ∨
      p.last_token.type = TOKEN_COMMA ∨ p.last_token.type = TOKEN_DOT) :
    parse_expr_fuel (n + 1) p = ParseResult.grammar_error := by
  rw [parse_expr_fuel_succ]
  rcases h with h | h | h | h <;> simp [token_match, h]

theorem parse_list_rparen (n : Nat) (list : Expr) (p : Parser)
    (h : p.last_token.type = TOKEN_RPAREN) :
    parse_list_fuel (n + 1) list p = ParseResult.ok list (parse_next_token p) := by
  rw [parse_list_fuel_succ]
  simp [token_match, h]

theorem parse_list_other (n : Nat) (list : Expr) (p : Parser)
    (h : p.last_token.type ≠ TOKEN_RPAREN) :
    parse_list_fuel (n + 1) list p
      = (parse_expr_fuel n p).bind (list_step n list (parse_list_fuel n)) := by
  rw [parse_list_fuel_succ]
  cases h1 : parse_expr_fuel n p with
  | ok expr p1 =>
    by_cases hd : p1.last_token.type = TOKEN_DOT
    · cases h2 : parse_expr_fuel n (parse_next_token p1) with
      | ok cdr_val p2 =>
        by_cases hr : p2.last_token.type = TOKEN_RPAREN <;>
          simp [token_match, h, h1, h2, hd, hr, ParseResult.bind, list_step]
      | grammar_error => simp [token_match, h, h1, h2, hd, ParseResult.bind, list_step]
      | out_of_fuel => simp [token_match, h, h1, h2, hd, ParseResult.bind, list_step]
    · simp [token_match, h, h1, hd, ParseResult.bind, list_step]
  | grammar_error => simp [token_match, h, h1, ParseResult.bind]
  | out_of_fuel => simp [token_match, h, h1, ParseResult.bind]

theorem bind_mono {r r1 : ParseResult} {f f1 : Expr → Parser → ParseResult}
    {x : ParseResult} (h : r.bind f = x) (hx : x ≠ ParseResult.out_of_fuel)
    (hr : r ≠ ParseResult.out_of_fuel → r1 = r)
    (hf : ∀ e p, r = ParseResult.ok e p → f e p = x → f1 e p = x) :
    r1.bind f1 = x := by
  cases r with
  | ok e p =>
    rw [hr (by simp)]
    exact hf e p rfl h
  | grammar_error =>
    rw [hr (by simp)]
    exact h
  | out_of_fuel =>
    exact absurd h.symm hx

theorem bind_eq_ok {r : ParseResult} {f : Expr → Parser → ParseResult} {e : Expr}
    {p : Parser} :
    r.bind f = ParseResult.ok e p ↔
      ∃ e1 p1, r = ParseResult.ok e1 p1 ∧ f e1 p1 = ParseResult.ok e p := by
  cases r with
  | ok e0 p0 =>
    constructor
    · intro h
      exact ⟨e0, p0, rfl, h⟩
    · rintro ⟨e1, p1, h1, h2⟩
      cases h1
      exact h2
  | grammar_error => simp [ParseResult.bind]
  | out_of_fuel => simp [ParseResult.bind]

theorem bind_ne_out_of_fuel {r : ParseResult} {f : Expr → Parser → ParseResult}
    (hr : r ≠ ParseResult.out_of_fuel)
    (hf : ∀ e p, r = ParseResult.ok e p → f e p ≠ ParseResult.out_of_fuel) :
    r.bind f ≠ ParseResult.out_of_fuel := by
  cases r with
  | ok e p => exact hf e p rfl
  | grammar_error => simp [ParseResult.bind]
  | out_of_fuel => exact absurd rfl hr

/-- One more unit of budget does not change a result that is not `out_of_fuel`. -/
theorem fuel_mono_succ (n : Nat) :
    (∀ p r, parse_expr_fuel n p = r → r ≠ ParseResult.out_of_fuel →
      parse_expr_fuel (n + 1) p = r) ∧
    (∀ l p r, parse_list_fuel n l p = r → r ≠ ParseResult.out_of_fuel →
      parse_list_fuel (n + 1) l p = r) := by
  induction n with
  | zero =>
    constructor
    · intro p r h hr
      rw [parse_expr_fuel] at h
      exact absurd h.symm hr
    · intro l p r h hr
      rw [parse_list_fuel] at h
      exact absurd h.symm hr
  | succ n ih =>
    obtain ⟨ihE, ihL⟩ := ih
    have hE : ∀ p r, parse_expr_fuel (n + 1) p = r → r ≠ ParseResult.out_of_fuel →
        parse_expr_fuel (n + 1 + 1) p = r := by
      intro p r h hr
      cases ht : p.last_token.type with
      | TOKEN_EOF =>
        rw [parse_expr_other _ _ (Or.inl ht)] at h ⊢; exact h
      | TOKEN_LPAREN =>
        rw [parse_expr_lparen _ _ ht] at h ⊢
        exact ihL _ _ _ h hr
      | TOKEN_RPAREN =>
        rw [parse_expr_other _ _ (Or.inr (Or.inl ht))] at h ⊢; exact h
      | TOKEN_SYMBOL =>
        rw [parse_expr_symbol _ _ ht] at h ⊢; exact h
      | TOKEN_NUMBER =>
        rw [parse_expr_number _ _ ht] at h ⊢; exact h
      | TOKEN_QUOTE =>
        rw [parse_expr_quote _ _ ht] at h ⊢
        exact bind_mono h hr (fun h1 => ihE (parse_next_token p) _ rfl h1)
          (fun _ _ _ h2 => h2)
      | TOKEN_COMMA =>
        rw [parse_expr_other _ _ (Or.inr (Or.inr (Or.inl ht)))] at h ⊢; exact h
      | TOKEN_DOT =>
        rw [parse_expr_other _ _ (Or.inr (Or.inr (Or.inr ht)))] at h ⊢; exact h
    refine ⟨hE, ?_⟩
    intro l p r h hr
    by_cases ht : p.last_token.type = TOKEN_RPAREN
    · rw [parse_list_rparen _ _ _ ht] at h ⊢; exact h
    · rw [parse_list_other _ _ _ ht] at h ⊢
      refine bind_mono h hr (fun h1 => ihE p _ rfl h1) ?_
      intro e p1 _ h2
      unfold list_step at h2 ⊢
      by_cases hd : p1.last_token.type = TOKEN_DOT
      · rw [if_pos hd] at h2 ⊢
        exact bind_mono h2 hr (fun h1 => ihE (parse_next_token p1) _ rfl h1)
          (fun _ _ _ h3 => h3)
      · rw [if_neg hd] at h2 ⊢
        exact ihL _ _ _ h2 hr

theorem parse_expr_fuel_mono {n m : Nat} {p : Parser} {r : ParseResult}
    (h : parse_expr_fuel n p = r) (hr : r ≠ ParseResult.out_of_fuel) (hnm : n ≤ m) :
    parse_expr_fuel m p = r := by
  induction hnm with
  | refl => exact h
  | step _ ih => exact (fuel_mono_succ _).1 p r ih hr

theorem parse_list_fuel_mono {n m : Nat} {l : Expr} {p : Parser} {r : ParseResult}
    (h : parse_list_fuel n l p = r) (hr : r ≠ ParseResult.out_of_fuel) (hnm : n ≤ m) :
    parse_list_fuel m l p = r := by
  induction hnm with
  | refl => exact h
  | step _ ih => exact (fuel_mono_succ _).2 l p r ih hr

/-- Every successful call consumes at least one token. -/
theorem parse_progress (n : Nat) :
    (∀ p e p1, parse_expr_fuel n p = ParseResult.ok e p1 → weight p1 < weight p) ∧
    (∀ l p e p1, parse_list_fuel n l p = ParseResult.ok e p1 → weight p1 < weight p) := by
  induction n with
  | zero =>
    constructor
    · intro p e p1 h
      rw [parse_expr_fuel] at h
      cases h
    · intro l p e p1 h
      rw [parse_list_fuel] at h
      cases h
  | succ n ih =>
    obtain ⟨ihE, ihL⟩ := ih
    constructor
    · intro p e p1 h
      cases ht : p.last_token.type with
      | TOKEN_EOF =>
        rw [parse_expr_other _ _ (Or.inl ht)] at h; cases h
      | TOKEN_LPAREN =>
        rw [parse_expr_lparen _ _ ht] at h
        exact (ihL _ _ _ _ h).trans (parse_next_token_weight_lt p (by simp [ht]))
      | TOKEN_RPAREN =>
        rw [parse_expr_other _ _ (Or.inr (Or.inl ht))] at h; cases h
      | TOKEN_SYMBOL =>
        rw [parse_expr_symbol _ _ ht] at h
        cases h
        exact parse_next_token_weight_lt p (by simp [ht])
      | TOKEN_NUMBER =>
        rw [parse_expr_number _ _ ht] at h
        cases h
        exact parse_next_token_weight_lt p (by simp [ht])
      | TOKEN_QUOTE =>
        rw [parse_expr_quote _ _ ht, bind_eq_ok] at h
        obtain ⟨e1, p2, h1, h2⟩ := h
        cases h2
        exact (ihE _ _ _ h1).trans (parse_next_token_weight_lt p (by simp [ht]))
      | TOKEN_COMMA =>
        rw [parse_expr_other _ _ (Or.inr (Or.inr (Or.inl ht)))] at h; cases h
      | TOKEN_DOT =>
        rw [parse_expr_other _ _ (Or.inr (Or.inr (Or.inr ht)))] at h; cases h
    · intro l p e p1 h
      by_cases ht : p.last_token.type = TOKEN_RPAREN
      · rw [parse_list_rparen _ _ _ ht] at h
        cases h
        exact parse_next_token_weight_lt p (by simp [ht])
      · rw [parse_list_other _ _ _ ht, bind_eq_ok] at h
        obtain ⟨e1, p2, h1, h2⟩ := h
        have w1 := ihE _ _ _ h1
        unfold list_step at h2
        by_cases hd : p2.last_token.type = TOKEN_DOT
        · rw [if_pos hd, bind_eq_ok] at h2
          obtain ⟨e3, p3, h3, h4⟩ := h2
          have w2 := ihE _ _ _ h3
          have w3 := parse_next_token_weight_lt p2 (by simp [hd])
          by_cases hr : p3.last_token.type = TOKEN_RPAREN
          · rw [if_pos hr] at h4
            cases h4
            have w4 := parse_next_token_weight_lt p3 (by simp [hr])
            omega
          · rw [if_neg hr] at h4
            cases h4
        · rw [if_neg hd] at h2
          have w2 := ihL _ _ _ _ h2
          omega

/-- A budget of twice the weight plus one is never exhausted. -/
theorem fuel_enough (m : Nat) :
    (∀ p n, weight p ≤ m → 2 * m + 1 ≤ n →
      parse_expr_fuel n p ≠ ParseResult.out_of_fuel) ∧
    (∀ l p n, weight p ≤ m → 2 * m + 2 ≤ n →
      parse_list_fuel n l p ≠ ParseResult.out_of_fuel) := by
  induction m using Nat.strong_induction_on with
  | _ m ih =>
    have hE : ∀ p n, weight p ≤ m → 2 * m + 1 ≤ n →
        parse_expr_fuel n p ≠ ParseResult.out_of_fuel := by
      intro p n hw hn
      obtain ⟨k, rfl⟩ : ∃ k, n = k + 1 := ⟨n - 1, by omega⟩
      cases ht : p.last_token.type with
      | TOKEN_EOF =>
        rw [parse_expr_other _ _ (Or.inl ht)]; simp
      | TOKEN_LPAREN =>
        rw [parse_expr_lparen _ _ ht]
        have wlt := parse_next_token_weight_lt p (by simp [ht])
        exact (ih (m - 1) (by omega)).2 _ _ _ (by omega) (by omega)
      | TOKEN_RPAREN =>
        rw [parse_expr_other _ _ (Or.inr (Or.inl ht))]; simp
      | TOKEN_SYMBOL =>
        rw [parse_expr_symbol _ _ ht]; simp
      | TOKEN_NUMBER =>
        rw [parse_expr_number _ _ ht]; simp
      | TOKEN_QUOTE =>
        rw [parse_expr_quote _ _ ht]
        have wlt := parse_next_token_weight_lt p (by simp [ht])
        exact bind_ne_out_of_fuel ((ih (m - 1) (by omega)).1 _ _ (by omega) (by omega))
          (fun _ _ _ => by simp)
      | TOKEN_COMMA =>
        rw [parse_expr_other _ _ (Or.inr (Or.inr (Or.inl ht)))]; simp
      | TOKEN_DOT =>
        rw [parse_expr_other _ _ (Or.inr (Or.inr (Or.inr ht)))]; simp
    refine ⟨hE, ?_⟩
    intro l p n hw hn
    obtain ⟨k, rfl⟩ : ∃ k, n = k + 1 := ⟨n - 1, by omega⟩
    by_cases ht : p.last_token.type = TOKEN_RPAREN
    · rw [parse_list_rparen _ _ _ ht]; simp
    · rw [parse_list_other _ _ _ ht]
      refine bind_ne_out_of_fuel (hE p k hw (by omega)) ?_
      intro e p1 h1
      have w1 := (parse_progress k).1 _ _ _ h1
      unfold list_step
      by_cases hd : p1.last_token.type = TOKEN_DOT
      · rw [if_pos hd]
        have w2 := parse_next_token_weight_lt p1 (by simp [hd])
        refine bind_ne_out_of_fuel
          ((ih (m - 1) (by omega)).1 _ _ (by omega) (by omega)) ?_
        intro e2 p2 _
        split_ifs <;> simp
      · rw [if_neg hd]
        exact (ih (m - 1) (by omega)).2 _ _ _ (by omega) (by omega)

theorem weight_le_budget (p : Parser) : 2 * weight p + 1 ≤ parse_budget p := by
  unfold weight parse_budget
  split_ifs <;> omega

/-- The function `parse_expr` always ends, with a tree or with a grammar error. -/
theorem parse_expr_ne_out_of_fuel (p : Parser) : parse_expr p ≠ ParseResult.out_of_fuel :=
  (fuel_enough (weight p)).1 p _ (Nat.le_refl _) (weight_le_budget p)

/-- A result reached with some budget is the result of `parse_expr`. -/
theorem parse_expr_of_fuel {n : Nat} {p : Parser} {r : ParseResult}
    (h : parse_expr_fuel n p = r) (hr : r ≠ ParseResult.out_of_fuel) : parse_expr p = r := by
  rcases Nat.le_total n (parse_budget p) with hle | hle
  · exact parse_expr_fuel_mono h hr hle
  · have h2 := parse_expr_fuel_mono (rfl : parse_expr_fuel (parse_budget p) p = parse_expr p)
      (parse_expr_ne_out_of_fuel p) hle
    exact h2.symm.trans h

/-- The result of `parse_expr` is reached with every larger budget. -/
theorem parse_expr_fuel_of_le (p : Parser) (n : Nat) (h : parse_budget p ≤ n) :
    parse_expr_fuel n p = parse_expr p :=
  parse_expr_fuel_mono rfl (parse_expr_ne_out_of_fuel p) h

theorem parse_list_ne_out_of_fuel (l : Expr) (p : Parser) :
    parse_list l p ≠ ParseResult.out_of_fuel :=
  (fuel_enough (weight p)).2 l p _ (Nat.le_refl _)
    (Nat.succ_le_succ (weight_le_budget p))

theorem parse_list_of_fuel {n : Nat} {l : Expr} {p : Parser} {r : ParseResult}
    (h : parse_list_fuel n l p = r) (hr : r ≠ ParseResult.out_of_fuel) :
    parse_list l p = r := by
  rcases Nat.le_total n (parse_budget p + 1) with hle | hle
  · exact parse_list_fuel_mono h hr hle
  · have h2 := parse_list_fuel_mono
      (rfl : parse_list_fuel (parse_budget p + 1) l p = parse_list l p)
      (parse_list_ne_out_of_fuel l p) hle
    exact h2.symm.trans h

theorem parse_list_fuel_of_le (l : Expr) (p : Parser) (n : Nat)
    (h : parse_budget p + 1 ≤ n) : parse_list_fuel n l p = parse_list l p :=
  parse_list_fuel_mono rfl (parse_list_ne_out_of_fuel l p) h

theorem parse_expr_eq_lparen (p : Parser) (h : p.last_token.type = TOKEN_LPAREN) :
    parse_expr p = parse_list nil (parse_next_token p) :=
  parse_expr_of_fuel
    ((parse_expr_lparen (parse_budget (parse_next_token p) + 1) p h).trans rfl)
    (parse_list_ne_out_of_fuel _ _)

theorem parse_expr_eq_number (p : Parser) (h : p.last_token.type = TOKEN_NUMBER) :
    parse_expr p = ParseResult.ok (make_int p.last_token.num) (parse_next_token p) :=
  parse_expr_of_fuel (parse_expr_number 0 p h) (by simp)

theorem parse_expr_eq_symbol (p : Parser) (h : p.last_token.type = TOKEN_SYMBOL) :
    parse_expr p = ParseResult.ok (make_sym p.last_token.str) (parse_next_token p) :=
  parse_expr_of_fuel (parse_expr_symbol 0 p h) (by simp)

theorem parse_expr_eq_quote (p : Parser) (h : p.last_token.type = TOKEN_QUOTE) :
    parse_expr p = (parse_expr (parse_next_token p)).bind
      (fun arg p1 => ParseResult.ok (quote_form arg) p1) :=
  parse_expr_of_fuel
    ((parse_expr_quote (parse_budget (parse_next_token p)) p h).trans rfl)
    (bind_ne_out_of_fuel (parse_expr_ne_out_of_fuel _) (fun _ _ _ => by simp))

theorem parse_expr_eq_other (p : Parser)
    (h : p.last_token.type = TOKEN_EOF ∨ p.last_token.type = TOKEN_RPAREN ∨
      p.last_token.type = TOKEN_COMMA ∨ p.last_token.type = TOKEN_DOT) :
    parse_expr p = ParseResult.grammar_error :=
  parse_expr_of_fuel (parse_expr_other 0 p h) (by simp)

theorem parse_list_eq_rparen (l : Expr) (p : Parser)
    (h : p.last_token.type = TOKEN_RPAREN) :
    parse_list l p = ParseResult.ok l (parse_next_token p) :=
  parse_list_of_fuel (parse_list_rparen 0 l p h) (by simp)

theorem list_tail_ne_out_of_fuel (l e : Expr) (p1 : Parser) :
    list_tail l e p1 ≠ ParseResult.out_of_fuel := by
  unfold list_tail
  split_ifs
  · refine bind_ne_out_of_fuel (parse_expr_ne_out_of_fuel _) ?_
    intro e2 p2 _
    split_ifs <;> simp
  · exact parse_list_ne_out_of_fuel _ _

theorem parse_list_eq_other (l : Expr) (p : Parser)
    (h : p.last_token.type ≠ TOKEN_RPAREN) :
    parse_list l p = (parse_expr p).bind (list_tail l) := by
  have hne : (parse_expr p).bind (list_tail l) ≠ ParseResult.out_of_fuel :=
    bind_ne_out_of_fuel (parse_expr_ne_out_of_fuel _)
      (fun _ _ _ => list_tail_ne_out_of_fuel _ _ _)
  cases h1 : parse_expr p with
  | out_of_fuel => exact absurd h1 (parse_expr_ne_out_of_fuel p)
  | grammar_error =>
    refine parse_list_of_fuel (n := parse_budget p + 1) ?_ (by simp [ParseResult.bind])
    rw [parse_list_other _ _ _ h]
    have : parse_expr_fuel (parse_budget p) p = ParseResult.grammar_error := h1
    rw [this]
    simp only [ParseResult.bind]
  | ok e p1 =>
    rw [h1] at hne
    let N := max (parse_budget p) (max (parse_budget (parse_next_token p1))
      (parse_budget p1 + 1))
    have e1 : parse_expr_fuel N p = ParseResult.ok e p1 := by
      rw [parse_expr_fuel_of_le p N (le_max_left _ _)]; exact h1
    have e2 : parse_expr_fuel N (parse_next_token p1) = parse_expr (parse_next_token p1) :=
      parse_expr_fuel_of_le _ N ((le_max_left _ _).trans (le_max_right _ _))
    have e3 : ∀ l1, parse_list_fuel N l1 p1 = parse_list l1 p1 := fun l1 =>
      parse_list_fuel_of_le _ _ N ((le_max_right _ _).trans (le_max_right _ _))
    refine parse_list_of_fuel (n := N + 1) ?_ hne
    rw [parse_list_other _ _ _ h, e1]
    simp only [ParseResult.bind, list_step, list_tail, e2, e3]

theorem takeWhile_literal_append (a r : List Char)
    (ha : ∀ c ∈ a, is_literal_char c = true) (hr : StopsLiteral r) :
    (a ++ r).takeWhile is_literal_char = a ∧ (a ++ r).dropWhile is_literal_char = r := by
  induction a with
  | nil =>
    cases r with
    | nil => simp
    | cons c r =>
      have := hr c rfl
      simp [List.takeWhile_cons, List.dropWhile_cons, this]
  | cons c a ih =>
    have hc := ha c (List.mem_cons_self _ _)
    obtain ⟨i1, i2⟩ := ih (fun d hd => ha d (List.mem_cons_of_mem _ hd))
    simp [List.takeWhile_cons, List.dropWhile_cons, hc, i1, i2]

theorem is_literal_of_digit (c : Char) (h : is_digit_char c = true) :
    is_literal_char c = true := by
  have h1 := (is_digit_char_iff c).mp h
  simp only [IsDecimalDigit, List.mem_cons, List.mem_singleton] at h1
  rcases h1 with h | h | h | h | h | h | h | h | h | h | h
  all_goals first | (subst h; decide) | simp at h

theorem not_whitespace_of_literal (c : Char) (h : is_literal_char c = true) :
    is_whitespace_char c = false := by
  simp only [is_literal_char, Bool.not_eq_true', Bool.or_eq_false_iff] at h
  exact h.2

/-- An atom text followed by a stream that stops the literal run is lexed as one token:
the literal token of that text. -/
theorem lex_literal_run (a r : List Char) (t : Token) (hne : a ≠ [])
    (ha : ∀ c ∈ a, is_literal_char c = true)
    (hh : ∀ c, a.head? = some c → c ≠ '\'' ∧ c ≠ ',' ∧ c ≠ '.' ∧ c ≠ ';')
    (hr : StopsLiteral r) :
    parse_next_token ⟨a ++ r, t⟩ = ⟨r, literal_token zero_token a⟩ := by
  rw [parse_next_token_eq]
  obtain ⟨i1, i2⟩ := takeWhile_literal_append a r ha hr
  cases a with
  | nil => exact absurd rfl hne
  | cons c a1 =>
    have hc := ha c (List.mem_cons_self _ _)
    obtain ⟨q1, q2, q3, q4⟩ := hh c rfl
    have hws := not_whitespace_of_literal c hc
    have hc2 : c ≠ '(' ∧ c ≠ ')' ∧ c ≠ '\x00' := by
      simp only [is_literal_char, Bool.not_eq_true', Bool.or_eq_false_iff, beq_eq_false_iff_ne] at hc
      exact ⟨hc.1.1.1, hc.1.1.2, hc.1.2⟩
    rw [List.cons_append, skipWs_cons_other c _ hws q4]
    rw [List.cons_append] at i1 i2
    simp only [tokOf, hc2.1, hc2.2.1, hc2.2.2, q1, q2, q3, hc, if_false, if_true, i1, i2]

theorem number_text_literal (neg : Bool) (ds : List Char)
    (hd : ∀ c ∈ ds, is_digit_char c = true) :
    ∀ c ∈ number_text neg ds, is_literal_char c = true := by
  intro c hc
  cases neg with
  | true =>
    simp only [number_text, if_true, List.mem_cons] at hc
    rcases hc with h | h
    · subst h; decide
    · exact is_literal_of_digit c (hd c h)
  | false =>
    simp only [number_text, Bool.false_eq_true, if_false] at hc
    exact is_literal_of_digit c (hd c hc)

theorem atom_digits (ds : List Char) (h : ∀ c ∈ ds, IsDecimalDigit c) :
    ∀ c ∈ ds, is_digit_char c = true :=
  fun c hc => (is_digit_char_iff c).mpr (h c hc)

/-- The text of a well-formed atom, followed by a stream that stops the literal run, is
lexed as one token. -/
theorem lex_atom (a : Atom) (r : List Char) (t : Token) (hw : a.WellFormed)
    (hr : StopsLiteral r) :
    parse_next_token ⟨a.text ++ r, t⟩ = ⟨r, literal_token zero_token a.text⟩ := by
  cases a with
  | int neg ds =>
    obtain ⟨h1, h2⟩ := hw
    have hd := atom_digits ds h2
    refine lex_literal_run _ r t ?_ (number_text_literal neg ds hd) ?_ hr
    · cases neg <;> simp [Atom.text, number_text, h1]
    · intro c hc
      cases neg with
      | true =>
        simp only [Atom.text, number_text, if_true, List.head?_cons, Option.some.injEq] at hc
        subst hc
        decide
      | false =>
        simp only [Atom.text, number_text, Bool.false_eq_true, if_false] at hc
        have hm : c ∈ ds := List.mem_of_mem_head? hc
        have := h2 c hm
        simp only [IsDecimalDigit, List.mem_cons, List.mem_singleton] at this
        rcases this with h | h | h | h | h | h | h | h | h | h | h
        all_goals first | (subst h; decide) | simp at h
  | sym s =>
    obtain ⟨h1, h2, h3, _⟩ := hw
    exact lex_literal_run s r t h1 h2 h3 hr

/-- With the token of a well-formed atom as lookahead, `parse_expr` returns the tree of
the atom and moves to the next token. -/
theorem parse_expr_atom (a : Atom) (r : List Char) (hw : a.WellFormed) :
    ((literal_token zero_token a.text).type = TOKEN_NUMBER ∨
      (literal_token zero_token a.text).type = TOKEN_SYMBOL) ∧
    parse_expr ⟨r, literal_token zero_token a.text⟩
      = ParseResult.ok a.tree (parse_next_token ⟨r, zero_token⟩) := by
  cases a with
  | int neg ds =>
    obtain ⟨h1, h2⟩ := hw
    have hd := atom_digits ds h2
    have ht := literal_token_number zero_token neg ds h1 hd
    simp only [Atom.text]
    rw [ht]
    refine ⟨Or.inl rfl, ?_⟩
    rw [parse_expr_eq_number _ rfl]
    simp only [make_int, Atom.tree]
    rw [parse_next_token_stream _ zero_token]
  | sym s =>
    obtain ⟨_, _, _, h4⟩ := hw
    obtain ⟨t1, t2⟩ := literal_token_symbol zero_token s h4
    simp only [Atom.text]
    refine ⟨Or.inr t1, ?_⟩
    rw [parse_expr_eq_symbol _ t1]
    simp only [make_sym, t2, Option.getD_some, Atom.tree]
    rw [parse_next_token_stream _ zero_token]

theorem lex_whitespace (c : Char) (s : List Char) (t : Token)
    (h : is_whitespace_char c = true) :
    parse_next_token ⟨c :: s, t⟩ = parse_next_token ⟨s, t⟩ := by
  rw [parse_next_token_eq, parse_next_token_eq, skipWs_cons_ws c s h]

theorem lex_lparen (s : List Char) (t : Token) :
    parse_next_token ⟨'(' :: s, t⟩ = ⟨s, ⟨TOKEN_LPAREN, none, 0⟩⟩ := by
  rw [parse_next_token_eq, skipWs_cons_other _ _ (by decide) (by decide)]
  simp [tokOf]

theorem lex_rparen (s : List Char) (t : Token) :
    parse_next_token ⟨')' :: s, t⟩ = ⟨s, ⟨TOKEN_RPAREN, none, 0⟩⟩ := by
  rw [parse_next_token_eq, skipWs_cons_other _ _ (by decide) (by decide)]
  simp [tokOf]

theorem lex_quote (s : List Char) (t : Token) :
    parse_next_token ⟨'\'' :: s, t⟩ = ⟨s, ⟨TOKEN_QUOTE, none, 0⟩⟩ := by
  rw [parse_next_token_eq, skipWs_cons_other _ _ (by decide) (by decide)]
  simp [tokOf]

theorem lex_dot (s : List Char) (t : Token) :
    parse_next_token ⟨'.' :: s, t⟩ = ⟨s, ⟨TOKEN_DOT, none, 0⟩⟩ := by
  rw [parse_next_token_eq, skipWs_cons_other _ _ (by decide) (by decide)]
  simp [tokOf]

theorem lex_end (t : Token) : parse_next_token ⟨[], t⟩ = ⟨[], zero_token⟩ := by
  rw [parse_next_token_eq, skipWs_nil]
  rfl

theorem spaced_cons_cons (a b : Atom) (as : List Atom) :
    spaced (a :: b :: as) = a.text ++ ' ' :: spaced (b :: as) := by
  simp [spaced, List.intercalate, List.intersperse]

theorem spaced_single (a : Atom) : spaced [a] = a.text := by
  simp [spaced, List.intercalate, List.intersperse]

theorem stopsLiteral_space (r : List Char) : StopsLiteral (' ' :: r) := by
  intro c hc
  simp only [List.head?_cons, Option.some.injEq] at hc
  subst hc
  decide

theorem stopsLiteral_rparen (r : List Char) : StopsLiteral (')' :: r) := by
  intro c hc
  simp only [List.head?_cons, Option.some.injEq] at hc
  subst hc
  decide

theorem stopsLiteral_nil : StopsLiteral [] := by
  intro c hc
  simp at hc

theorem spaced_cons_stop (x : Atom) (xs : List Atom) (r : List Char) (hr : StopsLiteral r) :
    ∃ r1, spaced (x :: xs) ++ r = x.text ++ r1 ∧ StopsLiteral r1 := by
  cases xs with
  | nil => exact ⟨r, by rw [spaced_single], hr⟩
  | cons y ys =>
    refine ⟨' ' :: spaced (y :: ys) ++ r, ?_, stopsLiteral_space _⟩
    rw [spaced_cons_cons]
    simp

/-- The first token of a spaced sequence of atoms is the token of its first atom. -/
theorem lex_spaced_type (x : Atom) (xs : List Atom) (r : List Char) (t : Token)
    (hx : x.WellFormed) (hr : StopsLiteral r) :
    (parse_next_token ⟨spaced (x :: xs) ++ r, t⟩).last_token.type = TOKEN_NUMBER ∨
    (parse_next_token ⟨spaced (x :: xs) ++ r, t⟩).last_token.type = TOKEN_SYMBOL := by
  obtain ⟨r1, e1, h1⟩ := spaced_cons_stop x xs r hr
  rw [e1, lex_atom x r1 t hx h1]
  exact (parse_expr_atom x r1 hx).1

/-- One iteration of the list loop on an atom that is not followed by a dot: the atom is
pushed and the loop goes on at the token after it. -/
theorem parse_list_atom_step (a : Atom) (acc : Expr) (r : List Char) (t : Token)
    (ha : a.WellFormed) (hr : StopsLiteral r)
    (hd : (parse_next_token ⟨r, zero_token⟩).last_token.type ≠ TOKEN_DOT) :
    parse_list acc (parse_next_token ⟨a.text ++ r, t⟩)
      = parse_list (list_pushb acc a.tree) (parse_next_token ⟨r, zero_token⟩) := by
  rw [lex_atom a r t ha hr]
  obtain ⟨h1, h2⟩ := parse_expr_atom a r ha
  have hnr : (literal_token zero_token a.text).type ≠ TOKEN_RPAREN := by
    rcases h1 with h | h <;> rw [h] <;> decide
  rw [parse_list_eq_other _ _ hnr, h2]
  unfold ParseResult.bind
  simp only []
  unfold list_tail
  rw [if_neg hd]

/-- The list loop pushes the atoms before the last one of a spaced sequence, in order. -/
theorem parse_list_spaced (as : List Atom) (b : Atom) (acc : Expr) (r : List Char)
    (t : Token) (has : ∀ x ∈ as, x.WellFormed) (hb : b.WellFormed) (hr : StopsLiteral r) :
    parse_list acc (parse_next_token ⟨spaced (as ++ [b]) ++ r, t⟩)
      = parse_list (List.foldl list_pushb acc (as.map Atom.tree))
          (parse_next_token ⟨b.text ++ r, zero_token⟩) := by
  induction as generalizing acc t with
  | nil =>
    simp only [List.nil_append, spaced_single, List.map_nil, List.foldl_nil]
    rw [parse_next_token_stream _ zero_token]
  | cons a as ih =>
    have ha := has a (List.mem_cons_self _ _)
    have has1 : ∀ x ∈ as, x.WellFormed := fun x hx => has x (List.mem_cons_of_mem _ hx)
    obtain ⟨y, ys, hy⟩ : ∃ y ys, as ++ [b] = y :: ys := by
      cases as with
      | nil => exact ⟨b, [], rfl⟩
      | cons y ys => exact ⟨y, ys ++ [b], rfl⟩
    have hyw : y.WellFormed := by
      have : y ∈ as ++ [b] := by rw [hy]; exact List.mem_cons_self _ _
      rcases List.mem_append.mp this with h | h
      · exact has1 y h
      · rw [List.mem_singleton.mp h]; exact hb
    have e1 : spaced (a :: as ++ [b]) ++ r = a.text ++ (' ' :: (spaced (as ++ [b]) ++ r)) := by
      rw [List.cons_append, hy, spaced_cons_cons]
      simp
    have e2 : parse_next_token ⟨' ' :: (spaced (as ++ [b]) ++ r), zero_token⟩
        = parse_next_token ⟨spaced (as ++ [b]) ++ r, zero_token⟩ :=
      lex_whitespace _ _ _ (by decide)
    have hd : (parse_next_token ⟨' ' :: (spaced (as ++ [b]) ++ r), zero_token⟩).last_token.type
        ≠ TOKEN_DOT := by
      rw [e2, hy]
      rcases lex_spaced_type y ys r zero_token hyw hr with h | h <;> simp [h]
    rw [e1, parse_list_atom_step a acc _ t ha (stopsLiteral_space _) hd, e2, ih _ _ has1]
    simp

theorem list_pushb_proper (es : List Expr) (e : Expr) :
    list_pushb (proper_list es) e = proper_list (es ++ [e]) := by
  induction es with
  | nil => rfl
  | cons x xs ih => simp [proper_list, list_pushb, ih]

theorem foldl_pushb_proper (es fs : List Expr) :
    List.foldl list_pushb (proper_list es) fs = proper_list (es ++ fs) := by
  induction fs generalizing es with
  | nil => simp
  | cons f fs ih =>
    rw [List.foldl_cons, list_pushb_proper, ih]
    simp

/-- The list loop on a spaced sequence of atoms closed by `)` returns the atoms pushed
in order onto the accumulated list. -/
theorem parse_list_spaced_close (as : List Atom) (acc : Expr) (tail : List Char)
    (t : Token) (has : ∀ x ∈ as, x.WellFormed) :
    parse_list acc (parse_next_token ⟨spaced as ++ ')' :: tail, t⟩)
      = ParseResult.ok (List.foldl list_pushb acc (as.map Atom.tree))
          (parse_next_token ⟨tail, zero_token⟩) := by
  have hclose : ∀ l, parse_list l (parse_next_token ⟨')' :: tail, zero_token⟩)
      = ParseResult.ok l (parse_next_token ⟨tail, zero_token⟩) := by
    intro l
    rw [lex_rparen, parse_list_eq_rparen _ _ rfl, parse_next_token_stream _ zero_token]
  rcases List.eq_nil_or_concat' as with h | ⟨bs, b, h⟩
  · subst h
    have e0 : spaced [] = [] := rfl
    rw [e0]
    simp only [List.map_nil, List.nil_append, List.foldl_nil]
    rw [parse_next_token_stream _ zero_token]
    exact hclose acc
  · subst h
    have hb : b.WellFormed := has b (by simp)
    have hbs : ∀ x ∈ bs, x.WellFormed := fun x hx => has x (by simp [hx])
    rw [parse_list_spaced bs b acc _ t hbs hb (stopsLiteral_rparen _)]
    have hd : (parse_next_token ⟨')' :: tail, zero_token⟩).last_token.type ≠ TOKEN_DOT := by
      rw [lex_rparen]; simp
    rw [parse_list_atom_step b _ _ _ hb (stopsLiteral_rparen _) hd, hclose]
    simp [List.foldl_append]

theorem lex_whitespaces (w s : List Char) (t : Token)
    (hw : ∀ c ∈ w, is_whitespace_char c = true) :
    parse_next_token ⟨w ++ s, t⟩ = parse_next_token ⟨s, t⟩ := by
  induction w with
  | nil => rfl
  | cons c w ih =>
    rw [List.cons_append, lex_whitespace c _ t (hw c (List.mem_cons_self _ _))]
    exact ih (fun d hd => hw d (List.mem_cons_of_mem _ hd))

theorem is_whitespace_char_iff (c : Char) :
    is_whitespace_char c = true ↔ c ∈ [' ', '\t', '\r', '\n'] := by
  simp only [is_whitespace_char, Bool.or_eq_true, beq_iff_eq, List.mem_cons,
    List.mem_singleton]
  constructor
  · rintro ((((h | h) | h) | h) | h) <;> simp [h]
  · rintro (h | h | h | h | h)
    · simp [h]
    · simp [h]
    · simp [h]
    · simp [h]
    · simp at h

theorem parse_lparen (s : List Char) :
    parse ('(' :: s) = parse_list nil (parse_next_token ⟨s, zero_token⟩) := by
  unfold parse parser_init
  rw [lex_lparen, parse_expr_eq_lparen _ rfl, parse_next_token_stream _ zero_token]

theorem atom_tree_ne_pair (b : Atom) (x y : Expr) : b.tree ≠ Expr.Pair x y := by
  cases b <;> simp [Atom.tree]

theorem quote_wellFormed : (Atom.sym ['q', 'u', 'o', 't', 'e']).WellFormed :=
  ⟨by simp, by decide, by decide, by
    rintro ⟨ds, _, hd, e | e⟩
    · subst e; exact absurd (hd 'q' (by simp)) (by decide)
    · cases e⟩

theorem decimal_value_zeros (k : Nat) (ds : List Char) :
    decimal_value (List.replicate k '0' ++ ds) = decimal_value ds := by
  induction k with
  | zero => rfl
  | succ k ih =>
    rw [List.replicate_succ, List.cons_append, decimal_value, ih]
    have : digit_value '0' = 0 := by decide
    rw [this]
    simp

theorem lex_literal_number (t : Token) (neg : Bool) (ds rest : List Char) (hne : ds ≠ [])
    (hd : ∀ c ∈ ds, IsDecimalDigit c) (hrest : StopsLiteral rest) :
    lex_literal ⟨number_text neg ds ++ rest, t⟩
      = ⟨rest, { t with type := TOKEN_NUMBER, num := wrap_i64 (number_value neg ds) }⟩ := by
  have hd1 := atom_digits ds hd
  obtain ⟨i1, i2⟩ := takeWhile_literal_append _ rest (number_text_literal neg ds hd1) hrest
  rw [lex_literal_eq, i1, i2, literal_token_number t neg ds hne hd1]

theorem advance_succ (k : Nat) (p : Parser) :
    advance (k + 1) p = parse_next_token (advance k p) := by
  induction k generalizing p with
  | zero => rfl
  | succ k ih =>
    rw [advance, ih (parse_next_token p)]
    rfl

theorem advance_add (a b : Nat) (p : Parser) :
    advance (a + b) p = advance b (advance a p) := by
  induction a generalizing p with
  | zero => simp [advance]
  | succ a ih =>
    rw [Nat.succ_add, advance, ih]
    rfl

theorem token_types_add (a b : Nat) (p : Parser) :
    token_types (a + b) p = token_types a p ++ token_types b (advance a p) := by
  induction a generalizing p with
  | zero => simp [token_types, advance]
  | succ a ih =>
    rw [Nat.succ_add, token_types, ih]
    rfl

theorem token_types_length (k : Nat) (p : Parser) : (token_types k p).length = k := by
  induction k generalizing p with
  | zero => rfl
  | succ k ih => simp [token_types, ih]

/-- The parser accepts only what the grammar derives, and consumes exactly those tokens. -/
theorem parse_sound (n : Nat) :
    (∀ p e p1, parse_expr_fuel n p = ParseResult.ok e p1 →
      ∃ k, Derives NonTerminal.expr (token_types k p) ∧ p1 = advance k p) ∧
    (∀ l p e p1, parse_list_fuel n l p = ParseResult.ok e p1 →
      ∃ k, Derives NonTerminal.list_body (token_types k p) ∧ p1 = advance k p) := by
  induction n with
  | zero =>
    constructor
    · intro p e p1 h
      rw [parse_expr_fuel] at h
      cases h
    · intro l p e p1 h
      rw [parse_list_fuel] at h
      cases h
  | succ n ih =>
    obtain ⟨ihE, ihL⟩ := ih
    constructor
    · intro p e p1 h
      cases ht : p.last_token.type with
      | TOKEN_EOF =>
        rw [parse_expr_other _ _ (Or.inl ht)] at h; cases h
      | TOKEN_LPAREN =>
        rw [parse_expr_lparen _ _ ht] at h
        obtain ⟨k, d, e1⟩ := ihL _ _ _ _ h
        refine ⟨k + 1, ?_, e1⟩
        rw [token_types, ht]
        exact Derives.list d
      | TOKEN_RPAREN =>
        rw [parse_expr_other _ _ (Or.inr (Or.inl ht))] at h; cases h
      | TOKEN_SYMBOL =>
        rw [parse_expr_symbol _ _ ht] at h
        cases h
        refine ⟨1, ?_, rfl⟩
        rw [token_types, ht]
        exact Derives.symbol
      | TOKEN_NUMBER =>
        rw [parse_expr_number _ _ ht] at h
        cases h
        refine ⟨1, ?_, rfl⟩
        rw [token_types, ht]
        exact Derives.number
      | TOKEN_QUOTE =>
        rw [parse_expr_quote _ _ ht, bind_eq_ok] at h
        obtain ⟨e1, p2, h1, h2⟩ := h
        cases h2
        obtain ⟨k, d, e1⟩ := ihE _ _ _ h1
        refine ⟨k + 1, ?_, e1⟩
        rw [token_types, ht]
        exact Derives.quote d
      | TOKEN_COMMA =>
        rw [parse_expr_other _ _ (Or.inr (Or.inr (Or.inl ht)))] at h; cases h
      | TOKEN_DOT =>
        rw [parse_expr_other _ _ (Or.inr (Or.inr (Or.inr ht)))] at h; cases h
    · intro l p e p1 h
      by_cases ht : p.last_token.type = TOKEN_RPAREN
      · rw [parse_list_rparen _ _ _ ht] at h
        cases h
        refine ⟨1, ?_, rfl⟩
        rw [token_types, ht]
        exact Derives.close
      · rw [parse_list_other _ _ _ ht, bind_eq_ok] at h
        obtain ⟨e1, p2, h1, h2⟩ := h
        obtain ⟨k1, d1, q1⟩ := ihE _ _ _ h1
        unfold list_step at h2
        by_cases hd : p2.last_token.type = TOKEN_DOT
        · rw [if_pos hd, bind_eq_ok] at h2
          obtain ⟨e3, p3, h3, h4⟩ := h2
          obtain ⟨k2, d2, q2⟩ := ihE _ _ _ h3
          by_cases hr : p3.last_token.type = TOKEN_RPAREN
          · rw [if_pos hr] at h4
            cases h4
            refine ⟨k1 + (1 + (k2 + 1)), ?_, ?_⟩
            · rw [token_types_add, ← q1, Nat.add_comm 1, token_types, hd, token_types_add,
                ← q2]
              have : token_types 1 p3 = [TOKEN_RPAREN] := by
                rw [token_types, hr]; rfl
              rw [this]
              exact Derives.dotted d1 d2
            · rw [advance_add, ← q1, Nat.add_comm 1, advance, advance_add, ← q2]
              rfl
          · rw [if_neg hr] at h4
            cases h4
        · rw [if_neg hd] at h2
          obtain ⟨k2, d2, q2⟩ := ihL _ _ _ _ h2
          refine ⟨k1 + k2, ?_, ?_⟩
          · rw [token_types_add, ← q1]
            exact Derives.cons d1 d2
          · rw [advance_add, ← q1]
            exact q2

theorem token_types_split (k : Nat) (p : Parser) (a b : List TokenType)
    (h : a ++ b = token_types k p) :
    a = token_types a.length p ∧
      b = token_types (k - a.length) (advance a.length p) ∧ a.length ≤ k := by
  have hl : a.length + b.length = k := by
    have := congrArg List.length h
    rw [List.length_append, token_types_length] at this
    exact this
  have hk : k = a.length + (k - a.length) := by omega
  rw [hk, token_types_add] at h
  have hlen : a.length = (token_types a.length p).length := (token_types_length _ _).symm
  obtain ⟨h1, h2⟩ := List.append_inj h hlen
  exact ⟨h1, h2, by omega⟩

theorem token_types_cons (k : Nat) (p : Parser) (t : TokenType) (b : List TokenType)
    (h : t :: b = token_types k p) :
    ∃ j, k = j + 1 ∧ p.last_token.type = t ∧ b = token_types j (parse_next_token p) := by
  cases k with
  | zero => cases h
  | succ j =>
    rw [token_types] at h
    cases h
    exact ⟨j, rfl, rfl, rfl⟩

/-- A derivation from `expr` starts with `(`, a number, a symbol or a quote. -/
theorem derives_expr_head {ts : List TokenType} (h : Derives NonTerminal.expr ts) :
    ∃ t r, ts = t :: r ∧
      (t = TOKEN_LPAREN ∨ t = TOKEN_NUMBER ∨ t = TOKEN_SYMBOL ∨ t = TOKEN_QUOTE) := by
  cases h with
  | list _ => exact ⟨_, _, rfl, Or.inl rfl⟩
  | number => exact ⟨_, _, rfl, Or.inr (Or.inl rfl)⟩
  | symbol => exact ⟨_, _, rfl, Or.inr (Or.inr (Or.inl rfl))⟩
  | quote _ => exact ⟨_, _, rfl, Or.inr (Or.inr (Or.inr rfl))⟩

/-- A derivation from `list_body` starts with `)` or with the start of an expression. -/
theorem derives_list_head {ts : List TokenType} (h : Derives NonTerminal.list_body ts) :
    ∃ t r, ts = t :: r ∧ t ≠ TOKEN_DOT := by
  cases h with
  | close => exact ⟨_, _, rfl, by decide⟩
  | dotted d1 _ =>
    obtain ⟨t, r, e, ht⟩ := derives_expr_head d1
    refine ⟨t, _, by rw [e]; rfl, ?_⟩
    rcases ht with h | h | h | h <;> rw [h] <;> decide
  | cons d1 _ =>
    obtain ⟨t, r, e, ht⟩ := derives_expr_head d1
    refine ⟨t, _, by rw [e]; rfl, ?_⟩
    rcases ht with h | h | h | h <;> rw [h] <;> decide

theorem token_types_head_type (k : Nat) (p : Parser) (t : TokenType) (r : List TokenType)
    (h : token_types k p = t :: r) : p.last_token.type = t := by
  obtain ⟨j, _, h2, _⟩ := token_types_cons k p t r h.symm
  exact h2

/-- The parser accepts whatever the grammar derives, and consumes exactly those tokens. -/
theorem parse_complete {nt : NonTerminal} {ts : List TokenType} (h : Derives nt ts) :
    ∀ p k, ts = token_types k p → Accepts nt p k := by
  induction h with
  | list _ ih =>
    intro p k e
    obtain ⟨j, rfl, ht, eb⟩ := token_types_cons k p _ _ e
    obtain ⟨x, hx⟩ := ih _ _ eb nil
    exact ⟨x, by rw [parse_expr_eq_lparen _ ht, hx]; rfl⟩
  | number =>
    intro p k e
    obtain ⟨j, rfl, ht, eb⟩ := token_types_cons k p _ _ e
    have hj : j = 0 := by
      have := congrArg List.length eb
      rw [token_types_length] at this
      exact this.symm
    subst hj
    exact ⟨_, parse_expr_eq_number _ ht⟩
  | symbol =>
    intro p k e
    obtain ⟨j, rfl, ht, eb⟩ := token_types_cons k p _ _ e
    have hj : j = 0 := by
      have := congrArg List.length eb
      rw [token_types_length] at this
      exact this.symm
    subst hj
    exact ⟨_, parse_expr_eq_symbol _ ht⟩
  | quote _ ih =>
    intro p k e
    obtain ⟨j, rfl, ht, eb⟩ := token_types_cons k p _ _ e
    obtain ⟨x, hx⟩ := ih _ _ eb
    exact ⟨quote_form x, by rw [parse_expr_eq_quote _ ht, hx]; rfl⟩
  | close =>
    intro p k e l
    obtain ⟨j, rfl, ht, eb⟩ := token_types_cons k p _ _ e
    have hj : j = 0 := by
      have := congrArg List.length eb
      rw [token_types_length] at this
      exact this.symm
    subst hj
    exact ⟨l, parse_list_eq_rparen l p ht⟩
  | @dotted a b d1 d2 ih1 ih2 =>
    intro p k e l
    obtain ⟨ea, er, hle⟩ := token_types_split k p _ _ e
    obtain ⟨j, hj, hdot, eb⟩ := token_types_cons _ _ _ _ er
    obtain ⟨eb1, er2, hle2⟩ := token_types_split _ _ _ _ eb
    obtain ⟨i, hi, hrp, _⟩ := token_types_cons _ _ _ _ er2
    obtain ⟨x1, hx1⟩ := ih1 _ _ ea
    obtain ⟨x2, hx2⟩ := ih2 _ _ eb1
    obtain ⟨t, r, eh, hh⟩ := derives_expr_head d1
    have hp : p.last_token.type = t := token_types_head_type _ p t r (by rw [← ea, eh])
    have hnr : p.last_token.type ≠ TOKEN_RPAREN := by
      rw [hp]
      rcases hh with h | h | h | h <;> rw [h] <;> decide
    have hk : k = a.length + (1 + (b.length + 1)) := by
      have := congrArg List.length e
      rw [token_types_length] at this
      simp at this
      omega
    refine ⟨list_append l (cons x1 x2), ?_⟩
    rw [parse_list_eq_other _ _ hnr, hx1]
    unfold ParseResult.bind
    simp only []
    unfold list_tail
    rw [if_pos hdot, hx2]
    unfold ParseResult.bind
    simp only []
    rw [if_pos hrp, hk, advance_add, Nat.add_comm 1, advance, advance_add]
    rfl
  | @cons a r d1 d2 ih1 ih2 =>
    intro p k e l
    obtain ⟨ea, er, hle⟩ := token_types_split k p _ _ e
    obtain ⟨x1, hx1⟩ := ih1 _ _ ea
    obtain ⟨t, r1, eh, hh⟩ := derives_expr_head d1
    have hp : p.last_token.type = t := token_types_head_type _ p t r1 (by rw [← ea, eh])
    have hnr : p.last_token.type ≠ TOKEN_RPAREN := by
      rw [hp]
      rcases hh with h | h | h | h <;> rw [h] <;> decide
    obtain ⟨t2, r2, eh2, hh2⟩ := derives_list_head d2
    have hnd : (advance a.length p).last_token.type ≠ TOKEN_DOT := by
      rw [token_types_head_type _ _ t2 r2 (by rw [← er, eh2])]
      exact hh2
    obtain ⟨x2, hx2⟩ := ih2 _ _ er (list_pushb l x1)
    have hk : k = a.length + (k - a.length) := by omega
    refine ⟨x2, ?_⟩
    rw [parse_list_eq_other _ _ hnr, hx1]
    unfold ParseResult.bind
    simp only []
    unfold list_tail
    rw [if_neg hnd, hx2]
    conv_rhs => rw [hk, advance_add]

/-- Derived token strings have no end-of-input token, hold a token other than a quote,
and their parentheses are balanced (up to the one that `list_body` closes). -/
theorem derives_counts {nt : NonTerminal} {ts : List TokenType} (h : Derives nt ts) :
    TOKEN_EOF ∉ ts ∧ (∃ t ∈ ts, t ≠ TOKEN_QUOTE) ∧
      ts.count TOKEN_LPAREN + closes nt = ts.count TOKEN_RPAREN := by
  induction h with
  | list _ ih =>
    obtain ⟨h1, _, h3⟩ := ih
    refine ⟨by simp [h1], ⟨TOKEN_LPAREN, by simp, by decide⟩, ?_⟩
    simp [closes] at h3 ⊢
    omega
  | number => exact ⟨by simp, ⟨TOKEN_NUMBER, by simp, by decide⟩, by simp [closes]⟩
  | symbol => exact ⟨by simp, ⟨TOKEN_SYMBOL, by simp, by decide⟩, by simp [closes]⟩
  | quote _ ih =>
    obtain ⟨h1, ⟨t, ht, hq⟩, h3⟩ := ih
    refine ⟨by simp [h1], ⟨t, List.mem_cons_of_mem _ ht, hq⟩, ?_⟩
    simp [closes] at h3 ⊢
    omega
  | close => exact ⟨by simp, ⟨TOKEN_RPAREN, by simp, by decide⟩, by simp [closes]⟩
  | dotted _ _ ih1 ih2 =>
    obtain ⟨h1, ⟨t, ht, hq⟩, h3⟩ := ih1
    obtain ⟨g1, _, g3⟩ := ih2
    refine ⟨by simp [h1, g1], ⟨t, List.mem_append_left _ ht, hq⟩, ?_⟩
    simp [closes] at h3 g3 ⊢
    omega
  | cons _ _ ih1 ih2 =>
    obtain ⟨h1, ⟨t, ht, hq⟩, h3⟩ := ih1
    obtain ⟨g1, _, g3⟩ := ih2
    refine ⟨by simp [h1, g1], ⟨t, List.mem_append_left _ ht, hq⟩, ?_⟩
    simp [closes] at h3 g3 ⊢
    omega

theorem advance_weight (k : Nat) (p : Parser) (h : TOKEN_EOF ∉ token_types k p) :
    weight (advance k p) + k ≤ weight p := by
  induction k generalizing p with
  | zero => simp [advance]
  | succ k ih =>
    rw [token_types, List.mem_cons, not_or] at h
    have h1 := parse_next_token_weight_lt p (fun e => h.1 e.symm)
    have h2 := ih _ h.2
    rw [advance]
    omega

/-- At most one prefix of the token sequence derives from a nonterminal. -/
theorem derives_unique (p : Parser) (k1 k2 : Nat)
    (d1 : Derives NonTerminal.expr (token_types k1 p))
    (d2 : Derives NonTerminal.expr (token_types k2 p)) : k1 = k2 := by
  obtain ⟨e1, h1⟩ := parse_complete d1 p k1 rfl
  obtain ⟨e2, h2⟩ := parse_complete d2 p k2 rfl
  rw [h1] at h2
  have he : advance k1 p = advance k2 p := by
    injection h2
  have key : ∀ a b, a < b → TOKEN_EOF ∉ token_types b p → advance a p = advance b p →
      False := by
    intro a b hab hne heq
    have hb : b = a + (b - a) := by omega
    rw [hb, token_types_add, List.mem_append, not_or] at hne
    have hw := advance_weight _ _ hne.2
    rw [← advance_add, ← hb, ← heq] at hw
    omega
  rcases Nat.lt_trichotomy k1 k2 with h | h | h
  · exact absurd he (fun e => key _ _ h (derives_counts d2).1 e)
  · exact h
  · exact absurd he.symm (fun e => key _ _ h (derives_counts d1).1 e)

theorem token_types_eof (j k : Nat) (p : Parser) (hjk : j < k)
    (h : (advance j p).last_token.type = TOKEN_EOF) : TOKEN_EOF ∈ token_types k p := by
  have hk : k = j + ((k - j - 1) + 1) := by omega
  rw [hk, token_types_add, token_types, h]
  simp

theorem token_types_quotes (q k : Nat) (p : Parser) (hkq : k ≤ q)
    (h : ∀ i, i < q → (advance i p).last_token.type = TOKEN_QUOTE) :
    ∀ t ∈ token_types k p, t = TOKEN_QUOTE := by
  induction k generalizing p q with
  | zero => simp [token_types]
  | succ k ih =>
    intro t ht
    rw [token_types, List.mem_cons] at ht
    rcases ht with h1 | h1
    · rw [h1]
      exact h 0 (by omega)
    · obtain ⟨q1, rfl⟩ : ∃ q1, q = q1 + 1 := ⟨q - 1, by omega⟩
      exact ih q1 (parse_next_token p) (by omega)
        (fun i hi => by have := h (i + 1) (by omega); rwa [advance] at this) t h1

theorem tokOf_suffix (s : List Char) : (tokOf s).stream <:+ s := by
  cases s with
  | nil => simp [tokOf]
  | cons c r =>
    simp only [tokOf]
    split_ifs
    · exact List.suffix_cons _ _
    · exact List.suffix_cons _ _
    · exact List.suffix_cons _ _
    · exact List.suffix_cons _ _
    · exact List.suffix_cons _ _
    · exact List.suffix_refl _
    · exact List.dropWhile_suffix _
    · exact List.suffix_refl _

theorem parse_next_token_suffix (p : Parser) : (parse_next_token p).stream <:+ p.stream := by
  cases p with
  | mk s t =>
    rw [parse_next_token_eq]
    exact (tokOf_suffix _).trans (skipWs_suffix s)

theorem advance_suffix (k : Nat) (p : Parser) : (advance k p).stream <:+ p.stream := by
  induction k generalizing p with
  | zero => exact List.suffix_refl _
  | succ k ih => exact (ih _).trans (parse_next_token_suffix p)

theorem skipLine_comment (c s : List Char) (hc : ∀ x ∈ c, x ≠ '\n' ∧ x ≠ '\x00') :
    skipLine (c ++ '\n' :: s) = '\n' :: s := by
  induction c with
  | nil => simp [skipLine, List.dropWhile_cons]
  | cons x c ih =>
    have hx := hc x (List.mem_cons_self _ _)
    have h2 : skipLine (x :: c ++ '\n' :: s) = skipLine (c ++ '\n' :: s) := by
      simp [skipLine, List.dropWhile_cons, hx.1, hx.2]
    rw [h2]
    exact ih (fun y hy => hc y (List.mem_cons_of_mem _ hy))

theorem skipWs_atEnd (r : List Char) (h : AtEnd r) : skipWs r = r := by
  rcases h with h | ⟨r1, h⟩
  · rw [h, skipWs_nil]
  · rw [h, skipWs_cons_other _ _ (by decide) (by decide)]

theorem skipLine_atEnd (c r : List Char) (hc : ∀ x ∈ c, x ≠ '\n' ∧ x ≠ '\x00')
    (h : AtEnd r) : skipLine (c ++ r) = r := by
  induction c with
  | nil =>
    rcases h with h | ⟨r1, h⟩
    · rw [h]; rfl
    · rw [h]; simp [skipLine, List.dropWhile_cons]
  | cons x c ih =>
    have hx := hc x (List.mem_cons_self _ _)
    have h2 : skipLine (x :: c ++ r) = skipLine (c ++ r) := by
      simp [skipLine, List.dropWhile_cons, hx.1, hx.2]
    rw [h2]
    exact ih (fun y hy => hc y (List.mem_cons_of_mem _ hy))

theorem skipWs_blank {b : List Char} (hb : Blank b) (r : List Char) (h : AtEnd r) :
    skipWs (b ++ r) = r := by
  induction hb with
  | nil => exact skipWs_atEnd r h
  | ws c s hc _ ih =>
    rw [List.cons_append, skipWs_cons_ws c _ ((is_whitespace_char_iff c).mpr hc)]
    exact ih
  | comment c s hc _ ih =>
    have e : ';' :: (c ++ '\n' :: s) ++ r = ';' :: (c ++ '\n' :: (s ++ r)) := by simp
    rw [e, skipWs_cons_semi, skipLine_comment c _ hc, skipWs_cons_ws _ _ (by decide)]
    exact ih
  | last_comment c hc =>
    rw [List.cons_append, skipWs_cons_semi, skipLine_atEnd c r hc h]
    exact skipWs_atEnd r h

theorem tokOf_atEnd (r : List Char) (h : AtEnd r) : tokOf r = ⟨r, zero_token⟩ := by
  rcases h with h | ⟨r1, h⟩
  · rw [h]; rfl
  · rw [h]; simp [tokOf]

theorem parse_expr_fuel_no_tree (p : Parser) (h : parse_expr p = ParseResult.grammar_error)
    (n : Nat) (e : Expr) (p1 : Parser) : parse_expr_fuel n p ≠ ParseResult.ok e p1 := by
  intro h1
  have := parse_expr_of_fuel h1 (by simp)
  rw [h] at this
  cases this

theorem lex_match_whitespace_stream (p : Parser) :
    (lex_match_whitespace p).stream = skipWs p.stream := by
  cases p with
  | mk s t => rw [lex_match_whitespace_eq]

theorem after_skip_eq (p : Parser) : after_skip p = ⟨skipWs p.stream, zero_token⟩ := by
  unfold after_skip
  rw [lex_match_whitespace_eq]
  rfl

theorem literal_token_cases (t : Token) (lit : List Char) :
    (literal_token t lit).type = TOKEN_NUMBER ∨
      ((literal_token t lit).type = TOKEN_SYMBOL ∧ (literal_token t lit).str = some lit) := by
  unfold literal_token
  simp only
  split_ifs
  · exact Or.inr ⟨rfl, rfl⟩
  · exact Or.inl rfl
  · exact Or.inr ⟨rfl, rfl⟩
  · exact Or.inr ⟨rfl, rfl⟩
  · exact Or.inl rfl
  · exact Or.inr ⟨rfl, rfl⟩

/-- A symbol token comes from the literal branch only: its text is the maximal run of
literal characters at the token start, whose first character is no punctuation. -/
theorem tokOf_symbol (s : List Char) (h : (tokOf s).last_token.type = TOKEN_SYMBOL) :
    ∃ c r, s = c :: r ∧ is_literal_char c = true ∧ is_punctuation_char c = false ∧
      (tokOf s).last_token.str = some (c :: r.takeWhile is_literal_char) := by
  cases s with
  | nil => simp [tokOf, zero_token] at h
  | cons c r =>
    refine ⟨c, r, rfl, ?_⟩
    simp only [tokOf] at h ⊢
    split_ifs at h ⊢ with h1 h2 h3 h4 h5 h6 h7
    all_goals try (exfalso; revert h; simp [zero_token]; done)
    refine ⟨h7, by simp [is_punctuation_char, h1, h2, h3, h4, h5], ?_⟩
    rcases literal_token_cases zero_token ((c :: r).takeWhile is_literal_char) with g | g
    · rw [g] at h; cases h
    · simp only
      rw [g.2, List.takeWhile_cons, if_pos h7]

theorem list_append_proper (es : List Expr) (x : Expr) :
    list_append (proper_list es) x = improper_list es x := by
  induction es with
  | nil => rfl
  | cons e es ih => simp [proper_list, list_append, improper_list, ih]

theorem improper_list_concat (es : List Expr) (a t : Expr) :
    improper_list (es ++ [a]) t = improper_list es (Expr.Pair a t) := by
  induction es with
  | nil => rfl
  | cons e es ih => simp [improper_list, ih]

/-- The list loop on the dotted tail `a . b)`: the pair of the two atoms is appended and
the loop ends at the token after `)`. -/
theorem parse_list_dotted_tail (a b : Atom) (acc : Expr) (tail : List Char) (t : Token)
    (ha : a.WellFormed) (hb : b.WellFormed) :
    parse_list acc
        (parse_next_token ⟨a.text ++ (' ' :: '.' :: ' ' :: (b.text ++ ')' :: tail)), t⟩)
      = ParseResult.ok (list_append acc (cons a.tree b.tree))
          (parse_next_token ⟨tail, zero_token⟩) := by
  obtain ⟨ta, pa⟩ := parse_expr_atom a (' ' :: '.' :: ' ' :: (b.text ++ ')' :: tail)) ha
  obtain ⟨_, pb⟩ := parse_expr_atom b (')' :: tail) hb
  have hnr : (literal_token zero_token a.text).type ≠ TOKEN_RPAREN := by
    rcases ta with h | h <;> rw [h] <;> decide
  rw [lex_atom a _ _ ha (stopsLiteral_space _),
    parse_list_eq_other _ _ hnr, pa, lex_whitespace _ _ _ (by decide), lex_dot]
  unfold ParseResult.bind
  simp only []
  unfold list_tail
  rw [if_pos rfl, lex_whitespace _ _ _ (by decide),
    lex_atom b _ _ hb (stopsLiteral_rparen _), pb, lex_rparen]
  unfold ParseResult.bind
  simp only [if_true]
  rw [parse_next_token_stream _ zero_token]

/-- A grammar error aborts the call that ran the failing call. -/
theorem calls_fail {a b : Call} (h : Calls a b)
    (hb : b.result = ParseResult.grammar_error) : a.result = ParseResult.grammar_error := by
  cases h with
  | lparen p ht =>
    simp only [Call.result] at hb ⊢
    rw [parse_expr_eq_lparen _ ht, hb]
  | quote p ht =>
    simp only [Call.result] at hb ⊢
    rw [parse_expr_eq_quote _ ht, hb]
    rfl
  | elem l p ht =>
    simp only [Call.result] at hb ⊢
    rw [parse_list_eq_other _ _ ht, hb]
    rfl
  | cdr l p e p1 ht he hd =>
    simp only [Call.result] at hb ⊢
    rw [parse_list_eq_other _ _ ht, he]
    unfold ParseResult.bind
    simp only []
    unfold list_tail
    rw [if_pos hd, hb]
    rfl
  | again l p e p1 ht he hd =>
    simp only [Call.result] at hb ⊢
    rw [parse_list_eq_other _ _ ht, he]
    unfold ParseResult.bind
    simp only []
    unfold list_tail
    rw [if_neg hd, hb]

/-- A grammar error aborts every call around the failing call. -/
theorem within_fail {a b : Call} (h : Within a b)
    (hb : b.result = ParseResult.grammar_error) : a.result = ParseResult.grammar_error := by
  induction h with
  | refl => exact hb
  | tail _ hc ih => exact ih (calls_fail hc hb)

theorem parse_expr_ok_not_rparen {p : Parser} {e : Expr} {p1 : Parser}
    (h : parse_expr p = ParseResult.ok e p1) : p.last_token.type ≠ TOKEN_RPAREN := by
  intro ht
  rw [parse_expr_eq_other _ (Or.inr (Or.inl ht))] at h
  cases h

theorem consumed_refl (s : List Char) : Consumed s s :=
  ⟨[], rfl, by simp⟩

theorem consumed_trans {a b c : List Char} (h1 : Consumed a b) (h2 : Consumed b c) :
    Consumed a c := by
  obtain ⟨x, hx, nx⟩ := h1
  obtain ⟨y, hy, ny⟩ := h2
  exact ⟨x ++ y, by rw [hx, hy, List.append_assoc], by simp [nx, ny]⟩

theorem consumed_cons (c : Char) (s : List Char) (h : c ≠ '\x00') : Consumed (c :: s) s :=
  ⟨[c], rfl, by simpa using h.symm⟩

theorem consumed_dropWhile (f : Char → Bool) (s : List Char) (hf : f '\x00' = false) :
    Consumed s (s.dropWhile f) := by
  refine ⟨s.takeWhile f, (List.takeWhile_append_dropWhile f s).symm, ?_⟩
  intro h
  have := List.mem_takeWhile_imp h
  rw [hf] at this
  cases this

theorem skipLine_consumed (s : List Char) : Consumed s (skipLine s) :=
  consumed_dropWhile _ s (by decide)

theorem skipWs_consumed (s : List Char) : Consumed s (skipWs s) := by
  induction s using skipWs_induct with
  | hnil => rw [skipWs_nil]; exact consumed_refl _
  | hws c s h ih =>
    rw [skipWs_cons_ws c s h]
    refine consumed_trans (consumed_cons c s ?_) ih
    intro e
    subst e
    exact absurd h (by decide)
  | hsemi s ih =>
    rw [skipWs_cons_semi]
    exact consumed_trans (consumed_cons _ s (by decide))
      (consumed_trans (skipLine_consumed s) ih)
  | hother c s h h2 =>
    rw [skipWs_cons_other c s h h2]
    exact consumed_refl _

theorem tokOf_consumed (s : List Char) : Consumed s (tokOf s).stream := by
  cases s with
  | nil => exact consumed_refl _
  | cons c r =>
    simp only [tokOf]
    split_ifs with h1 h2 h3 h4 h5 h6 h7
    · exact consumed_cons c r (by rw [h1]; decide)
    · exact consumed_cons c r (by rw [h2]; decide)
    · exact consumed_cons c r (by rw [h3]; decide)
    · exact consumed_cons c r (by rw [h4]; decide)
    · exact consumed_cons c r (by rw [h5]; decide)
    · exact consumed_refl _
    · exact consumed_dropWhile _ _ (by decide)
    · exact consumed_refl _

theorem parse_next_token_consumed (p : Parser) :
    Consumed p.stream (parse_next_token p).stream := by
  cases p with
  | mk s t =>
    rw [parse_next_token_eq]
    exact consumed_trans (skipWs_consumed s) (tokOf_consumed _)

theorem advance_consumed (k : Nat) (p : Parser) : Consumed p.stream (advance k p).stream := by
  induction k generalizing p with
  | zero => exact consumed_refl _
  | succ k ih => exact consumed_trans (parse_next_token_consumed p) (ih _)

/-- When `parse_next_token` produces the end-of-input token, the cursor is at the end of
input and the token is the zeroed token. -/
theorem parse_next_token_eof (p : Parser)
    (h : (parse_next_token p).last_token.type = TOKEN_EOF) :
    AtEnd (parse_next_token p).stream ∧ (parse_next_token p).last_token = zero_token := by
  cases p with
  | mk s t =>
    rw [parse_next_token_eq] at h ⊢
    have hh := skipWs_head s
    cases hs : skipWs s with
    | nil => exact ⟨Or.inl rfl, rfl⟩
    | cons c r =>
      rw [hs] at h
      obtain ⟨hw, _⟩ := hh c r hs
      simp only [tokOf] at h ⊢
      split_ifs at h ⊢ with h1 h2 h3 h4 h5 h6 h7
      · exact ⟨Or.inr ⟨r, by rw [h6]⟩, rfl⟩
      · exfalso
        rcases literal_token_cases zero_token ((c :: r).takeWhile is_literal_char) with g | g
        · rw [g] at h; cases h
        · rw [g.1] at h; cases h
      · exfalso
        simp [is_literal_char, h1, h2, h6, hw] at h7

theorem parse_next_token_atEnd (p : Parser) (h : AtEnd p.stream) :
    parse_next_token p = ⟨p.stream, zero_token⟩ := by
  cases p with
  | mk s t =>
    rw [parse_next_token_eq, skipWs_atEnd s h, tokOf_atEnd s h]

/-- Once the end-of-input token has been produced, `parse_next_token` changes nothing. -/
theorem parse_next_token_eof_fixed (p : Parser)
    (h : (parse_next_token p).last_token.type = TOKEN_EOF) :
    parse_next_token (parse_next_token p) = parse_next_token p := by
  obtain ⟨h1, h2⟩ := parse_next_token_eof p h
  rw [parse_next_token_atEnd _ h1, ← h2]

theorem advance_eof_fixed (p : Parser)
    (h : (parse_next_token p).last_token.type = TOKEN_EOF) (j : Nat) :
    advance j (parse_next_token p) = parse_next_token p := by
  induction j with
  | zero => rfl
  | succ j ih => rw [advance, parse_next_token_eof_fixed p h, ih]

/-- The cursor stays at or before an explicit terminator: when the text has its first
terminator after `a`, a cursor reached over non-terminator characters still has that
terminator ahead. -/
theorem consumed_before_terminator {s s1 a b : List Char} (h : Consumed s s1)
    (hs : s = a ++ '\x00' :: b) :
    ∃ a0 a1, a = a0 ++ a1 ∧ s1 = a1 ++ '\x00' :: b := by
  obtain ⟨pre, hp, hn⟩ := h
  rw [hs] at hp
  rcases List.append_eq_append_iff.mp hp with ⟨x, h1, h2⟩ | ⟨x, h1, h2⟩
  · cases x with
    | nil =>
      rw [List.append_nil] at h1
      exact ⟨a, [], by simp, by rw [List.nil_append] at h2; simpa using h2.symm⟩
    | cons y ys =>
      rw [List.cons_append, List.cons.injEq] at h2
      exfalso
      apply hn
      rw [h1, ← h2.1]
      simp
  · exact ⟨pre, x, h1, h2⟩

theorem guard_nonzero (c : Char) :
    (is_whitespace_char c = true → c ≠ '\x00') ∧
    (is_literal_char c = true → c ≠ '\x00') ∧
    (is_digit_char c = true → c ≠ '\x00') := by
  refine ⟨?_, ?_, ?_⟩ <;> (intro h e; subst e; exact absurd h (by decide))

theorem ws_loop_budget (p : Parser) (n : Nat) (h : p.stream.length < n) :
    lex_match_whitespace_loop n p = lex_match_whitespace p := by
  cases p with
  | mk s t => exact ws_loop_fuel n (s.length + 1) s t h (Nat.lt_succ_self _)

theorem lex_match_whitespace_exit (p : Parser) :
    lex_is_whitespace (lex_match_whitespace p) = false ∧
      lex_is (lex_match_whitespace p) ';' = false := by
  cases p with
  | mk s t =>
    rw [lex_match_whitespace_eq]
    have hh := skipWs_head s
    cases hs : skipWs s with
    | nil => simp [lex_is_whitespace, lex_is, lex_last, is_whitespace_char]
    | cons c r =>
      obtain ⟨h1, h2⟩ := hh c r hs
      simp [lex_is_whitespace, lex_is, lex_last, h1, h2]

theorem lex_skip_line_exit (p : Parser) (n : Nat) (h : p.stream.length ≤ n) :
    lex_skip_line n p = lex_skip_line p.stream.length p ∧
      (lex_is (lex_skip_line n p) '\x00' || lex_is (lex_skip_line n p) '\n') = true := by
  cases p with
  | mk s t =>
    rw [lex_skip_line_eq n s t h, lex_skip_line_eq s.length s t (Nat.le_refl _)]
    refine ⟨rfl, ?_⟩
    unfold skipLine
    cases hd : s.dropWhile (fun c => !(c == '\x00' || c == '\n')) with
    | nil => simp [lex_is, lex_last]
    | cons c r =>
      have := List.head_dropWhile_not (fun c => !(c == '\x00' || c == '\n')) s
        (by rw [hd]; simp)
      simp only [hd, List.head_cons, Bool.not_eq_true', Bool.not_eq_false'] at this
      simpa [lex_is, lex_last] using this

theorem lex_read_literal_exit (p : Parser) :
    lex_is_literal (lex_read_literal p).2 = false ∧
      p.stream = (lex_read_literal p).1 ++ (lex_read_literal p).2.stream ∧
      '\x00' ∉ (lex_read_literal p).1 := by
  cases p with
  | mk s t =>
    rw [lex_read_literal_eq]
    refine ⟨?_, (List.takeWhile_append_dropWhile _ s).symm, ?_⟩
    · simp only [lex_is_literal, lex_last]
      cases hd : s.dropWhile is_literal_char with
      | nil => simp [is_literal_char]
      | cons c r =>
        have := List.head_dropWhile_not is_literal_char s (by rw [hd]; simp)
        simpa [hd] using this
    · intro h
      have := List.mem_takeWhile_imp h
      exact absurd this (by decide)

theorem lex_read_literal_budget (p : Parser) (n : Nat) (str : List Char)
    (h : p.stream.length < n) :
    lex_read_literal_loop n str p
      = (str ++ (lex_read_literal p).1, (lex_read_literal p).2) := by
  cases p with
  | mk s t => rw [lex_read_literal_loop_eq n str s t h, lex_read_literal_eq]

/-- A successful `parse_expr` call has consumed one or more tokens, none of them the
end-of-input token. -/
theorem parse_expr_consumes (p : Parser) (e : Expr) (p1 : Parser)
    (h : parse_expr p = ParseResult.ok e p1) :
    (∃ k, 1 ≤ k ∧ p1 = advance k p ∧ TOKEN_EOF ∉ token_types k p) ∧
      weight p1 < weight p := by
  obtain ⟨k, d, hk⟩ := (parse_sound _).1 _ _ _ h
  obtain ⟨t, r, ht, _⟩ := derives_expr_head d
  obtain ⟨j, hj, _, _⟩ := token_types_cons k _ t r ht.symm
  exact ⟨⟨k, by omega, hk, (derives_counts d).1⟩, (parse_progress _).1 _ _ _ h⟩

/-- A literal run that holds `'`, `,` or `.` after its first character is not a number. -/
theorem not_number_of_embedded (x y : List Char) (c : Char) (hx : x ≠ [])
    (hc : c = '\'' ∨ c = ',' ∨ c = '.') : ¬ IsNumberLiteral (x ++ c :: y) := by
  have hnd : ¬ IsDecimalDigit c := by
    rcases hc with h | h | h <;> subst h <;> decide
  rintro ⟨ds, _, hd, e | e⟩
  · exact hnd (hd c (by rw [← e]; simp))
  · cases x with
    | nil => exact hx rfl
    | cons x0 xs =>
      rw [List.cons_append, List.cons.injEq] at e
      exact hnd (hd c (by rw [← e.2]; simp))

/-! ## The claims -/

/-- C1: for every sequence of integer literals `n1 .. nk` (`k ≥ 0`), `parser_init` followed
by `parse_expr` on the text `(n1 n2 ... nk)` returns the proper list
`Pair(Integer n1, Pair(Integer n2, ... Pair(Integer nk, Nil)))`, the elements in source
order and every integer being the value of its literal in `i64` (the mathematical value
when that fits); on `(`, any whitespace, `)` the result is `Nil`. After either parse the
lookahead is the end-of-input token. -/
theorem C1_list_of_integers (lits : List (Bool × List Char)) (w : List Char)
    (h : ∀ l ∈ lits, l.2 ≠ [] ∧ ∀ c ∈ l.2, IsDecimalDigit c)
    (hw : ∀ c ∈ w, c ∈ [' ', '\t', '\r', '\n']) :
    parse ('(' :: (List.intercalate [' '] (lits.map (fun l => number_text l.1 l.2)) ++ [')']))
      = ParseResult.ok
          (proper_list (lits.map (fun l => Expr.Integer (wrap_i64 (number_value l.1 l.2)))))
          ⟨[], ⟨TOKEN_EOF, none, 0⟩⟩ ∧
    (∀ l ∈ lits, -2 ^ 63 ≤ number_value l.1 l.2 → number_value l.1 l.2 < 2 ^ 63 →
      wrap_i64 (number_value l.1 l.2) = number_value l.1 l.2) ∧
    parse ('(' :: (w ++ [')'])) = ParseResult.ok Expr.Nil ⟨[], ⟨TOKEN_EOF, none, 0⟩⟩ := by
  refine ⟨?_, fun l _ h1 h2 => wrap_i64_of_range _ h1 h2, ?_⟩
  · have has : ∀ x ∈ lits.map (fun l => Atom.int l.1 l.2), x.WellFormed := by
      intro x hx
      obtain ⟨l, hl, rfl⟩ := List.mem_map.mp hx
      exact h l hl
    have e1 : List.intercalate [' '] (lits.map (fun l => number_text l.1 l.2))
        = spaced (lits.map (fun l => Atom.int l.1 l.2)) := by
      simp [spaced, List.map_map, Function.comp_def, Atom.text]
    have e2 : (lits.map (fun l => Atom.int l.1 l.2)).map Atom.tree
        = lits.map (fun l => Expr.Integer (wrap_i64 (number_value l.1 l.2))) := by
      simp [List.map_map, Function.comp_def, Atom.tree]
    rw [parse_lparen, e1, parse_list_spaced_close _ nil [] zero_token has, e2, lex_end]
    have := foldl_pushb_proper []
      (lits.map (fun l => Expr.Integer (wrap_i64 (number_value l.1 l.2))))
    simp only [proper_list, List.nil_append] at this
    rw [nil, this]
    rfl
  · rw [parse_lparen, lex_whitespaces w _ _ (fun c hc => (is_whitespace_char_iff c).mpr (hw c hc)),
      lex_rparen, parse_list_eq_rparen _ _ rfl, lex_end]
    rfl

theorem C1_list_of_integers_witness :
    parse ('(' :: (List.intercalate [' ']
        ([(false, ['1']), (false, ['2']), (true, ['3'])].map
          (fun l => number_text l.1 l.2)) ++ [')']))
      = ParseResult.ok
          (proper_list ([(false, ['1']), (false, ['2']), (true, ['3'])].map
            (fun l => Expr.Integer (wrap_i64 (number_value l.1 l.2)))))
          ⟨[], ⟨TOKEN_EOF, none, 0⟩⟩ ∧
    (∀ l ∈ [(false, ['1']), (false, ['2']), (true, ['3'])],
      -2 ^ 63 ≤ number_value l.1 l.2 → number_value l.1 l.2 < 2 ^ 63 →
      wrap_i64 (number_value l.1 l.2) = number_value l.1 l.2) ∧
    parse ('(' :: ([' ', '\t'] ++ [')'])) = ParseResult.ok Expr.Nil ⟨[], ⟨TOKEN_EOF, none, 0⟩⟩ :=
  C1_list_of_integers [(false, ['1']), (false, ['2']), (true, ['3'])] [' ', '\t']
    (by decide) (by decide)

/-- C2: for every two well-formed atoms `a` and `b` (integer literals or symbols),
`parser_init` followed by `parse_expr` on the text `(a . b)` returns the single pair whose
car is the tree of `a` and whose cdr is the tree of `b`, which is not the two-element list
`(a b)`; `(1 . 2)` gives `Pair(Integer 1, Integer 2)`. -/
theorem C2_dotted_pair (a b : Atom) (ha : a.WellFormed) (hb : b.WellFormed) :
    parse ('(' :: (a.text ++ [' ', '.', ' '] ++ b.text ++ [')']))
      = ParseResult.ok (Expr.Pair a.tree b.tree) ⟨[], ⟨TOKEN_EOF, none, 0⟩⟩ ∧
    Expr.Pair a.tree b.tree ≠ proper_list [a.tree, b.tree] ∧
    parse ['(', '1', ' ', '.', ' ', '2', ')']
      = ParseResult.ok (Expr.Pair (Expr.Integer 1) (Expr.Integer 2))
          ⟨[], ⟨TOKEN_EOF, none, 0⟩⟩ := by
  refine ⟨?_, ?_, by decide⟩
  · have e1 : a.text ++ [' ', '.', ' '] ++ b.text ++ [')']
        = a.text ++ (' ' :: '.' :: ' ' :: (b.text ++ [')'])) := by simp
    obtain ⟨ta, pa⟩ := parse_expr_atom a (' ' :: '.' :: ' ' :: (b.text ++ [')'])) ha
    obtain ⟨_, pb⟩ := parse_expr_atom b [')'] hb
    have hnr : (literal_token zero_token a.text).type ≠ TOKEN_RPAREN := by
      rcases ta with h | h <;> rw [h] <;> decide
    rw [parse_lparen, e1, lex_atom a _ _ ha (stopsLiteral_space _),
      parse_list_eq_other _ _ hnr, pa, lex_whitespace _ _ _ (by decide), lex_dot]
    unfold ParseResult.bind
    simp only []
    unfold list_tail
    rw [if_pos rfl, lex_whitespace _ _ _ (by decide),
      lex_atom b _ _ hb (stopsLiteral_rparen _), pb, lex_rparen]
    unfold ParseResult.bind
    simp only [if_true]
    rw [lex_end]
    rfl
  · intro h
    simp only [proper_list, Expr.Pair.injEq, true_and] at h
    exact atom_tree_ne_pair b _ _ h

theorem C2_dotted_pair_witness :
    (Atom.int false ['1']).WellFormed ∧ (Atom.sym ['x']).WellFormed ∧
    (parse ('(' :: ((Atom.int false ['1']).text ++ [' ', '.', ' '] ++ (Atom.sym ['x']).text ++ [')']))
      = ParseResult.ok (Expr.Pair (Atom.int false ['1']).tree (Atom.sym ['x']).tree) ⟨[], ⟨TOKEN_EOF, none, 0⟩⟩ ∧
    Expr.Pair (Atom.int false ['1']).tree (Atom.sym ['x']).tree ≠ proper_list [(Atom.int false ['1']).tree, (Atom.sym ['x']).tree] ∧
    parse ['(', '1', ' ', '.', ' ', '2', ')']
      = ParseResult.ok (Expr.Pair (Expr.Integer 1) (Expr.Integer 2))
          ⟨[], ⟨TOKEN_EOF, none, 0⟩⟩) :=
  have h1 : (Atom.int false ['1']).WellFormed := ⟨by simp, by decide⟩
  have h2 : (Atom.sym ['x']).WellFormed :=
    ⟨by simp, by decide, by decide, by
      rintro ⟨ds, _, hd, e | e⟩
      · subst e; exact absurd (hd 'x' (by simp)) (by decide)
      · cases e⟩
  ⟨h1, h2, C2_dotted_pair _ _ h1 h2⟩

/-- C3: whenever the text `s` parses to the tree `e`, the text `'s` parses to
`Pair(Symbol "quote", Pair(e, Nil))` and leaves the same parser state; in particular, for
every symbol `x`, the texts `'x` and `(quote x)` parse to the same tree. -/
theorem C3_quote_sugar (s x : List Char) (e : Expr) (p1 : Parser)
    (h : parse s = ParseResult.ok e p1) (hx : (Atom.sym x).WellFormed) :
    parse ('\'' :: s)
      = ParseResult.ok
          (Expr.Pair (Expr.Symbol ['q', 'u', 'o', 't', 'e']) (Expr.Pair e Expr.Nil)) p1 ∧
    parse ('\'' :: x)
      = ParseResult.ok
          (Expr.Pair (Expr.Symbol ['q', 'u', 'o', 't', 'e'])
            (Expr.Pair (Expr.Symbol x) Expr.Nil)) ⟨[], ⟨TOKEN_EOF, none, 0⟩⟩ ∧
    parse (['(', 'q', 'u', 'o', 't', 'e', ' '] ++ x ++ [')'])
      = ParseResult.ok
          (Expr.Pair (Expr.Symbol ['q', 'u', 'o', 't', 'e'])
            (Expr.Pair (Expr.Symbol x) Expr.Nil)) ⟨[], ⟨TOKEN_EOF, none, 0⟩⟩ := by
  have hq : ∀ (s : List Char) (e : Expr) (p1 : Parser), parse s = ParseResult.ok e p1 →
      parse ('\'' :: s) = ParseResult.ok (quote_form e) p1 := by
    intro s e p1 h
    unfold parse parser_init at h ⊢
    rw [lex_quote, parse_expr_eq_quote _ rfl, parse_next_token_stream _ ⟨TOKEN_EOF, none, 0⟩]
    simp only at h ⊢
    rw [h]
    rfl
  have hsym : parse x = ParseResult.ok (Expr.Symbol x) ⟨[], ⟨TOKEN_EOF, none, 0⟩⟩ := by
    have := lex_atom (Atom.sym x) [] ⟨TOKEN_EOF, none, 0⟩ hx stopsLiteral_nil
    simp only [Atom.text, List.append_nil] at this
    unfold parse parser_init
    simp only
    rw [this]
    have h2 := (parse_expr_atom (Atom.sym x) [] hx).2
    simp only [Atom.text, Atom.tree] at h2
    rw [h2, lex_end]
    rfl
  refine ⟨hq s e p1 h, hq x _ _ hsym, ?_⟩
  have e1 : ['(', 'q', 'u', 'o', 't', 'e', ' '] ++ x ++ [')']
      = '(' :: (spaced [Atom.sym ['q', 'u', 'o', 't', 'e'], Atom.sym x] ++ ')' :: []) := by
    rw [spaced_cons_cons, spaced_single]
    simp [Atom.text]
  have has : ∀ a ∈ [Atom.sym ['q', 'u', 'o', 't', 'e'], Atom.sym x], a.WellFormed := by
    intro a ha
    simp only [List.mem_cons, List.mem_singleton, List.not_mem_nil, or_false] at ha
    rcases ha with h | h
    · rw [h]; exact quote_wellFormed
    · rw [h]; exact hx
  rw [e1, parse_lparen, parse_list_spaced_close _ nil [] zero_token has, lex_end]
  rfl

theorem C3_quote_sugar_witness :
    parse ['1'] = ParseResult.ok (Expr.Integer 1) ⟨[], ⟨TOKEN_EOF, none, 0⟩⟩ ∧
    (Atom.sym ['x']).WellFormed ∧
    (parse ('\'' :: ['1'])
      = ParseResult.ok
          (Expr.Pair (Expr.Symbol ['q', 'u', 'o', 't', 'e'])
            (Expr.Pair (Expr.Integer 1) Expr.Nil)) ⟨[], ⟨TOKEN_EOF, none, 0⟩⟩ ∧
    parse ('\'' :: ['x'])
      = ParseResult.ok
          (Expr.Pair (Expr.Symbol ['q', 'u', 'o', 't', 'e'])
            (Expr.Pair (Expr.Symbol ['x']) Expr.Nil)) ⟨[], ⟨TOKEN_EOF, none, 0⟩⟩ ∧
    parse (['(', 'q', 'u', 'o', 't', 'e', ' '] ++ ['x'] ++ [')'])
      = ParseResult.ok
          (Expr.Pair (Expr.Symbol ['q', 'u', 'o', 't', 'e'])
            (Expr.Pair (Expr.Symbol ['x']) Expr.Nil)) ⟨[], ⟨TOKEN_EOF, none, 0⟩⟩) :=
  have h1 : parse ['1'] = ParseResult.ok (Expr.Integer 1) ⟨[], ⟨TOKEN_EOF, none, 0⟩⟩ := by
    decide
  have h2 : (Atom.sym ['x']).WellFormed :=
    ⟨by simp, by decide, by decide, by
      rintro ⟨ds, _, hd, e | e⟩
      · subst e; exact absurd (hd 'x' (by simp)) (by decide)
      · cases e⟩
  ⟨h1, h2, C3_quote_sugar ['1'] ['x'] _ _ h1 h2⟩

/-- C4: the token written by `lex_literal` is `TOKEN_NUMBER` if and only if the run of
literal characters it read is an optional leading `-` followed by one or more decimal
digits and nothing else; otherwise it is `TOKEN_SYMBOL` with the whole run as its text.
The run read is the maximal run of literal characters at the cursor. `-5` is a number;
`-`, `abc` and `12abc` are the symbols `-`, `abc` and `12abc`. -/
theorem C4_literal_classification (p : Parser) :
    ((lex_literal p).last_token.type = TOKEN_NUMBER ↔
      IsNumberLiteral (lex_read_literal p).1) ∧
    (IsNumberLiteral (lex_read_literal p).1 ∨
      ((lex_literal p).last_token.type = TOKEN_SYMBOL ∧
        (lex_literal p).last_token.str = some (lex_read_literal p).1)) ∧
    (lex_read_literal p).1 = p.stream.takeWhile is_literal_char ∧
    (lex_literal ⟨['-', '5'], ⟨TOKEN_EOF, none, 0⟩⟩).last_token = ⟨TOKEN_NUMBER, none, -5⟩ ∧
    (lex_literal ⟨['-'], ⟨TOKEN_EOF, none, 0⟩⟩).last_token
      = ⟨TOKEN_SYMBOL, some ['-'], 0⟩ ∧
    (lex_literal ⟨['a', 'b', 'c'], ⟨TOKEN_EOF, none, 0⟩⟩).last_token
      = ⟨TOKEN_SYMBOL, some ['a', 'b', 'c'], 0⟩ ∧
    (lex_literal ⟨['1', '2', 'a', 'b', 'c'], ⟨TOKEN_EOF, none, 0⟩⟩).last_token.type
      = TOKEN_SYMBOL ∧
    (lex_literal ⟨['1', '2', 'a', 'b', 'c'], ⟨TOKEN_EOF, none, 0⟩⟩).last_token.str
      = some ['1', '2', 'a', 'b', 'c'] := by
  cases p with
  | mk s t =>
    rw [lex_literal_eq, lex_read_literal_eq]
    simp only
    refine ⟨?_, ?_, trivial, by decide, by decide, by decide, by decide, by decide⟩
    · constructor
      · intro h
        by_contra hn
        rw [(literal_token_symbol t _ hn).1] at h
        cases h
      · rintro ⟨ds, h1, h2, h3⟩
        have hd := atom_digits ds h2
        have e : s.takeWhile is_literal_char = number_text (decide (s.takeWhile is_literal_char = '-' :: ds)) ds := by
          rcases h3 with h | h
          · have : ¬ (ds = '-' :: ds) := by
              intro e
              have := congrArg List.length e
              simp at this
            rw [h]
            simp [number_text, this]
          · rw [h]; simp [number_text]
        rw [e, literal_token_number t _ ds h1 hd]
    · by_cases hn : IsNumberLiteral (s.takeWhile is_literal_char)
      · exact Or.inl hn
      · exact Or.inr (literal_token_symbol t _ hn)

/-- C5: for a literal made of an optional `-` and the digits `d1 .. dn` (`n ≥ 1`), read as
a maximal run, the value of the number token is the base-10 value of the digits, negated
after a `-`, taken in `i64`: it is congruent to the mathematical value modulo `2 ^ 64`,
lies in the `i64` range, and equals the mathematical value whenever that fits. Leading
zeros do not change the value, and `-0` is `0`. -/
theorem C5_number_value (t : Token) (neg : Bool) (ds rest : List Char) (k : Nat)
    (hne : ds ≠ []) (hd : ∀ c ∈ ds, IsDecimalDigit c)
    (hrest : ∀ c, rest.head? = some c → is_literal_char c = false) :
    (lex_literal ⟨number_text neg ds ++ rest, t⟩).last_token.type = TOKEN_NUMBER ∧
    (lex_literal ⟨number_text neg ds ++ rest, t⟩).last_token.num
      = wrap_i64 (number_value neg ds) ∧
    (lex_literal ⟨number_text neg ds ++ rest, t⟩).last_token.num
      ≡ number_value neg ds [ZMOD 2 ^ 64] ∧
    (-2 ^ 63 ≤ (lex_literal ⟨number_text neg ds ++ rest, t⟩).last_token.num ∧
      (lex_literal ⟨number_text neg ds ++ rest, t⟩).last_token.num < 2 ^ 63) ∧
    (-2 ^ 63 ≤ number_value neg ds → number_value neg ds < 2 ^ 63 →
      (lex_literal ⟨number_text neg ds ++ rest, t⟩).last_token.num = number_value neg ds) ∧
    (lex_literal ⟨number_text neg (List.replicate k '0' ++ ds) ++ rest, t⟩).last_token.num
      = (lex_literal ⟨number_text neg ds ++ rest, t⟩).last_token.num ∧
    (lex_literal ⟨['-', '0'] ++ rest, t⟩).last_token.num = 0 := by
  have hz : ∀ c ∈ List.replicate k '0' ++ ds, IsDecimalDigit c := by
    intro c hc
    rcases List.mem_append.mp hc with h | h
    · rw [(List.mem_replicate.mp h).2]; decide
    · exact hd c h
  have hzne : List.replicate k '0' ++ ds ≠ [] := by simp [hne]
  have h0 : (['-', '0'] : List Char) = number_text true ['0'] := rfl
  rw [lex_literal_number t neg ds rest hne hd hrest,
    lex_literal_number t neg _ rest hzne hz hrest, h0,
    lex_literal_number t true ['0'] rest (by simp) (by decide) hrest]
  simp only
  refine ⟨trivial, trivial, wrap_i64_modEq _, wrap_i64_range _,
    fun h1 h2 => wrap_i64_of_range _ h1 h2, ?_, by decide⟩
  simp only [number_value, decimal_value_zeros]

theorem C5_number_value_witness :
    (['1', '7'] : List Char) ≠ [] ∧ (∀ c ∈ ['1', '7'], IsDecimalDigit c) ∧
    (∀ c, [')'].head? = some c → is_literal_char c = false) ∧
    ((lex_literal ⟨number_text true ['1', '7'] ++ [')'], ⟨TOKEN_EOF, none, 0⟩⟩).last_token.type = TOKEN_NUMBER ∧
    (lex_literal ⟨number_text true ['1', '7'] ++ [')'], ⟨TOKEN_EOF, none, 0⟩⟩).last_token.num
      = wrap_i64 (number_value true ['1', '7']) ∧
    (lex_literal ⟨number_text true ['1', '7'] ++ [')'], ⟨TOKEN_EOF, none, 0⟩⟩).last_token.num
      ≡ number_value true ['1', '7'] [ZMOD 2 ^ 64] ∧
    (-2 ^ 63 ≤ (lex_literal ⟨number_text true ['1', '7'] ++ [')'], ⟨TOKEN_EOF, none, 0⟩⟩).last_token.num ∧
      (lex_literal ⟨number_text true ['1', '7'] ++ [')'], ⟨TOKEN_EOF, none, 0⟩⟩).last_token.num < 2 ^ 63) ∧
    (-2 ^ 63 ≤ number_value true ['1', '7'] → number_value true ['1', '7'] < 2 ^ 63 →
      (lex_literal ⟨number_text true ['1', '7'] ++ [')'], ⟨TOKEN_EOF, none, 0⟩⟩).last_token.num = number_value true ['1', '7']) ∧
    (lex_literal ⟨number_text true (List.replicate 2 '0' ++ ['1', '7']) ++ [')'], ⟨TOKEN_EOF, none, 0⟩⟩).last_token.num
      = (lex_literal ⟨number_text true ['1', '7'] ++ [')'], ⟨TOKEN_EOF, none, 0⟩⟩).last_token.num ∧
    (lex_literal ⟨['-', '0'] ++ [')'], ⟨TOKEN_EOF, none, 0⟩⟩).last_token.num = 0) :=
  ⟨by simp, by decide, by simp [is_literal_char],
    C5_number_value ⟨TOKEN_EOF, none, 0⟩ true ['1', '7'] [')'] 2 (by simp) (by decide)
      (by simp [is_literal_char])⟩

/-- C6: for every text in which a list opened by `(` is still unclosed at the end of
input, that is, whose token sequence, after `q` leading quote tokens, has more `(` than
`)` in every longer prefix that holds no end-of-input token (`(1 2` is such a text),
`parse_expr` fails with a grammar error and returns no tree, whatever its budget. The list
loop entered at the end-of-input token fails whatever list it has accumulated, so the
partial list is never returned. -/
theorem C6_unclosed_list (text : List Char) (q : Nat)
    (hq : ∀ i, i < q →
      (advance i (parser_init ⟨[], ⟨TOKEN_EOF, none, 0⟩⟩ text)).last_token.type = TOKEN_QUOTE)
    (hopen : ∀ k, q < k →
      TOKEN_EOF ∉ token_types k (parser_init ⟨[], ⟨TOKEN_EOF, none, 0⟩⟩ text) →
      (token_types k (parser_init ⟨[], ⟨TOKEN_EOF, none, 0⟩⟩ text)).count TOKEN_RPAREN
        < (token_types k (parser_init ⟨[], ⟨TOKEN_EOF, none, 0⟩⟩ text)).count TOKEN_LPAREN) :
    parse text = ParseResult.grammar_error ∧
    (∀ n e p1, parse_expr_fuel n (parser_init ⟨[], ⟨TOKEN_EOF, none, 0⟩⟩ text)
      ≠ ParseResult.ok e p1) ∧
    (∀ l p, p.last_token.type = TOKEN_EOF →
      parse_list l p = ParseResult.grammar_error ∧
        ∀ n e p1, parse_list_fuel n l p ≠ ParseResult.ok e p1) := by
  have hno : ∀ e p1, parse text ≠ ParseResult.ok e p1 := by
    intro e p1 h
    obtain ⟨k, d, _⟩ := (parse_sound _).1 _ _ _ h
    obtain ⟨c1, ⟨t, ht, hne⟩, c3⟩ := derives_counts d
    simp only [closes, Nat.add_zero] at c3
    rcases Nat.lt_or_ge q k with hk | hk
    · have := hopen k hk c1
      omega
    · exact hne (token_types_quotes q k _ hk hq t ht)
  refine ⟨?_, ?_, ?_⟩
  · cases h : parse text with
    | ok e p1 => exact absurd h (hno e p1)
    | grammar_error => rfl
    | out_of_fuel => exact absurd h (parse_expr_ne_out_of_fuel _)
  · intro n e p1 h
    exact hno e p1 (parse_expr_of_fuel h (by simp))
  · intro l p hp
    have hl : parse_list l p = ParseResult.grammar_error := by
      rw [parse_list_eq_other _ _ (by rw [hp]; decide), parse_expr_eq_other _ (Or.inl hp)]
      rfl
    refine ⟨hl, ?_⟩
    intro n e p1 h
    have := parse_list_of_fuel h (by simp)
    rw [hl] at this
    cases this

theorem C6_unclosed_list_witness :
    parse ['(', '1', ' ', '2'] = ParseResult.grammar_error ∧
    (∀ n e p1, parse_expr_fuel n (parser_init ⟨[], ⟨TOKEN_EOF, none, 0⟩⟩ ['(', '1', ' ', '2'])
      ≠ ParseResult.ok e p1) ∧
    (∀ l p, p.last_token.type = TOKEN_EOF →
      parse_list l p = ParseResult.grammar_error ∧
        ∀ n e p1, parse_list_fuel n l p ≠ ParseResult.ok e p1) :=
  C6_unclosed_list ['(', '1', ' ', '2'] 0
    (fun i hi => absurd hi (Nat.not_lt_zero i))
    (fun k hk hne => by
      have h3 : k ≤ 3 := by
        by_contra hgt
        exact hne (token_types_eof 3 k _ (by omega) (by decide))
      interval_cases k <;> decide)

/-- C7: entered with a lookahead that is `)`, `,`, `.` or end-of-input, `parse_expr`
fails with a grammar error and returns no tree, whatever its budget; conversely, whenever
it returns a tree it was entered on `(`, a number, a symbol or a quote token. -/
theorem C7_unexpected_token (p : Parser) :
    ((p.last_token.type = TOKEN_RPAREN ∨ p.last_token.type = TOKEN_COMMA ∨
        p.last_token.type = TOKEN_DOT ∨ p.last_token.type = TOKEN_EOF) →
      parse_expr p = ParseResult.grammar_error ∧
        ∀ n e p1, parse_expr_fuel n p ≠ ParseResult.ok e p1) ∧
    (∀ n e p1, parse_expr_fuel n p = ParseResult.ok e p1 →
      p.last_token.type = TOKEN_LPAREN ∨ p.last_token.type = TOKEN_NUMBER ∨
        p.last_token.type = TOKEN_SYMBOL ∨ p.last_token.type = TOKEN_QUOTE) ∧
    (∀ e p1, parse_expr p = ParseResult.ok e p1 →
      p.last_token.type = TOKEN_LPAREN ∨ p.last_token.type = TOKEN_NUMBER ∨
        p.last_token.type = TOKEN_SYMBOL ∨ p.last_token.type = TOKEN_QUOTE) := by
  have hbad : (p.last_token.type = TOKEN_RPAREN ∨ p.last_token.type = TOKEN_COMMA ∨
        p.last_token.type = TOKEN_DOT ∨ p.last_token.type = TOKEN_EOF) →
      parse_expr p = ParseResult.grammar_error := by
    intro h
    apply parse_expr_eq_other
    rcases h with h | h | h | h
    · exact Or.inr (Or.inl h)
    · exact Or.inr (Or.inr (Or.inl h))
    · exact Or.inr (Or.inr (Or.inr h))
    · exact Or.inl h
  have hgood : ∀ e p1, parse_expr p = ParseResult.ok e p1 →
      p.last_token.type = TOKEN_LPAREN ∨ p.last_token.type = TOKEN_NUMBER ∨
        p.last_token.type = TOKEN_SYMBOL ∨ p.last_token.type = TOKEN_QUOTE := by
    intro e p1 h
    cases ht : p.last_token.type with
    | TOKEN_EOF => rw [hbad (Or.inr (Or.inr (Or.inr ht)))] at h; cases h
    | TOKEN_LPAREN => simp
    | TOKEN_RPAREN => rw [hbad (Or.inl ht)] at h; cases h
    | TOKEN_SYMBOL => simp
    | TOKEN_NUMBER => simp
    | TOKEN_QUOTE => simp
    | TOKEN_COMMA => rw [hbad (Or.inr (Or.inl ht))] at h; cases h
    | TOKEN_DOT => rw [hbad (Or.inr (Or.inr (Or.inl ht)))] at h; cases h
  refine ⟨fun h => ⟨hbad h, ?_⟩, fun n e p1 h => hgood e p1 (parse_expr_of_fuel h (by simp)),
    hgood⟩
  intro n e p1 h1
  have := parse_expr_of_fuel h1 (by simp)
  rw [hbad h] at this
  cases this

theorem C7_unexpected_token_witness :
    parse_expr ⟨['1'], ⟨TOKEN_RPAREN, none, 0⟩⟩ = ParseResult.grammar_error ∧
      ∀ n e p1, parse_expr_fuel n ⟨['1'], ⟨TOKEN_RPAREN, none, 0⟩⟩ ≠ ParseResult.ok e p1 :=
  (C7_unexpected_token ⟨['1'], ⟨TOKEN_RPAREN, none, 0⟩⟩).1 (Or.inl rfl)

/-- C8: the texts accepted by `parse_expr` are exactly those of the grammar of the spec:
after `parser_init`, `parse_expr` returns a tree if and only if some prefix of the token
sequence derives from `expr`; the tokens consumed are then exactly that prefix, and at
most one prefix derives from `expr`. -/
theorem C8_accepts_exactly_grammar (q : Parser) (text : List Char) :
    ((∃ e p1, parse_expr (parser_init q text) = ParseResult.ok e p1) ↔
      ∃ k, Derives NonTerminal.expr (token_types k (parser_init q text))) ∧
    (∀ e p1, parse_expr (parser_init q text) = ParseResult.ok e p1 →
      ∃ k, Derives NonTerminal.expr (token_types k (parser_init q text)) ∧
        p1 = advance k (parser_init q text)) ∧
    (∀ k, Derives NonTerminal.expr (token_types k (parser_init q text)) →
      ∃ e, parse_expr (parser_init q text)
        = ParseResult.ok e (advance k (parser_init q text))) ∧
    (∀ k1 k2, Derives NonTerminal.expr (token_types k1 (parser_init q text)) →
      Derives NonTerminal.expr (token_types k2 (parser_init q text)) → k1 = k2) := by
  have hs : ∀ e p1, parse_expr (parser_init q text) = ParseResult.ok e p1 →
      ∃ k, Derives NonTerminal.expr (token_types k (parser_init q text)) ∧
        p1 = advance k (parser_init q text) :=
    fun e p1 h => (parse_sound _).1 _ _ _ h
  have hc : ∀ k, Derives NonTerminal.expr (token_types k (parser_init q text)) →
      ∃ e, parse_expr (parser_init q text)
        = ParseResult.ok e (advance k (parser_init q text)) :=
    fun k d => parse_complete d _ k rfl
  refine ⟨⟨?_, ?_⟩, hs, hc, ?_⟩
  · rintro ⟨e, p1, h⟩
    obtain ⟨k, d, _⟩ := hs e p1 h
    exact ⟨k, d⟩
  · rintro ⟨k, d⟩
    obtain ⟨e, h⟩ := hc k d
    exact ⟨e, _, h⟩
  · intro k1 k2 d1 d2
    exact derives_unique _ k1 k2 d1 d2

theorem C8_accepts_exactly_grammar_witness :
    ∃ k, Derives NonTerminal.expr
        (token_types k (parser_init ⟨[], ⟨TOKEN_EOF, none, 0⟩⟩ ['(', '1', ' ', '2', ')'])) ∧
      (⟨[], ⟨TOKEN_EOF, none, 0⟩⟩ : Parser)
        = advance k (parser_init ⟨[], ⟨TOKEN_EOF, none, 0⟩⟩ ['(', '1', ' ', '2', ')']) :=
  (C8_accepts_exactly_grammar ⟨[], ⟨TOKEN_EOF, none, 0⟩⟩ ['(', '1', ' ', '2', ')']).2.1
    (Expr.Pair (Expr.Integer 1) (Expr.Pair (Expr.Integer 2) Expr.Nil))
    ⟨[], ⟨TOKEN_EOF, none, 0⟩⟩ (by decide)

/-- C9: after a successful `parse_expr` call, started at a cursor inside `text`, the parser
state (cursor and lookahead) is exactly the state that `parser_init` produces on some
suffix of `text`, so a further `parse_expr` call behaves as `parser_init` followed by
`parse_expr` on that suffix; the cursor is still inside `text`. The same holds for the
state right after `parser_init`, which depends on the text alone: nothing of the parser
before it, in particular no earlier lookahead token, is carried over. -/
theorem C9_state_reinit (p : Parser) (text : List Char) (e : Expr) (p1 : Parser)
    (hp : ∃ pre, text = pre ++ p.stream)
    (h : parse_expr p = ParseResult.ok e p1) :
    (∃ pre s, text = pre ++ s ∧ (∀ q1, parser_init q1 s = p1) ∧
      (∀ q1, parse_expr p1 = parse_expr (parser_init q1 s))) ∧
    (∃ pre, text = pre ++ p1.stream) ∧
    (∀ q txt, (∃ pre, txt = pre ++ (parser_init q txt).stream) ∧
      (∀ q1, parser_init q1 txt = parser_init q txt) ∧
      (∀ t, parse_next_token ⟨txt, t⟩ = parser_init q txt)) := by
  have hinit : ∀ q txt, (∃ pre, txt = pre ++ (parser_init q txt).stream) ∧
      (∀ q1, parser_init q1 txt = parser_init q txt) ∧
      (∀ t, parse_next_token ⟨txt, t⟩ = parser_init q txt) := by
    intro q txt
    refine ⟨?_, fun q1 => by rw [parser_init_eq, parser_init_eq],
      fun t => by rw [parse_next_token_eq, parser_init_eq]⟩
    obtain ⟨pre, hpre⟩ : (parser_init q txt).stream <:+ txt := by
      unfold parser_init
      exact parse_next_token_suffix _
    exact ⟨pre, hpre.symm⟩
  obtain ⟨k, d, hk⟩ := (parse_sound _).1 _ _ _ h
  obtain ⟨t, r, ht, _⟩ := derives_expr_head d
  obtain ⟨j, rfl, _, _⟩ := token_types_cons k _ t r ht.symm
  obtain ⟨pre0, hpre0⟩ := hp
  have hsuf : ∀ i, (advance i p).stream <:+ text := by
    intro i
    refine (advance_suffix i _).trans ?_
    exact ⟨pre0, hpre0.symm⟩
  obtain ⟨pre, hpre⟩ := hsuf j
  obtain ⟨pre1, hpre1⟩ := hsuf (j + 1)
  have hre : ∀ q1, parser_init q1 (advance j p).stream = p1 := by
    intro q1
    rw [hk, advance_succ]
    unfold parser_init
    exact (parse_next_token_stream _ _).symm
  exact ⟨⟨pre, _, hpre.symm, hre, fun q1 => by rw [hre q1]⟩,
    ⟨pre1, by rw [hk]; exact hpre1.symm⟩, hinit⟩

theorem C9_state_reinit_witness :
    (∃ pre s, ['1', ' ', '2', ' ', '3'] = pre ++ s ∧
      (∀ q1, parser_init q1 s = ⟨[' ', '3'], ⟨TOKEN_NUMBER, none, 2⟩⟩) ∧
      (∀ q1, parse_expr ⟨[' ', '3'], ⟨TOKEN_NUMBER, none, 2⟩⟩
        = parse_expr (parser_init q1 s))) ∧
    (∃ pre, ['1', ' ', '2', ' ', '3']
      = pre ++ (⟨[' ', '3'], ⟨TOKEN_NUMBER, none, 2⟩⟩ : Parser).stream) ∧
    (∀ q txt, (∃ pre, txt = pre ++ (parser_init q txt).stream) ∧
      (∀ q1, parser_init q1 txt = parser_init q txt) ∧
      (∀ t, parse_next_token ⟨txt, t⟩ = parser_init q txt)) :=
  C9_state_reinit (parser_init ⟨[], ⟨TOKEN_EOF, none, 0⟩⟩ ['1', ' ', '2', ' ', '3'])
    ['1', ' ', '2', ' ', '3'] (Expr.Integer 1)
    ⟨[' ', '3'], ⟨TOKEN_NUMBER, none, 2⟩⟩ ⟨['1'], by decide⟩ (by decide)

/-- C10: comments and whitespace contribute no token: for every string `c` without
newline and NUL, every string `w` of whitespace characters and every text `s`,
`parser_init` on `;c\n` followed by `s`, and on `w` followed by `s`, yields the same
lookahead token and the same remaining input as on `s`, hence the same parse result; the
text `; comment\n42` parses to `Integer 42`. -/
theorem C10_comments_whitespace (q : Parser) (c w s : List Char)
    (hc : ∀ x ∈ c, x ≠ '\n' ∧ x ≠ '\x00')
    (hw : ∀ x ∈ w, x ∈ [' ', '\t', '\r', '\n']) :
    parser_init q (';' :: (c ++ '\n' :: s)) = parser_init q s ∧
    parser_init q (w ++ s) = parser_init q s ∧
    parse (';' :: (c ++ '\n' :: s)) = parse s ∧
    parse (w ++ s) = parse s ∧
    parse [';', ' ', 'c', 'o', 'm', 'm', 'e', 'n', 't', '\n', '4', '2']
      = ParseResult.ok (Expr.Integer 42) ⟨[], ⟨TOKEN_EOF, none, 0⟩⟩ := by
  have h1 : ∀ q, parser_init q (';' :: (c ++ '\n' :: s)) = parser_init q s := by
    intro q
    rw [parser_init_eq, parser_init_eq, skipWs_cons_semi, skipLine_comment c s hc,
      skipWs_cons_ws _ _ (by decide)]
  have h2 : ∀ q, parser_init q (w ++ s) = parser_init q s := by
    intro q
    unfold parser_init
    exact lex_whitespaces w s _ (fun x hx => (is_whitespace_char_iff x).mpr (hw x hx))
  refine ⟨h1 q, h2 q, ?_, ?_, by decide⟩
  · unfold parse
    rw [h1]
  · unfold parse
    rw [h2]

theorem C10_comments_whitespace_witness :
    parser_init ⟨[], ⟨TOKEN_EOF, none, 0⟩⟩ (';' :: (['h', 'i'] ++ '\n' :: ['7']))
      = parser_init ⟨[], ⟨TOKEN_EOF, none, 0⟩⟩ ['7'] ∧
    parser_init ⟨[], ⟨TOKEN_EOF, none, 0⟩⟩ ([' ', '\n'] ++ ['7'])
      = parser_init ⟨[], ⟨TOKEN_EOF, none, 0⟩⟩ ['7'] ∧
    parse (';' :: (['h', 'i'] ++ '\n' :: ['7'])) = parse ['7'] ∧
    parse ([' ', '\n'] ++ ['7']) = parse ['7'] ∧
    parse [';', ' ', 'c', 'o', 'm', 'm', 'e', 'n', 't', '\n', '4', '2']
      = ParseResult.ok (Expr.Integer 42) ⟨[], ⟨TOKEN_EOF, none, 0⟩⟩ :=
  C10_comments_whitespace ⟨[], ⟨TOKEN_EOF, none, 0⟩⟩ ['h', 'i'] [' ', '\n'] ['7']
    (by decide) (by decide)

/-- C11: for every input made of whitespace characters and `;` comments only, up to the
end of input (the empty input included), `parser_init` leaves the end-of-input token as
the lookahead and `parse_expr` produces no expression: it fails with a grammar error,
whatever its budget. The end of input is the end of the text or an explicit terminator
`0`, whatever follows it. -/
theorem C11_blank_input (q : Parser) (b rest : List Char) (hb : Blank b) :
    parser_init q b = ⟨[], ⟨TOKEN_EOF, none, 0⟩⟩ ∧
    parse b = ParseResult.grammar_error ∧
    (∀ n e p1, parse_expr_fuel n (parser_init q b) ≠ ParseResult.ok e p1) ∧
    parser_init q (b ++ '\x00' :: rest) = ⟨'\x00' :: rest, ⟨TOKEN_EOF, none, 0⟩⟩ ∧
    parse (b ++ '\x00' :: rest) = ParseResult.grammar_error ∧
    (∀ n e p1, parse_expr_fuel n (parser_init q (b ++ '\x00' :: rest))
      ≠ ParseResult.ok e p1) := by
  have h1 : ∀ q, parser_init q b = ⟨[], ⟨TOKEN_EOF, none, 0⟩⟩ := by
    intro q
    have := skipWs_blank hb [] (Or.inl rfl)
    rw [List.append_nil] at this
    rw [parser_init_eq, this]
    rfl
  have h2 : ∀ q, parser_init q (b ++ '\x00' :: rest)
      = ⟨'\x00' :: rest, ⟨TOKEN_EOF, none, 0⟩⟩ := by
    intro q
    rw [parser_init_eq, skipWs_blank hb _ (Or.inr ⟨rest, rfl⟩),
      tokOf_atEnd _ (Or.inr ⟨rest, rfl⟩)]
    rfl
  have e1 : ∀ q, parse_expr (parser_init q b) = ParseResult.grammar_error := by
    intro q
    rw [h1]
    exact parse_expr_eq_other _ (Or.inl rfl)
  have e2 : ∀ q, parse_expr (parser_init q (b ++ '\x00' :: rest))
      = ParseResult.grammar_error := by
    intro q
    rw [h2]
    exact parse_expr_eq_other _ (Or.inl rfl)
  exact ⟨h1 q, e1 _, parse_expr_fuel_no_tree _ (e1 q), h2 q, e2 _,
    parse_expr_fuel_no_tree _ (e2 q)⟩

theorem C11_blank_input_witness :
    parser_init ⟨[], ⟨TOKEN_EOF, none, 0⟩⟩ [' ', ';', 'a', '\n', '\t', ';', 'b']
      = ⟨[], ⟨TOKEN_EOF, none, 0⟩⟩ ∧
    parse [' ', ';', 'a', '\n', '\t', ';', 'b'] = ParseResult.grammar_error ∧
    (∀ n e p1, parse_expr_fuel n
        (parser_init ⟨[], ⟨TOKEN_EOF, none, 0⟩⟩ [' ', ';', 'a', '\n', '\t', ';', 'b'])
      ≠ ParseResult.ok e p1) ∧
    parser_init ⟨[], ⟨TOKEN_EOF, none, 0⟩⟩
        ([' ', ';', 'a', '\n', '\t', ';', 'b'] ++ '\x00' :: ['7'])
      = ⟨'\x00' :: ['7'], ⟨TOKEN_EOF, none, 0⟩⟩ ∧
    parse ([' ', ';', 'a', '\n', '\t', ';', 'b'] ++ '\x00' :: ['7'])
      = ParseResult.grammar_error ∧
    (∀ n e p1, parse_expr_fuel n
        (parser_init ⟨[], ⟨TOKEN_EOF, none, 0⟩⟩
          ([' ', ';', 'a', '\n', '\t', ';', 'b'] ++ '\x00' :: ['7']))
      ≠ ParseResult.ok e p1) :=
  C11_blank_input ⟨[], ⟨TOKEN_EOF, none, 0⟩⟩ [' ', ';', 'a', '\n', '\t', ';', 'b'] ['7']
    (Blank.ws ' ' _ (by decide)
      (Blank.comment ['a'] _ (by decide)
        (Blank.ws '\t' _ (by decide) (Blank.last_comment ['b'] (by decide)))))

/-- C12: `parse_next_token` is a function of the cursor alone: from two parser states
with the same stream cursor, whatever their `last_token`, it produces the same token
(type, text and number) and the same advanced cursor. -/
theorem C12_next_token_pure (p1 p2 : Parser) (h : p1.stream = p2.stream) :
    parse_next_token p1 = parse_next_token p2 ∧
    (parse_next_token p1).last_token.type = (parse_next_token p2).last_token.type ∧
    (parse_next_token p1).last_token.str = (parse_next_token p2).last_token.str ∧
    (parse_next_token p1).last_token.num = (parse_next_token p2).last_token.num ∧
    (parse_next_token p1).stream = (parse_next_token p2).stream := by
  have e : parse_next_token p1 = parse_next_token p2 := by
    rw [parse_next_token_stream p1 p2.last_token, h]
  rw [e]
  exact ⟨rfl, rfl, rfl, rfl, rfl⟩

theorem C12_next_token_pure_witness :
    parse_next_token ⟨['4', '2', ')'], ⟨TOKEN_SYMBOL, some ['x'], 7⟩⟩
      = parse_next_token ⟨['4', '2', ')'], ⟨TOKEN_EOF, none, 0⟩⟩ ∧
    (parse_next_token ⟨['4', '2', ')'], ⟨TOKEN_SYMBOL, some ['x'], 7⟩⟩).last_token.type
      = (parse_next_token ⟨['4', '2', ')'], ⟨TOKEN_EOF, none, 0⟩⟩).last_token.type ∧
    (parse_next_token ⟨['4', '2', ')'], ⟨TOKEN_SYMBOL, some ['x'], 7⟩⟩).last_token.str
      = (parse_next_token ⟨['4', '2', ')'], ⟨TOKEN_EOF, none, 0⟩⟩).last_token.str ∧
    (parse_next_token ⟨['4', '2', ')'], ⟨TOKEN_SYMBOL, some ['x'], 7⟩⟩).last_token.num
      = (parse_next_token ⟨['4', '2', ')'], ⟨TOKEN_EOF, none, 0⟩⟩).last_token.num ∧
    (parse_next_token ⟨['4', '2', ')'], ⟨TOKEN_SYMBOL, some ['x'], 7⟩⟩).stream
      = (parse_next_token ⟨['4', '2', ')'], ⟨TOKEN_EOF, none, 0⟩⟩).stream :=
  C12_next_token_pure ⟨['4', '2', ')'], ⟨TOKEN_SYMBOL, some ['x'], 7⟩⟩
    ⟨['4', '2', ')'], ⟨TOKEN_EOF, none, 0⟩⟩ rfl

/-- C13, refuted as stated: the text `a.b` is lexed as the one symbol token `a.b`, whose
text holds an embedded `.`; so it is false that no symbol token produced by
`parse_next_token` contains `.`, `,` or `'`. -/
theorem C13_embedded_dot_counterexample :
    parse_next_token ⟨['a', '.', 'b'], ⟨TOKEN_EOF, none, 0⟩⟩
      = ⟨[], ⟨TOKEN_SYMBOL, some ['a', '.', 'b'], 0⟩⟩ ∧
    ¬ (∀ (p : Parser) (text : List Char),
        (parse_next_token p).last_token.type = TOKEN_SYMBOL →
        (parse_next_token p).last_token.str = some text →
        '.' ∉ text ∧ ',' ∉ text ∧ '\'' ∉ text) := by
  refine ⟨by decide, fun h => ?_⟩
  have := h ⟨['a', '.', 'b'], ⟨TOKEN_EOF, none, 0⟩⟩ ['a', '.', 'b'] (by decide) (by decide)
  exact absurd this.1 (by decide)

/-- C13, amended: the characters `'`, `,` and `.` are lexed as single-character tokens
when they are the first character after whitespace and comments, and no symbol token
produced by `parse_next_token` starts with one of them. Every character of a symbol text
is a literal character, and `'`, `,` and `.` are literal characters: inside a literal run
they stay in the symbol, that is, a maximal run of literal characters that holds one of
them after its first character (which is none of them and no `;`) is lexed as one symbol
token with the whole run as its text; `a.b` is lexed as the one symbol `a.b`. -/
theorem C13_symbol_leading_punctuation :
    (∀ p r, (after_skip p).stream = '\'' :: r →
      parse_next_token p = ⟨r, ⟨TOKEN_QUOTE, none, 0⟩⟩) ∧
    (∀ p r, (after_skip p).stream = ',' :: r →
      parse_next_token p = ⟨r, ⟨TOKEN_COMMA, none, 0⟩⟩) ∧
    (∀ p r, (after_skip p).stream = '.' :: r →
      parse_next_token p = ⟨r, ⟨TOKEN_DOT, none, 0⟩⟩) ∧
    (∀ p text c, (parse_next_token p).last_token.type = TOKEN_SYMBOL →
      (parse_next_token p).last_token.str = some text → text.head? = some c →
      c ≠ '\'' ∧ c ≠ ',' ∧ c ≠ '.') ∧
    (∀ p text, (parse_next_token p).last_token.type = TOKEN_SYMBOL →
      (parse_next_token p).last_token.str = some text →
      ∀ x ∈ text, is_literal_char x = true) ∧
    (∀ (t : Token) (x y r : List Char) (c : Char), x ≠ [] →
      (∀ d ∈ x, is_literal_char d = true) → (∀ d ∈ y, is_literal_char d = true) →
      (∀ d, x.head? = some d → d ≠ '\'' ∧ d ≠ ',' ∧ d ≠ '.' ∧ d ≠ ';') →
      (c = '\'' ∨ c = ',' ∨ c = '.') →
      (∀ d, r.head? = some d → is_literal_char d = false) →
      (parse_next_token ⟨(x ++ c :: y) ++ r, t⟩).stream = r ∧
      (parse_next_token ⟨(x ++ c :: y) ++ r, t⟩).last_token.type = TOKEN_SYMBOL ∧
      (parse_next_token ⟨(x ++ c :: y) ++ r, t⟩).last_token.str = some (x ++ c :: y)) ∧
    (is_literal_char '\'' = true ∧ is_literal_char ',' = true ∧
      is_literal_char '.' = true) ∧
    parse_next_token ⟨['a', '.', 'b'], ⟨TOKEN_EOF, none, 0⟩⟩
      = ⟨[], ⟨TOKEN_SYMBOL, some ['a', '.', 'b'], 0⟩⟩ := by
  have hfirst : ∀ (p : Parser) (c : Char) (r : List Char),
      (after_skip p).stream = c :: r → parse_next_token p = tokOf (c :: r) := by
    intro p c r h
    cases p with
    | mk s t =>
      rw [after_skip_eq] at h
      simp only at h
      rw [parse_next_token_eq, h]
  have hsym : ∀ (p : Parser) (text : List Char),
      (parse_next_token p).last_token.type = TOKEN_SYMBOL →
      (parse_next_token p).last_token.str = some text →
      ∃ (c0 : Char) (r0 : List Char), text = c0 :: r0.takeWhile is_literal_char ∧
        is_literal_char c0 = true ∧
        is_punctuation_char c0 = false := by
    intro p text h1 h2
    cases p with
    | mk s t =>
      rw [parse_next_token_eq] at h1 h2
      obtain ⟨c0, r0, _, l0, p0, s0⟩ := tokOf_symbol _ h1
      rw [s0, Option.some.injEq] at h2
      exact ⟨c0, r0, h2.symm, l0, p0⟩
  refine ⟨?_, ?_, ?_, ?_, ?_, ?_, ⟨by decide, by decide, by decide⟩, by decide⟩
  · intro p r h; rw [hfirst p _ r h]; simp [tokOf]
  · intro p r h; rw [hfirst p _ r h]; simp [tokOf]
  · intro p r h; rw [hfirst p _ r h]; simp [tokOf]
  · intro p text c h1 h2 h3
    obtain ⟨c0, r0, e, _, p0⟩ := hsym p text h1 h2
    rw [e, List.head?_cons, Option.some.injEq] at h3
    subst h3
    simp only [is_punctuation_char, Bool.or_eq_false_iff, beq_eq_false_iff_ne] at p0
    exact ⟨p0.1.1.2, p0.1.2, p0.2⟩
  · intro p text h1 h2 x hx
    obtain ⟨c0, r0, e, l0, _⟩ := hsym p text h1 h2
    rw [e, List.mem_cons] at hx
    rcases hx with hx | hx
    · rw [hx]; exact l0
    · exact List.mem_takeWhile_imp hx
  · intro t x y r c hx hlx hly hh hc hr
    have hlc : is_literal_char c = true := by
      rcases hc with h | h | h <;> subst h <;> decide
    have hne : x ++ c :: y ≠ [] := by simp
    have hall : ∀ d ∈ x ++ c :: y, is_literal_char d = true := by
      intro d hd
      rcases List.mem_append.mp hd with h | h
      · exact hlx d h
      · rcases List.mem_cons.mp h with h | h
        · rw [h]; exact hlc
        · exact hly d h
    have hhead : ∀ d, (x ++ c :: y).head? = some d →
        d ≠ '\'' ∧ d ≠ ',' ∧ d ≠ '.' ∧ d ≠ ';' := by
      intro d hd
      cases x with
      | nil => exact absurd rfl hx
      | cons x0 xs => exact hh d (by simpa using hd)
    rw [lex_literal_run _ r t hne hall hhead hr]
    obtain ⟨s1, s2⟩ := literal_token_symbol zero_token _ (not_number_of_embedded x y c hx hc)
    exact ⟨rfl, s1, s2⟩

theorem C13_symbol_leading_punctuation_witness :
    parse_next_token ⟨[' ', '.', 'b'], ⟨TOKEN_EOF, none, 0⟩⟩
      = ⟨['b'], ⟨TOKEN_DOT, none, 0⟩⟩ ∧
    ((parse_next_token ⟨(['-', '1'] ++ '.' :: ['5']) ++ [')'], ⟨TOKEN_EOF, none, 0⟩⟩).stream
        = [')'] ∧
      (parse_next_token
          ⟨(['-', '1'] ++ '.' :: ['5']) ++ [')'], ⟨TOKEN_EOF, none, 0⟩⟩).last_token.type
        = TOKEN_SYMBOL ∧
      (parse_next_token
          ⟨(['-', '1'] ++ '.' :: ['5']) ++ [')'], ⟨TOKEN_EOF, none, 0⟩⟩).last_token.str
        = some (['-', '1'] ++ '.' :: ['5'])) :=
  ⟨C13_symbol_leading_punctuation.2.2.1 ⟨[' ', '.', 'b'], ⟨TOKEN_EOF, none, 0⟩⟩ ['b'] (by decide),
    C13_symbol_leading_punctuation.2.2.2.2.2.1 ⟨TOKEN_EOF, none, 0⟩ ['-', '1'] ['5'] [')'] '.' (by simp)
      (by decide) (by decide) (by decide) (Or.inr (Or.inr rfl)) (by decide)⟩

/-- C14: for every cursor position, if the first character after skipping whitespace and
comments is one of `(`, `)`, `'`, `,` or `.`, then `parse_next_token` yields the
corresponding punctuation token and consumes exactly that one character, whatever
follows; `.5` is lexed as the dot token followed by the number `5`. -/
theorem C14_punctuation_first (p : Parser) (c : Char) (r : List Char)
    (h : (after_skip p).stream = c :: r) :
    (c = '(' → parse_next_token p = ⟨r, ⟨TOKEN_LPAREN, none, 0⟩⟩) ∧
    (c = ')' → parse_next_token p = ⟨r, ⟨TOKEN_RPAREN, none, 0⟩⟩) ∧
    (c = '\'' → parse_next_token p = ⟨r, ⟨TOKEN_QUOTE, none, 0⟩⟩) ∧
    (c = ',' → parse_next_token p = ⟨r, ⟨TOKEN_COMMA, none, 0⟩⟩) ∧
    (c = '.' → parse_next_token p = ⟨r, ⟨TOKEN_DOT, none, 0⟩⟩) ∧
    parse_next_token ⟨['.', '5'], ⟨TOKEN_EOF, none, 0⟩⟩
      = ⟨['5'], ⟨TOKEN_DOT, none, 0⟩⟩ ∧
    parse_next_token (parse_next_token ⟨['.', '5'], ⟨TOKEN_EOF, none, 0⟩⟩)
      = ⟨[], ⟨TOKEN_NUMBER, none, 5⟩⟩ := by
  cases p with
  | mk s t =>
    rw [after_skip_eq] at h
    simp only at h
    rw [parse_next_token_eq, h]
    refine ⟨?_, ?_, ?_, ?_, ?_, by decide, by decide⟩
    all_goals (intro hc; subst hc; simp [tokOf])

theorem C14_punctuation_first_witness :
    ('.' = '(' → parse_next_token ⟨[' ', '.', 'x', '.'], ⟨TOKEN_SYMBOL, none, 3⟩⟩
      = ⟨['x', '.'], ⟨TOKEN_LPAREN, none, 0⟩⟩) ∧
    ('.' = ')' → parse_next_token ⟨[' ', '.', 'x', '.'], ⟨TOKEN_SYMBOL, none, 3⟩⟩
      = ⟨['x', '.'], ⟨TOKEN_RPAREN, none, 0⟩⟩) ∧
    ('.' = '\'' → parse_next_token ⟨[' ', '.', 'x', '.'], ⟨TOKEN_SYMBOL, none, 3⟩⟩
      = ⟨['x', '.'], ⟨TOKEN_QUOTE, none, 0⟩⟩) ∧
    ('.' = ',' → parse_next_token ⟨[' ', '.', 'x', '.'], ⟨TOKEN_SYMBOL, none, 3⟩⟩
      = ⟨['x', '.'], ⟨TOKEN_COMMA, none, 0⟩⟩) ∧
    ('.' = '.' → parse_next_token ⟨[' ', '.', 'x', '.'], ⟨TOKEN_SYMBOL, none, 3⟩⟩
      = ⟨['x', '.'], ⟨TOKEN_DOT, none, 0⟩⟩) ∧
    parse_next_token ⟨['.', '5'], ⟨TOKEN_EOF, none, 0⟩⟩
      = ⟨['5'], ⟨TOKEN_DOT, none, 0⟩⟩ ∧
    parse_next_token (parse_next_token ⟨['.', '5'], ⟨TOKEN_EOF, none, 0⟩⟩)
      = ⟨[], ⟨TOKEN_NUMBER, none, 5⟩⟩ :=
  C14_punctuation_first ⟨[' ', '.', 'x', '.'], ⟨TOKEN_SYMBOL, none, 3⟩⟩ '.' ['x', '.']
    (by decide)

/-- C15: at the first character after whitespace and comments, one branch of
`parse_next_token` applies, and only one: punctuation, end-of-input, or literal (reached
when the character is no punctuation; `'`, `,` and `.` are literal characters too, and
the order of the branches gives them to punctuation). The end-of-input character is
neither punctuation nor literal. Each branch yields its kind of token, the literal branch
runs `lex_literal`, the run it reads is non-empty, and no symbol token has empty text. -/
theorem C15_branches_exhaustive (p : Parser) :
    (is_punctuation_char (lex_last (after_skip p)) = true ∨
      lex_is_eof (after_skip p) = true ∨
      (is_punctuation_char (lex_last (after_skip p)) = false ∧
        lex_is_literal (after_skip p) = true)) ∧
    ¬ (is_punctuation_char (lex_last (after_skip p)) = true ∧
      lex_is_eof (after_skip p) = true) ∧
    ¬ (lex_is_eof (after_skip p) = true ∧ lex_is_literal (after_skip p) = true) ∧
    ¬ (is_punctuation_char (lex_last (after_skip p)) = true ∧
      (is_punctuation_char (lex_last (after_skip p)) = false ∧
        lex_is_literal (after_skip p) = true)) ∧
    (is_punctuation_char (lex_last (after_skip p)) = true →
      (parse_next_token p).last_token.type ≠ TOKEN_EOF ∧
      (parse_next_token p).last_token.type ≠ TOKEN_SYMBOL ∧
      (parse_next_token p).last_token.type ≠ TOKEN_NUMBER ∧
      (parse_next_token p).stream = (after_skip p).stream.tail) ∧
    (lex_is_eof (after_skip p) = true → parse_next_token p = after_skip p) ∧
    (is_punctuation_char (lex_last (after_skip p)) = false →
      lex_is_literal (after_skip p) = true →
      parse_next_token p = lex_literal (after_skip p) ∧
      (lex_read_literal (after_skip p)).1 ≠ [] ∧
      ((parse_next_token p).last_token.type = TOKEN_NUMBER ∨
        (parse_next_token p).last_token.type = TOKEN_SYMBOL)) ∧
    ((parse_next_token p).last_token.type = TOKEN_SYMBOL →
      ∃ text, (parse_next_token p).last_token.str = some text ∧ text ≠ []) := by
  cases p with
  | mk s t =>
    rw [after_skip_eq, parse_next_token_eq]
    simp only
    have hh := skipWs_head s
    cases hs : skipWs s with
    | nil =>
      refine ⟨Or.inr (Or.inl (by decide)), by decide, by decide, by decide, by decide,
        fun _ => rfl, fun _ h => absurd h (by decide), fun h => ?_⟩
      simp [tokOf, zero_token] at h
    | cons c r =>
      obtain ⟨hw, _⟩ := hh c r hs
      simp only [lex_last, lex_is_eof, lex_is_literal, List.headD_cons, beq_iff_eq,
        List.tail_cons]
      refine ⟨?_, ?_, ?_, fun h => by rw [h.1] at h; exact absurd h.2.1 (by decide),
        ?_, ?_, ?_, ?_⟩
      · by_cases hp : is_punctuation_char c = true
        · exact Or.inl hp
        · by_cases h0 : c = '\x00'
          · exact Or.inr (Or.inl h0)
          · refine Or.inr (Or.inr ⟨by simpa using hp, ?_⟩)
            simp only [is_punctuation_char, Bool.or_eq_true, beq_iff_eq, not_or] at hp
            simp [is_literal_char, hw, h0, hp.1.1.1.1, hp.1.1.1.2]
      · rintro ⟨h1, h2⟩
        subst h2
        exact absurd h1 (by decide)
      · rintro ⟨h1, h2⟩
        subst h1
        exact absurd h2 (by decide)
      · intro hp
        simp only [is_punctuation_char, Bool.or_eq_true, beq_iff_eq] at hp
        rcases hp with (((h | h) | h) | h) | h <;> subst h <;> simp [tokOf]
      · intro h0
        subst h0
        simp [tokOf]
      · intro hp hl
        simp only [is_punctuation_char, Bool.or_eq_false_iff, beq_eq_false_iff_ne] at hp
        have h0 : c ≠ '\x00' := by
          intro e
          subst e
          exact absurd hl (by decide)
        have ht : tokOf (c :: r) = ⟨(c :: r).dropWhile is_literal_char,
            literal_token zero_token ((c :: r).takeWhile is_literal_char)⟩ := by
          simp [tokOf, hp.1.1.1.1, hp.1.1.1.2, hp.1.1.2, hp.1.2, hp.2, h0, hl]
        rw [ht, lex_literal_eq, lex_read_literal_eq]
        refine ⟨rfl, by simp [List.takeWhile_cons, hl], ?_⟩
        rcases literal_token_cases zero_token ((c :: r).takeWhile is_literal_char) with g | g
        · exact Or.inl g
        · exact Or.inr g.1
      · intro h
        obtain ⟨c0, r0, _, _, _, s0⟩ := tokOf_symbol _ h
        exact ⟨_, s0, by simp⟩

theorem C15_branches_exhaustive_witness :
    parse_next_token ⟨[' ', 'a', 'b', ')'], ⟨TOKEN_EOF, none, 0⟩⟩
      = lex_literal (after_skip ⟨[' ', 'a', 'b', ')'], ⟨TOKEN_EOF, none, 0⟩⟩) ∧
    (lex_read_literal (after_skip ⟨[' ', 'a', 'b', ')'], ⟨TOKEN_EOF, none, 0⟩⟩)).1 ≠ [] ∧
    ((parse_next_token ⟨[' ', 'a', 'b', ')'], ⟨TOKEN_EOF, none, 0⟩⟩).last_token.type
        = TOKEN_NUMBER ∨
      (parse_next_token ⟨[' ', 'a', 'b', ')'], ⟨TOKEN_EOF, none, 0⟩⟩).last_token.type
        = TOKEN_SYMBOL) :=
  (C15_branches_exhaustive ⟨[' ', 'a', 'b', ')'], ⟨TOKEN_EOF, none, 0⟩⟩).2.2.2.2.2.2.1
    (by decide) (by decide)

/-- C16: in a list loop running anywhere within a `parse_expr` call on `root`, after an
element, a `.` token and the one expression parsed as the final cdr, the next token must
be `)`: if it is, it is consumed and the loop returns the list with the pair appended; if
it is any other token, the loop fails and the whole `parse_expr` call on `root` fails
with a grammar error and returns no tree, whatever its budget. The texts `(1 . 2 3)`,
`(1 . 2 . 3)`, `(1 . 2 ,)` and `(1 . 2` all fail. -/
theorem C16_dotted_tail_close (root : Parser) (l : Expr) (p : Parser) (e1 e2 : Expr)
    (p1 p2 : Parser)
    (hin : Within (Call.expr root) (Call.list l p))
    (h1 : parse_expr p = ParseResult.ok e1 p1)
    (hd : p1.last_token.type = TOKEN_DOT)
    (h2 : parse_expr (parse_next_token p1) = ParseResult.ok e2 p2) :
    (p2.last_token.type = TOKEN_RPAREN →
      parse_list l p
        = ParseResult.ok (list_append l (cons e1 e2)) (parse_next_token p2)) ∧
    (p2.last_token.type ≠ TOKEN_RPAREN →
      parse_list l p = ParseResult.grammar_error ∧
      parse_expr root = ParseResult.grammar_error ∧
      ∀ n e q, parse_expr_fuel n root ≠ ParseResult.ok e q) ∧
    parse ['(', '1', ' ', '.', ' ', '2', ' ', '3', ')'] = ParseResult.grammar_error ∧
    parse ['(', '1', ' ', '.', ' ', '2', ' ', '.', ' ', '3', ')']
      = ParseResult.grammar_error ∧
    parse ['(', '1', ' ', '.', ' ', '2', ' ', ',', ')'] = ParseResult.grammar_error ∧
    parse ['(', '1', ' ', '.', ' ', '2'] = ParseResult.grammar_error := by
  have hnr := parse_expr_ok_not_rparen h1
  have hl : parse_list l p = if p2.last_token.type = TOKEN_RPAREN then
      ParseResult.ok (list_append l (cons e1 e2)) (parse_next_token p2)
      else ParseResult.grammar_error := by
    rw [parse_list_eq_other _ _ hnr, h1]
    unfold ParseResult.bind
    simp only []
    unfold list_tail
    rw [if_pos hd, h2]
    rfl
  refine ⟨fun hr => by rw [hl, if_pos hr], fun hr => ?_, by decide, by decide, by decide,
    by decide⟩
  have hf : parse_list l p = ParseResult.grammar_error := by rw [hl, if_neg hr]
  have hroot : parse_expr root = ParseResult.grammar_error := within_fail hin hf
  exact ⟨hf, hroot, parse_expr_fuel_no_tree _ hroot⟩

theorem C16_dotted_tail_close_witness :
    ((⟨[')'], ⟨TOKEN_NUMBER, none, 3⟩⟩ : Parser).last_token.type = TOKEN_RPAREN →
      parse_list nil ⟨[' ', '.', ' ', '2', ' ', '3', ')'], ⟨TOKEN_NUMBER, none, 1⟩⟩
        = ParseResult.ok (list_append nil (cons (Expr.Integer 1) (Expr.Integer 2)))
            (parse_next_token ⟨[')'], ⟨TOKEN_NUMBER, none, 3⟩⟩)) ∧
    ((⟨[')'], ⟨TOKEN_NUMBER, none, 3⟩⟩ : Parser).last_token.type ≠ TOKEN_RPAREN →
      parse_list nil ⟨[' ', '.', ' ', '2', ' ', '3', ')'], ⟨TOKEN_NUMBER, none, 1⟩⟩
        = ParseResult.grammar_error ∧
      parse_expr ⟨['1', ' ', '.', ' ', '2', ' ', '3', ')'], ⟨TOKEN_LPAREN, none, 0⟩⟩
        = ParseResult.grammar_error ∧
      ∀ n e q, parse_expr_fuel n
          ⟨['1', ' ', '.', ' ', '2', ' ', '3', ')'], ⟨TOKEN_LPAREN, none, 0⟩⟩
        ≠ ParseResult.ok e q) ∧
    parse ['(', '1', ' ', '.', ' ', '2', ' ', '3', ')'] = ParseResult.grammar_error ∧
    parse ['(', '1', ' ', '.', ' ', '2', ' ', '.', ' ', '3', ')']
      = ParseResult.grammar_error ∧
    parse ['(', '1', ' ', '.', ' ', '2', ' ', ',', ')'] = ParseResult.grammar_error ∧
    parse ['(', '1', ' ', '.', ' ', '2'] = ParseResult.grammar_error :=
  have e : parse_next_token ⟨['1', ' ', '.', ' ', '2', ' ', '3', ')'], ⟨TOKEN_LPAREN, none, 0⟩⟩
      = ⟨[' ', '.', ' ', '2', ' ', '3', ')'], ⟨TOKEN_NUMBER, none, 1⟩⟩ := by decide
  C16_dotted_tail_close
    ⟨['1', ' ', '.', ' ', '2', ' ', '3', ')'], ⟨TOKEN_LPAREN, none, 0⟩⟩ nil
    ⟨[' ', '.', ' ', '2', ' ', '3', ')'], ⟨TOKEN_NUMBER, none, 1⟩⟩
    (Expr.Integer 1) (Expr.Integer 2)
    ⟨[' ', '2', ' ', '3', ')'], ⟨TOKEN_DOT, none, 0⟩⟩
    ⟨[')'], ⟨TOKEN_NUMBER, none, 3⟩⟩
    (Relation.ReflTransGen.single (e ▸ Calls.lparen _ rfl))
    (by decide) rfl (by decide)

/-- C17: for every `k ≥ 1` and well-formed atoms `a1 .. ak` and `b`, `parser_init`
followed by `parse_expr` on the text `(a1 ... ak . b)` returns the improper list
`Pair(a1, Pair(a2, ... Pair(ak, b)))`; `(1 2 . 3)` gives
`Pair(Integer 1, Pair(Integer 2, Integer 3))`. -/
theorem C17_improper_list (as : List Atom) (b : Atom) (hne : as ≠ [])
    (has : ∀ a ∈ as, a.WellFormed) (hb : b.WellFormed) :
    parse ('(' :: (spaced as ++ [' ', '.', ' '] ++ b.text ++ [')']))
      = ParseResult.ok (improper_list (as.map Atom.tree) b.tree)
          ⟨[], ⟨TOKEN_EOF, none, 0⟩⟩ ∧
    parse ['(', '1', ' ', '2', ' ', '.', ' ', '3', ')']
      = ParseResult.ok
          (Expr.Pair (Expr.Integer 1) (Expr.Pair (Expr.Integer 2) (Expr.Integer 3)))
          ⟨[], ⟨TOKEN_EOF, none, 0⟩⟩ := by
  refine ⟨?_, by decide⟩
  rcases List.eq_nil_or_concat' as with h | ⟨bs, a, h⟩
  · exact absurd h hne
  · subst h
    have ha : a.WellFormed := has a (by simp)
    have hbs : ∀ x ∈ bs, x.WellFormed := fun x hx => has x (by simp [hx])
    have e1 : spaced (bs ++ [a]) ++ [' ', '.', ' '] ++ b.text ++ [')']
        = spaced (bs ++ [a]) ++ (' ' :: '.' :: ' ' :: (b.text ++ ')' :: [])) := by simp
    rw [e1, parse_lparen,
      parse_list_spaced bs a nil _ zero_token hbs ha (stopsLiteral_space _),
      parse_list_dotted_tail a b _ [] zero_token ha hb, lex_end]
    have e2 := foldl_pushb_proper [] (bs.map Atom.tree)
    simp only [proper_list, List.nil_append] at e2
    rw [nil, e2, cons, list_append_proper, ← improper_list_concat]
    simp [zero_token]

theorem C17_improper_list_witness :
    parse ('(' :: (spaced [Atom.sym ['a'], Atom.int true ['2']] ++ [' ', '.', ' ']
        ++ (Atom.sym ['z']).text ++ [')']))
      = ParseResult.ok
          (improper_list ([Atom.sym ['a'], Atom.int true ['2']].map Atom.tree)
            (Atom.sym ['z']).tree)
          ⟨[], ⟨TOKEN_EOF, none, 0⟩⟩ ∧
    parse ['(', '1', ' ', '2', ' ', '.', ' ', '3', ')']
      = ParseResult.ok
          (Expr.Pair (Expr.Integer 1) (Expr.Pair (Expr.Integer 2) (Expr.Integer 3)))
          ⟨[], ⟨TOKEN_EOF, none, 0⟩⟩ :=
  have hs : ∀ x : Char, x ∈ ['a', 'z'] → (Atom.sym [x]).WellFormed := by
    intro x hx
    refine ⟨by simp, ?_, ?_, ?_⟩
    · intro c hc
      simp only [List.mem_singleton] at hc
      subst hc
      simp only [List.mem_cons, List.mem_singleton, List.not_mem_nil, or_false] at hx
      rcases hx with h | h <;> subst h <;> decide
    · intro c hc
      simp only [List.head?_cons, Option.some.injEq] at hc
      subst hc
      simp only [List.mem_cons, List.mem_singleton, List.not_mem_nil, or_false] at hx
      rcases hx with h | h <;> subst h <;> decide
    · rintro ⟨ds, _, hd, e | e⟩
      · subst e
        have := hd x (by simp)
        simp only [List.mem_cons, List.mem_singleton, List.not_mem_nil, or_false] at hx
        rcases hx with h | h <;> subst h <;> exact absurd this (by decide)
      · simp only [List.cons.injEq] at e
        have := e.1
        simp only [List.mem_cons, List.mem_singleton, List.not_mem_nil, or_false] at hx
        rcases hx with h | h <;> subst h <;> exact absurd this (by decide)
  C17_improper_list [Atom.sym ['a'], Atom.int true ['2']] (Atom.sym ['z']) (by simp)
    (fun a ha => by
      simp only [List.mem_cons, List.mem_singleton, List.not_mem_nil, or_false] at ha
      rcases ha with h | h
      · rw [h]; exact hs 'a' (by simp)
      · rw [h]; exact ⟨by simp, by decide⟩)
    (hs 'z' (by simp))

/-- C18: for every text, `parser_init` followed by `parse_expr` terminates with a tree or
with a grammar error: its budget is never exhausted and every larger budget gives the
same result, and so for every call of `parse_expr` and every run of its list loop. The
loops of `lex_match_whitespace` and `lex_read_literal` leave by their exit condition
within a budget of the number of characters left, over characters none of which is the
terminator. Every `parse_expr` call that returns a tree has consumed one or more tokens,
every further round of the list loop starts with fewer tokens left, and at the
end-of-input token the inner `parse_expr` and the loop fail. -/
theorem C18_termination (q : Parser) (text : List Char) :
    ((∃ e p1, parse_expr (parser_init q text) = ParseResult.ok e p1) ∨
      parse_expr (parser_init q text) = ParseResult.grammar_error) ∧
    (∀ n, parse_budget (parser_init q text) ≤ n →
      parse_expr_fuel n (parser_init q text) = parse_expr (parser_init q text)) ∧
    (∀ l p, parse_list l p ≠ ParseResult.out_of_fuel ∧
      parse_expr p ≠ ParseResult.out_of_fuel) ∧
    (∀ p n, p.stream.length < n →
      lex_match_whitespace_loop n p = lex_match_whitespace p ∧
      lex_is_whitespace (lex_match_whitespace p) = false ∧
      lex_is (lex_match_whitespace p) ';' = false ∧
      ∃ pre, p.stream = pre ++ (lex_match_whitespace p).stream ∧ '\x00' ∉ pre) ∧
    (∀ p n, p.stream.length ≤ n →
      lex_skip_line n p = lex_skip_line p.stream.length p ∧
      (lex_is (lex_skip_line n p) '\x00' || lex_is (lex_skip_line n p) '\n') = true) ∧
    (∀ p n str, p.stream.length < n →
      lex_read_literal_loop n str p
        = (str ++ (lex_read_literal p).1, (lex_read_literal p).2) ∧
      lex_is_literal (lex_read_literal p).2 = false ∧
      p.stream = (lex_read_literal p).1 ++ (lex_read_literal p).2.stream ∧
      '\x00' ∉ (lex_read_literal p).1) ∧
    (∀ p e p1, parse_expr p = ParseResult.ok e p1 →
      (∃ k, 1 ≤ k ∧ p1 = advance k p ∧ TOKEN_EOF ∉ token_types k p) ∧
      weight p1 < weight p) ∧
    (∀ l p e p1, p.last_token.type ≠ TOKEN_RPAREN → parse_expr p = ParseResult.ok e p1 →
      p1.last_token.type ≠ TOKEN_DOT →
      parse_list l p = parse_list (list_pushb l e) p1 ∧
      (∃ k, 1 ≤ k ∧ p1 = advance k p) ∧ weight p1 < weight p) ∧
    (∀ l p, p.last_token.type = TOKEN_EOF →
      parse_expr p = ParseResult.grammar_error ∧
      parse_list l p = ParseResult.grammar_error) := by
  refine ⟨?_, fun n hn => parse_expr_fuel_of_le _ n hn,
    fun l p => ⟨parse_list_ne_out_of_fuel l p, parse_expr_ne_out_of_fuel p⟩, ?_,
    fun p n h => lex_skip_line_exit p n h, ?_, parse_expr_consumes, ?_, ?_⟩
  · cases h : parse_expr (parser_init q text) with
    | ok e p1 => exact Or.inl ⟨e, p1, rfl⟩
    | grammar_error => exact Or.inr rfl
    | out_of_fuel => exact absurd h (parse_expr_ne_out_of_fuel _)
  · intro p n h
    refine ⟨ws_loop_budget p n h, (lex_match_whitespace_exit p).1,
      (lex_match_whitespace_exit p).2, ?_⟩
    rw [lex_match_whitespace_stream]
    exact skipWs_consumed _
  · intro p n str h
    exact ⟨lex_read_literal_budget p n str h, lex_read_literal_exit p⟩
  · intro l p e p1 hr he hd
    obtain ⟨⟨k, hk, hp1, _⟩, hw⟩ := parse_expr_consumes p e p1 he
    refine ⟨?_, ⟨k, hk, hp1⟩, hw⟩
    rw [parse_list_eq_other _ _ hr, he]
    unfold ParseResult.bind
    simp only []
    unfold list_tail
    rw [if_neg hd]
  · intro l p hp
    have he := parse_expr_eq_other p (Or.inl hp)
    refine ⟨he, ?_⟩
    rw [parse_list_eq_other _ _ (by rw [hp]; decide), he]
    rfl

theorem C18_termination_witness :
    (∃ k, 1 ≤ k ∧
      (⟨[], ⟨TOKEN_EOF, none, 0⟩⟩ : Parser)
        = advance k ⟨['1', ' ', '2', ')'], ⟨TOKEN_LPAREN, none, 0⟩⟩ ∧
      TOKEN_EOF ∉ token_types k ⟨['1', ' ', '2', ')'], ⟨TOKEN_LPAREN, none, 0⟩⟩) ∧
    weight ⟨[], ⟨TOKEN_EOF, none, 0⟩⟩
      < weight ⟨['1', ' ', '2', ')'], ⟨TOKEN_LPAREN, none, 0⟩⟩ :=
  (C18_termination ⟨[], ⟨TOKEN_EOF, none, 0⟩⟩ ['(']).2.2.2.2.2.2.1
    ⟨['1', ' ', '2', ')'], ⟨TOKEN_LPAREN, none, 0⟩⟩
    (Expr.Pair (Expr.Integer 1) (Expr.Pair (Expr.Integer 2) Expr.Nil))
    ⟨[], ⟨TOKEN_EOF, none, 0⟩⟩ (by decide)

/-- C19: the cursor never moves past the terminator. After any number `k` of
`parse_next_token` calls the cursor has moved over characters none of which is the
terminator, so a terminator in the text is still ahead of it; each call leaves the cursor
at or after the place where it was; once the end-of-input token has been produced, every
later call produces it again with the cursor unchanged, on the terminator. Every guard in
front of a `lex_advance` implies that the current character is not the terminator. -/
theorem C19_cursor_within_text (p : Parser) (k : Nat) (i : Char) (a b : List Char) :
    (∃ pre, p.stream = pre ++ (advance k p).stream ∧ '\x00' ∉ pre) ∧
    (p.stream = a ++ '\x00' :: b →
      ∃ a0 a1, a = a0 ++ a1 ∧ (advance k p).stream = a1 ++ '\x00' :: b) ∧
    (∃ pre, (advance k p).stream = pre ++ (parse_next_token (advance k p)).stream ∧
      '\x00' ∉ pre) ∧
    ((parse_next_token p).last_token.type = TOKEN_EOF →
      ∀ j, advance j (parse_next_token p) = parse_next_token p) ∧
    ((parse_next_token p).last_token.type = TOKEN_EOF →
      lex_last (parse_next_token p) = '\x00') ∧
    (i ≠ '\x00' → (lex_match p i).1 = true → lex_last p ≠ '\x00' ∧ p.stream ≠ []) ∧
    (lex_is_whitespace p = true → lex_last p ≠ '\x00' ∧ p.stream ≠ []) ∧
    ((lex_is p '\x00' || lex_is p '\n') = false → lex_last p ≠ '\x00' ∧ p.stream ≠ []) ∧
    (lex_is_literal p = true → lex_last p ≠ '\x00' ∧ p.stream ≠ []) ∧
    ((lex_match_digit p).1 = true → lex_last p ≠ '\x00' ∧ p.stream ≠ []) := by
  have hne : lex_last p ≠ '\x00' → p.stream ≠ [] := by
    intro h e
    apply h
    simp [lex_last, e]
  have hg := guard_nonzero (lex_last p)
  refine ⟨advance_consumed k p, fun hs => consumed_before_terminator (advance_consumed k p) hs,
    parse_next_token_consumed _, advance_eof_fixed p, ?_, ?_, ?_, ?_, ?_, ?_⟩
  · intro h
    rcases (parse_next_token_eof p h).1 with e | ⟨r, e⟩ <;> simp [lex_last, e]
  · intro hi hm
    have : lex_last p = i := by
      unfold lex_match at hm
      split_ifs at hm with h1
      simpa using h1
    have h2 : lex_last p ≠ '\x00' := by rw [this]; exact hi
    exact ⟨h2, hne h2⟩
  · intro h
    exact ⟨hg.1 h, hne (hg.1 h)⟩
  · intro h
    have h2 : lex_last p ≠ '\x00' := by
      simp only [lex_is, Bool.or_eq_false_iff, beq_eq_false_iff_ne] at h
      exact h.1
    exact ⟨h2, hne h2⟩
  · intro h
    exact ⟨hg.2.1 h, hne (hg.2.1 h)⟩
  · intro h
    have h2 : is_digit_char (lex_last p) = true := by
      unfold lex_match_digit at h
      split_ifs at h with h1
      exact h1
    exact ⟨hg.2.2 h2, hne (hg.2.2 h2)⟩

theorem C19_cursor_within_text_witness :
    ∃ a0 a1, ['4', '2', ' ', 'x'] = a0 ++ a1 ∧
      (advance 5 ⟨['4', '2', ' ', 'x', '\x00', 'y'], ⟨TOKEN_EOF, none, 0⟩⟩).stream
        = a1 ++ '\x00' :: ['y'] :=
  (C19_cursor_within_text ⟨['4', '2', ' ', 'x', '\x00', 'y'], ⟨TOKEN_EOF, none, 0⟩⟩ 5 '('
    ['4', '2', ' ', 'x'] ['y']).2.1 rfl

end Blisp
